import Mathlib

/-!
Ray tracer core (`raytracer_interativo.c`): shallow embedding.

The C program computes on `float`.  The embedding is written over an arbitrary
linearly ordered field `F` (exact arithmetic, every scalar finite), and the
functions the program takes from the C math library (`sqrtf`, `sinf`, `cosf`,
`tanf`, `powf`) are a parameter `m : Libm F` of every definition that calls
one of them.  A theorem that needs a fact about one of those functions states
it as a hypothesis on `m`; rounding, NaN and infinities of IEEE arithmetic are
outside the model.
-/

namespace Raytracer

/-! ## Data model -/

/-- The functions of `<math.h>` the program calls. -/
structure Libm (F : Type) where
  sqrtf : F → F
  sinf : F → F
  cosf : F → F
  tanf : F → F
  powf : F → F → F

/-- The struct `Vec3f`: `typedef struct { float x, y, z; } Vec3f;` -/
structure Vec3f (F : Type) where
  x : F
  y : F
  z : F
deriving DecidableEq

/-- The struct `Sphere`, field by field. -/
structure Sphere (F : Type) where
  center : Vec3f F
  radius : F
  radius2 : F
  surfaceColor : Vec3f F
  emissionColor : Vec3f F
  reflection : F
  transparency : F
deriving DecidableEq

/-- The struct `Camera`, field by field. -/
structure Camera (F : Type) where
  pos : Vec3f F
  forward : Vec3f F
  right : Vec3f F
  up : Vec3f F
  pitch : F
  yaw : F
deriving DecidableEq

section Defs

variable {F : Type} [LinearOrderedField F]

/-- The constant `M_PI`: `#define M_PI 3.14159265358979323846` -/
def M_PI : F := 3.14159265358979323846

/-- The constant `MAX_RAY_DEPTH`: `#define MAX_RAY_DEPTH 5` -/
def MAX_RAY_DEPTH : Int := 5

/-! ## Vector functions -/

def vec_add (a b : Vec3f F) : Vec3f F :=
  ⟨a.x + b.x, a.y + b.y, a.z + b.z⟩

def vec_sub (a b : Vec3f F) : Vec3f F :=
  ⟨a.x - b.x, a.y - b.y, a.z - b.z⟩

def vec_mul_scalar (a : Vec3f F) (s : F) : Vec3f F :=
  ⟨a.x * s, a.y * s, a.z * s⟩

def vec_mul (a b : Vec3f F) : Vec3f F :=
  ⟨a.x * b.x, a.y * b.y, a.z * b.z⟩

def vec_dot (a b : Vec3f F) : F :=
  a.x * b.x + a.y * b.y + a.z * b.z

def vec_length (m : Libm F) (a : Vec3f F) : F :=
  m.sqrtf (vec_dot a a)

def vec_normalize (m : Libm F) (a : Vec3f F) : Vec3f F :=
  let len := vec_length m a
  if len > 0 then
    let inv := 1 / len
    ⟨a.x * inv, a.y * inv, a.z * inv⟩
  else
    a

def vec_neg (a : Vec3f F) : Vec3f F :=
  ⟨-a.x, -a.y, -a.z⟩

def vec_cross (a b : Vec3f F) : Vec3f F :=
  ⟨a.y * b.z - a.z * b.y, a.z * b.x - a.x * b.z, a.x * b.y - a.y * b.x⟩

/-! ## Utilities -/

def mixf (a b mix : F) : F :=
  b * mix + a * (1 - mix)

def clampf (x a b : F) : F :=
  if x < a then a else if x > b then b else x

/-! ## Camera -/

def camera_init (pos : Vec3f F) : Camera F :=
  { pos := pos, pitch := 0, yaw := 0,
    forward := ⟨0, 0, -1⟩, right := ⟨1, 0, 0⟩, up := ⟨0, 1, 0⟩ }

def camera_update_vectors (m : Libm F) (cam : Camera F) : Camera F :=
  let forward : Vec3f F :=
    ⟨m.cosf cam.pitch * m.sinf cam.yaw, m.sinf cam.pitch, -m.cosf cam.pitch * m.cosf cam.yaw⟩
  let forward := vec_normalize m forward
  let worldUp : Vec3f F := ⟨0, 1, 0⟩
  let right := vec_cross forward worldUp
  let right := vec_normalize m right
  let up := vec_cross right forward
  let up := vec_normalize m up
  { cam with forward := forward, right := right, up := up }

def camera_move (cam : Camera F) (direction : Vec3f F) (speed : F) : Camera F :=
  { cam with pos := vec_add cam.pos (vec_mul_scalar direction speed) }

/-- The constant `limit` of `camera_rotate`: `M_PI / 2.0f - 0.01f`. -/
def pitch_limit : F := M_PI / 2 - 0.01

def camera_rotate (m : Libm F) (cam : Camera F) (dpitch dyaw : F) : Camera F :=
  let pitch := cam.pitch + dpitch
  let yaw := cam.yaw + dyaw
  let limit : F := pitch_limit
  let pitch := if pitch > limit then limit else pitch
  let pitch := if pitch < -limit then -limit else pitch
  camera_update_vectors m { cam with pitch := pitch, yaw := yaw }

/-! ## Ray-sphere intersection -/

/-- The function `sphere_intersect`: `none` is the result `false` (the out-parameters are
left untouched), `some (t0, t1)` the result `true` with `*t0` and `*t1`. -/
def sphere_intersect (m : Libm F) (s : Sphere F) (rayorig raydir : Vec3f F) : Option (F × F) :=
  let L := vec_sub s.center rayorig
  let tca := vec_dot L raydir
  if tca < 0 then none
  else
    let d2 := vec_dot L L - tca * tca
    if d2 > s.radius2 then none
    else
      let thc := m.sqrtf (s.radius2 - d2)
      some (tca - thc, tca + thc)

/-- The arguments `sphere_intersect` passes to `sqrtf`, in call order: the same
control flow as `sphere_intersect`, recording the call instead of making it. -/
def sphere_intersect_sqrtf_args (s : Sphere F) (rayorig raydir : Vec3f F) : List F :=
  let L := vec_sub s.center rayorig
  let tca := vec_dot L raydir
  if tca < 0 then []
  else
    let d2 := vec_dot L L - tca * tca
    if d2 > s.radius2 then []
    else [s.radius2 - d2]

/-! ## Recursive ray tracing -/

/-- The body of the nearest-hit loop of `trace`.  The state is the pair
`(tnear, sphere)`; `none` is the initial state `tnear = INFINITY`,
`sphere = NULL`, against which the test `t0 < tnear` succeeds for every scalar
of the model. -/
def nearest_step (m : Libm F) (rayorig raydir : Vec3f F)
    (acc : Option (F × Sphere F)) (s : Sphere F) : Option (F × Sphere F) :=
  match sphere_intersect m s rayorig raydir with
  | none => acc
  | some (t0, t1) =>
    let t0 := if t0 < 0 then t1 else t0
    match acc with
    | none => some (t0, s)
    | some (tnear, _) => if t0 < tnear then some (t0, s) else acc

/-- The nearest-hit loop of `trace`, `for (i = 0; i < numSpheres; ++i)`. -/
def nearest_hit (m : Libm F) (rayorig raydir : Vec3f F) (spheres : List (Sphere F)) :
    Option (F × Sphere F) :=
  spheres.foldl (nearest_step m rayorig raydir) none

/-- The local constant of `trace`, `float bias = 1e-4f;` -/
def bias : F := 1e-4

/-- The shadow loop of `trace`, `for (j = 0; j < numSpheres; ++j)`, from index
`j` on over the spheres not yet visited: the value of `transmission` after it.
A hit on a sphere `j != i` sets it to zero and leaves the loop. -/
def shadow_loop (m : Libm F) (i : Nat) (orig lightDirection : Vec3f F) :
    Nat → List (Sphere F) → Vec3f F → Vec3f F
  | _, [], transmission => transmission
  | j, sj :: rest, transmission =>
    if i ≠ j ∧ (sphere_intersect m sj orig lightDirection).isSome then
      ⟨0, 0, 0⟩
    else
      shadow_loop m i orig lightDirection (j + 1) rest transmission

/-- The body of the light loop of `trace`'s diffuse branch for `spheres[i] = si`:
the value of `surfaceColor` after the iteration. -/
def light_step (m : Libm F) (spheres : List (Sphere F)) (sphere : Sphere F)
    (phit nhit : Vec3f F) (i : Nat) (si : Sphere F) (surfaceColor : Vec3f F) : Vec3f F :=
  if si.emissionColor.x > 0 ∨ si.emissionColor.y > 0 ∨ si.emissionColor.z > 0 then
    let transmission : Vec3f F := ⟨1, 1, 1⟩
    let lightDirection := vec_sub si.center phit
    let lightDirection := vec_normalize m lightDirection
    let transmission :=
      shadow_loop m i (vec_add phit (vec_mul_scalar nhit bias)) lightDirection 0 spheres
        transmission
    let dotLN := vec_dot nhit lightDirection
    if dotLN > 0 then
      let contrib := vec_mul (vec_mul sphere.surfaceColor transmission) si.emissionColor
      let contrib := vec_mul_scalar contrib dotLN
      vec_add surfaceColor contrib
    else
      surfaceColor
  else
    surfaceColor

/-- The light loop of `trace`'s diffuse branch, `for (i = 0; i < numSpheres; ++i)`,
from index `i` on over the spheres not yet visited. -/
def light_loop (m : Libm F) (spheres : List (Sphere F)) (sphere : Sphere F)
    (phit nhit : Vec3f F) : Nat → List (Sphere F) → Vec3f F → Vec3f F
  | _, [], surfaceColor => surfaceColor
  | i, si :: rest, surfaceColor =>
    light_loop m spheres sphere phit nhit (i + 1) rest
      (light_step m spheres sphere phit nhit i si surfaceColor)

/-- The function `trace`.  `spheres` with its length stands for the pair
`(spheres, numSpheres)`; `depth` is the C `int`. -/
def trace (m : Libm F) (rayorig raydir : Vec3f F) (spheres : List (Sphere F)) (depth : Int) :
    Vec3f F :=
  match nearest_hit m rayorig raydir spheres with
  | none => ⟨0.5, 0.7, 0.9⟩
  | some (tnear, sphere) =>
    let surfaceColor : Vec3f F := ⟨0, 0, 0⟩
    let phit := vec_add rayorig (vec_mul_scalar raydir tnear)
    let nhit := vec_sub phit sphere.center
    let nhit := vec_normalize m nhit
    let flip : Bool := decide (vec_dot raydir nhit > 0)
    let nhit := if flip then vec_neg nhit else nhit
    let inside : Bool := flip
    let surfaceColor :=
      if h : (sphere.transparency > 0 ∨ sphere.reflection > 0) ∧ depth < MAX_RAY_DEPTH then
        let facingratio := -vec_dot raydir nhit
        let fresneleffect := mixf (m.powf (1 - facingratio) 3) 1 0.1
        let refldir := vec_sub raydir (vec_mul_scalar nhit (2 * vec_dot raydir nhit))
        let refldir := vec_normalize m refldir
        let reflection :=
          trace m (vec_add phit (vec_mul_scalar nhit bias)) refldir spheres (depth + 1)
        let refraction : Vec3f F :=
          if sphere.transparency > 0 then
            let ior : F := 1.1
            let eta := if inside then ior else 1 / ior
            let cosi := -vec_dot nhit raydir
            let k := 1 - eta * eta * (1 - cosi * cosi)
            if k ≥ 0 then
              let refrdir :=
                vec_add (vec_mul_scalar raydir eta)
                  (vec_mul_scalar nhit (eta * cosi - m.sqrtf k))
              let refrdir := vec_normalize m refrdir
              trace m (vec_sub phit (vec_mul_scalar nhit bias)) refrdir spheres (depth + 1)
            else ⟨0, 0, 0⟩
          else ⟨0, 0, 0⟩
        let term1 := vec_mul_scalar reflection fresneleffect
        let term2 := vec_mul_scalar refraction ((1 - fresneleffect) * sphere.transparency)
        vec_mul (vec_add term1 term2) sphere.surfaceColor
      else
        light_loop m spheres sphere phit nhit 0 spheres surfaceColor
    vec_add surfaceColor sphere.emissionColor
termination_by (MAX_RAY_DEPTH - depth).toNat
decreasing_by
  all_goals simp_wf
  all_goals (have hd := h.2; simp only [MAX_RAY_DEPTH] at hd ⊢; omega)

/-- The value of `phit` in `trace` for the nearest distance `tnear`. -/
def hit_point (rayorig raydir : Vec3f F) (tnear : F) : Vec3f F :=
  vec_add rayorig (vec_mul_scalar raydir tnear)

/-- The value of `nhit` in `trace` after the test `vec_dot(raydir, nhit) > 0`
that negates the normal of a ray leaving the sphere. -/
def hit_normal (m : Libm F) (raydir phit : Vec3f F) (sphere : Sphere F) : Vec3f F :=
  let nhit := vec_sub phit sphere.center
  let nhit := vec_normalize m nhit
  if vec_dot raydir nhit > 0 then vec_neg nhit else nhit

/-- The value `trace` returns through its diffuse branch for the nearest hit
`(tnear, sphere)`: the light loop from a zero colour, plus the emission of the
hit sphere. -/
def diffuse_shade (m : Libm F) (rayorig raydir : Vec3f F) (spheres : List (Sphere F))
    (tnear : F) (sphere : Sphere F) : Vec3f F :=
  let phit := hit_point rayorig raydir tnear
  let nhit := hit_normal m raydir phit sphere
  vec_add (light_loop m spheres sphere phit nhit 0 spheres ⟨0, 0, 0⟩) sphere.emissionColor

/-- A sphere with `reflection` and `transparency` set to `0`, every other field kept. -/
def Sphere.matte (s : Sphere F) : Sphere F :=
  { s with reflection := 0, transparency := 0 }

/-! ## Scene -/

/-- The six spheres `setup_scene` stores. -/
def setup_scene : List (Sphere F) :=
  [ { center := ⟨0, 0, -10⟩, radius := 1.5, radius2 := 1.5 * 1.5,
      surfaceColor := ⟨1, 0.2, 0.2⟩, emissionColor := ⟨0, 0, 0⟩,
      reflection := 0.5, transparency := 0 },
    { center := ⟨3, 0, -8⟩, radius := 1.2, radius2 := 1.2 * 1.2,
      surfaceColor := ⟨0.9, 0.9, 0.9⟩, emissionColor := ⟨0, 0, 0⟩,
      reflection := 0.9, transparency := 0.9 },
    { center := ⟨-3, 0.5, -7⟩, radius := 1, radius2 := 1 * 1,
      surfaceColor := ⟨0.2, 0.3, 0.8⟩, emissionColor := ⟨0, 0, 0⟩,
      reflection := 0.7, transparency := 0 },
    { center := ⟨0, -1004, -10⟩, radius := 1000, radius2 := 1000 * 1000,
      surfaceColor := ⟨0.4, 0.6, 0.4⟩, emissionColor := ⟨0, 0, 0⟩,
      reflection := 0.1, transparency := 0 },
    { center := ⟨-5, 10, -5⟩, radius := 1, radius2 := 1 * 1,
      surfaceColor := ⟨1, 1, 1⟩, emissionColor := ⟨2, 2, 1.5⟩,
      reflection := 0, transparency := 0 },
    { center := ⟨5, 8, -8⟩, radius := 0.8, radius2 := 0.8 * 0.8,
      surfaceColor := ⟨1, 1, 1⟩, emissionColor := ⟨1, 1.5, 2.5⟩,
      reflection := 0, transparency := 0 } ]

/-! ## Calls on the camera and assumptions on the math library -/

/-- A call the frame loop makes on the camera after `camera_init`. -/
inductive CameraCall (F : Type) where
  | rotate (dpitch dyaw : F)
  | move (direction : Vec3f F) (speed : F)

/-- The camera after one call. -/
def camera_call (m : Libm F) (cam : Camera F) : CameraCall F → Camera F
  | CameraCall.rotate dpitch dyaw => camera_rotate m cam dpitch dyaw
  | CameraCall.move direction speed => camera_move cam direction speed

/-- The camera after `camera_init(&cam, pos)` followed by the calls, in order. -/
def camera_run (m : Libm F) (pos : Vec3f F) (calls : List (CameraCall F)) : Camera F :=
  calls.foldl (camera_call m) (camera_init pos)

/-- The facts about the exact real `sqrt`, `sin` and `cos` that theorems on
exact results assume of `sqrtf`, `sinf` and `cosf`. -/
structure Libm.Exact (m : Libm F) : Prop where
  sqrtf_nonneg : ∀ x, 0 ≤ x → 0 ≤ m.sqrtf x
  sqrtf_mul_self : ∀ x, 0 ≤ x → m.sqrtf x * m.sqrtf x = x
  sinf_sq_add_cosf_sq : ∀ x, m.sinf x * m.sinf x + m.cosf x * m.cosf x = 1
  cosf_pos : ∀ x, -(M_PI / 2) < x → x < M_PI / 2 → 0 < m.cosf x
  sinf_zero : m.sinf 0 = 0
  cosf_zero : m.cosf 0 = 1

/-- The camera's `forward`, `right` and `up` are each of length one and pairwise
orthogonal. -/
def Camera.orthonormal (m : Libm F) (cam : Camera F) : Prop :=
  vec_length m cam.forward = 1 ∧ vec_length m cam.right = 1 ∧ vec_length m cam.up = 1 ∧
  vec_dot cam.forward cam.right = 0 ∧ vec_dot cam.forward cam.up = 0 ∧
  vec_dot cam.right cam.up = 0

/-- The quantity `tca` of `sphere_intersect`: `dot(L, raydir)` with `L = center - rayorig`. -/
def sphere_tca (s : Sphere F) (rayorig raydir : Vec3f F) : F :=
  vec_dot (vec_sub s.center rayorig) raydir

/-- The quantity `d2` of `sphere_intersect`: `dot(L, L) - tca * tca`. -/
def sphere_d2 (s : Sphere F) (rayorig raydir : Vec3f F) : F :=
  vec_dot (vec_sub s.center rayorig) (vec_sub s.center rayorig) -
    sphere_tca s rayorig raydir * sphere_tca s rayorig raydir

/-! ## A small scene for the shadow test -/

/-- A diffuse sphere of radius one whose top point is the origin. -/
def test_floor : Sphere F :=
  { center := ⟨0, -1, 0⟩, radius := 1, radius2 := 1 * 1,
    surfaceColor := ⟨0.4, 0.6, 0.4⟩, emissionColor := ⟨0, 0, 0⟩,
    reflection := 0, transparency := 0 }

/-- An emissive sphere centred one unit above the origin. -/
def test_light : Sphere F :=
  { center := ⟨0, 1, 0⟩, radius := 0.2, radius2 := 0.2 * 0.2,
    surfaceColor := ⟨1, 1, 1⟩, emissionColor := ⟨2, 2, 1.5⟩,
    reflection := 0, transparency := 0 }

/-- A diffuse sphere halfway between the origin and `test_light`. -/
def test_occluder : Sphere F :=
  { center := ⟨0, 0.5, 0⟩, radius := 0.1, radius2 := 0.1 * 0.1,
    surfaceColor := ⟨1, 0.2, 0.2⟩, emissionColor := ⟨0, 0, 0⟩,
    reflection := 0, transparency := 0 }

/-- A sphere of radius two centred at the origin. -/
def test_ball : Sphere F :=
  { center := ⟨0, 0, 0⟩, radius := 2, radius2 := 2 * 2,
    surfaceColor := ⟨1, 1, 1⟩, emissionColor := ⟨0, 0, 0⟩,
    reflection := 0, transparency := 0 }

/-- The divisors of the divisions `vec_normalize` performs, in order: the same
control flow as `vec_normalize`, recording the divisor of `1.0f / len` instead
of dividing. -/
def vec_normalize_divisors (m : Libm F) (a : Vec3f F) : List F :=
  let len := vec_length m a
  if len > 0 then [len] else []

/-! ## Locals of the reflection/refraction branch of `trace` -/

/-- The value of `inside` in `trace`: the test `vec_dot(raydir, nhit) > 0` on
the normal before it is negated. -/
def ray_inside (m : Libm F) (raydir phit : Vec3f F) (sphere : Sphere F) : Bool :=
  decide (vec_dot raydir (vec_normalize m (vec_sub phit sphere.center)) > 0)

/-- The value of `fresneleffect` in `trace`. -/
def fresnel_effect (m : Libm F) (raydir nhit : Vec3f F) : F :=
  let facingratio := -vec_dot raydir nhit
  mixf (m.powf (1 - facingratio) 3) 1 0.1

/-- The value of `refldir` in `trace`, after `vec_normalize`. -/
def reflect_dir (m : Libm F) (raydir nhit : Vec3f F) : Vec3f F :=
  let refldir := vec_sub raydir (vec_mul_scalar nhit (2 * vec_dot raydir nhit))
  vec_normalize m refldir

/-- The value of `eta` in `trace`: `inside ? ior : (1.0f / ior)` with `ior = 1.1f`. -/
def refract_eta (inside : Bool) : F :=
  let ior : F := 1.1
  if inside then ior else 1 / ior

/-- The value of `k` in `trace`. -/
def refract_k (eta : F) (raydir nhit : Vec3f F) : F :=
  let cosi := -vec_dot nhit raydir
  1 - eta * eta * (1 - cosi * cosi)

/-- The value of `refrdir` in `trace`, after `vec_normalize`. -/
def refract_dir (m : Libm F) (eta : F) (raydir nhit : Vec3f F) : Vec3f F :=
  let cosi := -vec_dot nhit raydir
  let k := 1 - eta * eta * (1 - cosi * cosi)
  let refrdir :=
    vec_add (vec_mul_scalar raydir eta) (vec_mul_scalar nhit (eta * cosi - m.sqrtf k))
  vec_normalize m refrdir

/-- A sphere of radius two centred at the origin, reflective and transparent. -/
def test_glass : Sphere F :=
  { center := ⟨0, 0, 0⟩, radius := 2, radius2 := 2 * 2,
    surfaceColor := ⟨0.9, 0.9, 0.9⟩, emissionColor := ⟨0, 0, 0⟩,
    reflection := 0.9, transparency := 0.9 }

/-- The distance the nearest-hit loop of `trace` takes for one sphere: `t0`, or
`t1` when `t0 < 0`; `none` when `sphere_intersect` reports a miss. -/
def hit_candidate (m : Libm F) (s : Sphere F) (rayorig raydir : Vec3f F) : Option F :=
  match sphere_intersect m s rayorig raydir with
  | none => none
  | some (t0, t1) => some (if t0 < 0 then t1 else t0)

/-- A diffuse sphere of radius one whose surface passes through the origin. -/
def test_touch : Sphere F :=
  { center := ⟨0, 0, -1⟩, radius := 1, radius2 := 1 * 1,
    surfaceColor := ⟨1, 0.2, 0.2⟩, emissionColor := ⟨0, 0, 0⟩,
    reflection := 0, transparency := 0 }

/-! ## Rendering -/

/-- The value of `xx` in `render` for the column `x`. -/
def render_xx (m : Libm F) (width height x : Nat) : F :=
  let invWidth : F := 1 / (width : F)
  let fov : F := 30
  let aspectratio : F := (width : F) / (height : F)
  let angle := m.tanf (M_PI * 0.5 * fov / 180)
  (2 * (((x : F) + 0.5) * invWidth) - 1) * angle * aspectratio

/-- The value of `yy` in `render` for the row `y`. -/
def render_yy (m : Libm F) (height y : Nat) : F :=
  let invHeight : F := 1 / (height : F)
  let fov : F := 30
  let angle := m.tanf (M_PI * 0.5 * fov / 180)
  (1 - 2 * (((y : F) + 0.5) * invHeight)) * angle

/-- The value of `raydir` in `render` for the pixel `(x, y)`, after `vec_normalize`. -/
def render_raydir (m : Libm F) (width height : Nat) (cam : Camera F) (x y : Nat) : Vec3f F :=
  let xx := render_xx m width height x
  let yy := render_yy m height y
  let raydir :=
    vec_add cam.forward (vec_add (vec_mul_scalar cam.right xx) (vec_mul_scalar cam.up yy))
  vec_normalize m raydir

/-- The index `y * width + x` of `render`, computed on `unsigned` (32 bits). -/
def image_index (width x y : Nat) : Nat :=
  (y * width + x) % 2 ^ 32

/-- The inner loop of `render`, `for (unsigned x = 0; x < width; ++x)`, on row
`y`: the image buffer after it.  The buffer is a map from indices to colours. -/
def render_row (m : Libm F) (image : Nat → Vec3f F) (width height : Nat)
    (spheres : List (Sphere F)) (cam : Camera F) (y : Nat) : Nat → Vec3f F :=
  (List.range width).foldl
    (fun image x =>
      Function.update image (image_index width x y)
        (trace m cam.pos (render_raydir m width height cam x y) spheres 0))
    image

/-- The function `render`: the image buffer after the loop
`for (unsigned y = 0; y < height; ++y)`, run in row order. -/
def render (m : Libm F) (image : Nat → Vec3f F) (width height : Nat)
    (spheres : List (Sphere F)) (cam : Camera F) : Nat → Vec3f F :=
  (List.range height).foldl
    (fun image y => render_row m image width height spheres cam y)
    image

/-- The indices the inner loop of `render` stores to on row `y`, appended in
order to those stored before: the same loop as `render_row`, recording the
index of each store. -/
def render_row_stores (width y : Nat) (stores : List Nat) : List Nat :=
  (List.range width).foldl (fun stores x => stores ++ [image_index width x y]) stores

/-- The indices `render` stores to, in order: the same loops as `render`,
recording the index of each store. -/
def render_stores (width height : Nat) : List Nat :=
  (List.range height).foldl (fun stores y => render_row_stores width y stores) []

/-! ## Recording the calls of `trace` -/

/-- The function `trace` with a record of its calls: the same body as `trace`,
returning with the colour the `depth` argument of every invocation made, the
outermost one first, then those of the reflection call, then those of the
refraction call. -/
def trace_logged (m : Libm F) (rayorig raydir : Vec3f F) (spheres : List (Sphere F))
    (depth : Int) : Vec3f F × List Int :=
  match nearest_hit m rayorig raydir spheres with
  | none => (⟨0.5, 0.7, 0.9⟩, [depth])
  | some (tnear, sphere) =>
    let surfaceColor : Vec3f F := ⟨0, 0, 0⟩
    let phit := vec_add rayorig (vec_mul_scalar raydir tnear)
    let nhit := vec_sub phit sphere.center
    let nhit := vec_normalize m nhit
    let flip : Bool := decide (vec_dot raydir nhit > 0)
    let nhit := if flip then vec_neg nhit else nhit
    let inside : Bool := flip
    if _h : (sphere.transparency > 0 ∨ sphere.reflection > 0) ∧ depth < MAX_RAY_DEPTH then
      let facingratio := -vec_dot raydir nhit
      let fresneleffect := mixf (m.powf (1 - facingratio) 3) 1 0.1
      let refldir := vec_sub raydir (vec_mul_scalar nhit (2 * vec_dot raydir nhit))
      let refldir := vec_normalize m refldir
      let reflection :=
        trace_logged m (vec_add phit (vec_mul_scalar nhit bias)) refldir spheres (depth + 1)
      let refraction : Vec3f F × List Int :=
        if sphere.transparency > 0 then
          let ior : F := 1.1
          let eta := if inside then ior else 1 / ior
          let cosi := -vec_dot nhit raydir
          let k := 1 - eta * eta * (1 - cosi * cosi)
          if k ≥ 0 then
            let refrdir :=
              vec_add (vec_mul_scalar raydir eta)
                (vec_mul_scalar nhit (eta * cosi - m.sqrtf k))
            let refrdir := vec_normalize m refrdir
            trace_logged m (vec_sub phit (vec_mul_scalar nhit bias)) refrdir spheres
              (depth + 1)
          else (⟨0, 0, 0⟩, [])
        else (⟨0, 0, 0⟩, [])
      let term1 := vec_mul_scalar reflection.1 fresneleffect
      let term2 := vec_mul_scalar refraction.1 ((1 - fresneleffect) * sphere.transparency)
      let surfaceColor := vec_mul (vec_add term1 term2) sphere.surfaceColor
      (vec_add surfaceColor sphere.emissionColor, depth :: (reflection.2 ++ refraction.2))
    else
      let surfaceColor := light_loop m spheres sphere phit nhit 0 spheres surfaceColor
      (vec_add surfaceColor sphere.emissionColor, [depth])
termination_by (MAX_RAY_DEPTH - depth).toNat
decreasing_by
  all_goals simp_wf
  all_goals (have hd := _h.2; simp only [MAX_RAY_DEPTH] at hd ⊢; omega)

/-- The recursive calls one invocation of `trace` makes itself, in order, each
as `(rayorig, raydir, depth)`: the control flow of `trace`, recording the
arguments of each call of `trace` in its body. -/
def trace_subcalls (m : Libm F) (rayorig raydir : Vec3f F) (spheres : List (Sphere F))
    (depth : Int) : List (Vec3f F × Vec3f F × Int) :=
  match nearest_hit m rayorig raydir spheres with
  | none => []
  | some (tnear, sphere) =>
    let phit := hit_point rayorig raydir tnear
    let nhit := hit_normal m raydir phit sphere
    let inside := ray_inside m raydir phit sphere
    if (sphere.transparency > 0 ∨ sphere.reflection > 0) ∧ depth < MAX_RAY_DEPTH then
      (vec_add phit (vec_mul_scalar nhit bias), reflect_dir m raydir nhit, depth + 1) ::
        (if sphere.transparency > 0 then
          if refract_k (refract_eta inside) raydir nhit ≥ 0 then
            [(vec_sub phit (vec_mul_scalar nhit bias),
              refract_dir m (refract_eta inside) raydir nhit, depth + 1)]
          else []
        else [])
    else []

/-- A diffuse sphere three units above the origin, beyond `test_light` as seen
from the origin. -/
def test_far : Sphere F :=
  { center := ⟨0, 3, 0⟩, radius := 0.1, radius2 := 0.1 * 0.1,
    surfaceColor := ⟨1, 0.2, 0.2⟩, emissionColor := ⟨0, 0, 0⟩,
    reflection := 0, transparency := 0 }

/-! ## Scenes that differ in `reflection` values only -/

/-- Two spheres that agree on every field but `reflection`, whose `reflection`
values pass or fail the test `reflection > 0` together. -/
def Sphere.same_up_to_reflection (s s' : Sphere F) : Prop :=
  s.center = s'.center ∧ s.radius = s'.radius ∧ s.radius2 = s'.radius2 ∧
  s.surfaceColor = s'.surfaceColor ∧ s.emissionColor = s'.emissionColor ∧
  s.transparency = s'.transparency ∧ (s.reflection > 0 ↔ s'.reflection > 0)

/-- The states of the nearest-hit loop on two such scenes correspond: both
initial, or the same distance with corresponding spheres. -/
def nearest_corresponds : Option (F × Sphere F) → Option (F × Sphere F) → Prop
  | none, none => True
  | some (t, s), some (t', s') => t = t' ∧ s.same_up_to_reflection s'
  | _, _ => False

/-! ## The diffuse branch in the words of the specification -/

/-- Whether the shadow ray from `orig` along `dir` is reported hit by
`sphere_intersect` against some sphere of the scene other than sphere `i`. -/
def shadow_blocked (m : Libm F) (spheres : List (Sphere F)) (i : Nat)
    (orig dir : Vec3f F) : Bool :=
  (List.range spheres.length).any fun j =>
    match spheres[j]? with
    | some sj => decide (j ≠ i) && (sphere_intersect m sj orig dir).isSome
    | none => false

/-- What sphere `i = si` adds to the colour of a diffuse surface point, in the
words of the specification: `surfaceColor * emissionColor * dot(nhit, lightDir)`
when the sphere is emissive, its shadow ray is not blocked and
`dot(nhit, lightDir) > 0`; the zero vector otherwise. -/
def light_contribution (m : Libm F) (spheres : List (Sphere F)) (sphere : Sphere F)
    (phit nhit : Vec3f F) (i : Nat) (si : Sphere F) : Vec3f F :=
  let lightDir := vec_normalize m (vec_sub si.center phit)
  if (si.emissionColor.x > 0 ∨ si.emissionColor.y > 0 ∨ si.emissionColor.z > 0) ∧
      shadow_blocked m spheres i (vec_add phit (vec_mul_scalar nhit bias)) lightDir = false ∧
      vec_dot nhit lightDir > 0 then
    vec_mul_scalar (vec_mul sphere.surfaceColor si.emissionColor) (vec_dot nhit lightDir)
  else
    ⟨0, 0, 0⟩

/-- The contributions of the spheres `rest`, which start at index `i`, one a sphere. -/
def light_contributions_from (m : Libm F) (spheres : List (Sphere F)) (sphere : Sphere F)
    (phit nhit : Vec3f F) : Nat → List (Sphere F) → List (Vec3f F)
  | _, [] => []
  | i, si :: rest =>
    light_contribution m spheres sphere phit nhit i si ::
      light_contributions_from m spheres sphere phit nhit (i + 1) rest

/-- The contributions of all spheres of the scene, one a sphere, in scene order. -/
def light_contributions (m : Libm F) (spheres : List (Sphere F)) (sphere : Sphere F)
    (phit nhit : Vec3f F) : List (Vec3f F) :=
  light_contributions_from m spheres sphere phit nhit 0 spheres

/-- The sum of a list of vectors. -/
def vec_sum : List (Vec3f F) → Vec3f F
  | [] => ⟨0, 0, 0⟩
  | v :: rest => vec_add v (vec_sum rest)

/-! ## The same code in IEEE 754 binary32 arithmetic

The definitions above read `float` as an exact ordered field.  The definitions
of this part, named with the ending `_fl`, are the same code with a rounding
`fl` applied to the result of every `+`, `-`, `*`, `/` and to every literal of
the source with a fractional part (the integers that occur are binary32
values); `sqrtf` is the function the math library provides on the rounded
values.  With `fl` the identity they are the definitions above.  With
`fl = round_f32` and `sqrtf = sqrtf_f32` over the rational numbers they are
IEEE 754 binary32 arithmetic: a value is the rational number a finite `float`
stands for, and every operation is rounded once to the nearest binary32 value,
ties to even (the arithmetic of the documented build, `gcc -O3`, without
contraction into fused operations).  Infinities, NaN and the sign of zero are
outside this reading. -/

instance [DecidableEq F] : DecidableEq (Vec3f F) := fun a b =>
  decidable_of_iff (a.x = b.x ∧ a.y = b.y ∧ a.z = b.z)
    (by cases a; cases b; simp)

instance [DecidableEq F] : DecidableEq (Sphere F) := fun a b =>
  decidable_of_iff
    (a.center = b.center ∧ a.radius = b.radius ∧ a.radius2 = b.radius2 ∧
      a.surfaceColor = b.surfaceColor ∧ a.emissionColor = b.emissionColor ∧
      a.reflection = b.reflection ∧ a.transparency = b.transparency)
    (by cases a; cases b; simp)

/-- The power `2 ^ e` for an integer exponent, as a rational number. -/
def pow2 (e : Int) : ℚ :=
  if 0 ≤ e then ((2 ^ e.toNat : Nat) : ℚ) else 1 / ((2 ^ (-e).toNat : Nat) : ℚ)

/-- The number of binary digits of `n`, with the recursion bounded by `fuel`. -/
def bit_length_fuel : Nat → Nat → Nat
  | 0, _ => 0
  | fuel + 1, n => if n = 0 then 0 else bit_length_fuel fuel (n / 2) + 1

/-- The number of binary digits of `n`: `0` for `n = 0`, otherwise the `b` with
`2 ^ (b - 1) ≤ n < 2 ^ b`. -/
def bit_length (n : Nat) : Nat :=
  bit_length_fuel n n

/-- For `q ≠ 0` the integer `e` with `2 ^ e ≤ |q| < 2 ^ (e + 1)`. -/
def floor_log2 (q : ℚ) : Int :=
  let e : Int := (bit_length q.num.natAbs : Int) - (bit_length q.den : Int)
  if (q.num.natAbs : ℚ) < pow2 e * (q.den : ℚ) then e - 1 else e

/-- The integer nearest to `q`, the even one of the two when `q` lies halfway. -/
def round_half_even (q : ℚ) : Int :=
  let f := Rat.floor q
  let r := q - (f : ℚ)
  if r < 1 / 2 then f
  else if r > 1 / 2 then f + 1
  else if f % 2 = 0 then f else f + 1

/-- Rounding of a real result to binary32, to nearest, ties to even: 24
significant bits, gradual underflow below `2 ^ (-126)`.  Results beyond the
largest finite value are not mapped to infinity. -/
def round_f32 (q : ℚ) : ℚ :=
  if q = 0 then 0
  else
    let e := max (floor_log2 q) (-126)
    let ulp := pow2 (e - 23)
    (round_half_even (q / ulp) : ℚ) * ulp

/-- The integer square root by bisection: with `acc * acc ≤ n < (acc + 2 ^ b) ^ 2`
the largest `r` with `r * r ≤ n`. -/
def isqrt_bits (n : Nat) : Nat → Nat → Nat
  | 0, acc => acc
  | b + 1, acc =>
    if (acc + 2 ^ b) * (acc + 2 ^ b) ≤ n then isqrt_bits n b (acc + 2 ^ b)
    else isqrt_bits n b acc

/-- The largest `r` with `r * r ≤ n`. -/
def isqrt (n : Nat) : Nat :=
  isqrt_bits n (bit_length n / 2 + 1) 0

/-- The binary32 `sqrtf`, correctly rounded (to nearest, ties to even) as
IEEE 754 requires.  A negative argument, for which `sqrtf` gives NaN, is
outside this reading and mapped to `0`. -/
def sqrtf_f32 (q : ℚ) : ℚ :=
  if q ≤ 0 then 0
  else
    let h := max (floor_log2 q / 2) (-126)
    let ulp := pow2 (h - 23)
    let z := q / (ulp * ulp)
    let k := isqrt (Rat.floor z).toNat
    let mid : ℚ := ((k : ℚ) + 1 / 2) * ((k : ℚ) + 1 / 2)
    let n : Nat := if z < mid then k else if z > mid then k + 1
      else if k % 2 = 0 then k else k + 1
    (n : ℚ) * ulp

/-! ### The code with a rounding after every operation -/

def vec_add_fl (fl : F → F) (a b : Vec3f F) : Vec3f F :=
  ⟨fl (a.x + b.x), fl (a.y + b.y), fl (a.z + b.z)⟩

def vec_sub_fl (fl : F → F) (a b : Vec3f F) : Vec3f F :=
  ⟨fl (a.x - b.x), fl (a.y - b.y), fl (a.z - b.z)⟩

def vec_mul_scalar_fl (fl : F → F) (a : Vec3f F) (s : F) : Vec3f F :=
  ⟨fl (a.x * s), fl (a.y * s), fl (a.z * s)⟩

def vec_mul_fl (fl : F → F) (a b : Vec3f F) : Vec3f F :=
  ⟨fl (a.x * b.x), fl (a.y * b.y), fl (a.z * b.z)⟩

def vec_dot_fl (fl : F → F) (a b : Vec3f F) : F :=
  fl (fl (fl (a.x * b.x) + fl (a.y * b.y)) + fl (a.z * b.z))

def vec_length_fl (fl sqrtf : F → F) (a : Vec3f F) : F :=
  sqrtf (vec_dot_fl fl a a)

def vec_normalize_fl (fl sqrtf : F → F) (a : Vec3f F) : Vec3f F :=
  let len := vec_length_fl fl sqrtf a
  if len > 0 then
    let inv := fl (1 / len)
    ⟨fl (a.x * inv), fl (a.y * inv), fl (a.z * inv)⟩
  else
    a

def mixf_fl (fl : F → F) (a b mix : F) : F :=
  fl (fl (b * mix) + fl (a * fl (1 - mix)))

/-- The function `sphere_intersect` with rounded operations. -/
def sphere_intersect_fl (fl sqrtf : F → F) (s : Sphere F) (rayorig raydir : Vec3f F) :
    Option (F × F) :=
  let L := vec_sub_fl fl s.center rayorig
  let tca := vec_dot_fl fl L raydir
  if tca < 0 then none
  else
    let d2 := fl (vec_dot_fl fl L L - fl (tca * tca))
    if d2 > s.radius2 then none
    else
      let thc := sqrtf (fl (s.radius2 - d2))
      some (fl (tca - thc), fl (tca + thc))

/-- The body of the nearest-hit loop of `trace` with rounded operations. -/
def nearest_step_fl (fl sqrtf : F → F) (rayorig raydir : Vec3f F)
    (acc : Option (F × Sphere F)) (s : Sphere F) : Option (F × Sphere F) :=
  match sphere_intersect_fl fl sqrtf s rayorig raydir with
  | none => acc
  | some (t0, t1) =>
    let t0 := if t0 < 0 then t1 else t0
    match acc with
    | none => some (t0, s)
    | some (tnear, _) => if t0 < tnear then some (t0, s) else acc

/-- The nearest-hit loop of `trace` with rounded operations. -/
def nearest_hit_fl (fl sqrtf : F → F) (rayorig raydir : Vec3f F) (spheres : List (Sphere F)) :
    Option (F × Sphere F) :=
  spheres.foldl (nearest_step_fl fl sqrtf rayorig raydir) none

/-- The local constant of `trace`, `float bias = 1e-4f;`, rounded. -/
def bias_fl (fl : F → F) : F := fl 1e-4

/-- The shadow loop of `trace` with rounded operations. -/
def shadow_loop_fl (fl sqrtf : F → F) (i : Nat) (orig lightDirection : Vec3f F) :
    Nat → List (Sphere F) → Vec3f F → Vec3f F
  | _, [], transmission => transmission
  | j, sj :: rest, transmission =>
    if i ≠ j ∧ (sphere_intersect_fl fl sqrtf sj orig lightDirection).isSome then
      ⟨0, 0, 0⟩
    else
      shadow_loop_fl fl sqrtf i orig lightDirection (j + 1) rest transmission

/-- The body of the light loop of `trace`'s diffuse branch with rounded operations. -/
def light_step_fl (fl sqrtf : F → F) (spheres : List (Sphere F)) (sphere : Sphere F)
    (phit nhit : Vec3f F) (i : Nat) (si : Sphere F) (surfaceColor : Vec3f F) : Vec3f F :=
  if si.emissionColor.x > 0 ∨ si.emissionColor.y > 0 ∨ si.emissionColor.z > 0 then
    let transmission : Vec3f F := ⟨1, 1, 1⟩
    let lightDirection := vec_sub_fl fl si.center phit
    let lightDirection := vec_normalize_fl fl sqrtf lightDirection
    let transmission :=
      shadow_loop_fl fl sqrtf i (vec_add_fl fl phit (vec_mul_scalar_fl fl nhit (bias_fl fl)))
        lightDirection 0 spheres transmission
    let dotLN := vec_dot_fl fl nhit lightDirection
    if dotLN > 0 then
      let contrib :=
        vec_mul_fl fl (vec_mul_fl fl sphere.surfaceColor transmission) si.emissionColor
      let contrib := vec_mul_scalar_fl fl contrib dotLN
      vec_add_fl fl surfaceColor contrib
    else
      surfaceColor
  else
    surfaceColor

/-- The light loop of `trace`'s diffuse branch with rounded operations. -/
def light_loop_fl (fl sqrtf : F → F) (spheres : List (Sphere F)) (sphere : Sphere F)
    (phit nhit : Vec3f F) : Nat → List (Sphere F) → Vec3f F → Vec3f F
  | _, [], surfaceColor => surfaceColor
  | i, si :: rest, surfaceColor =>
    light_loop_fl fl sqrtf spheres sphere phit nhit (i + 1) rest
      (light_step_fl fl sqrtf spheres sphere phit nhit i si surfaceColor)

/-- The function `trace` with rounded operations. -/
def trace_fl (fl : F → F) (m : Libm F) (rayorig raydir : Vec3f F) (spheres : List (Sphere F))
    (depth : Int) : Vec3f F :=
  match nearest_hit_fl fl m.sqrtf rayorig raydir spheres with
  | none => ⟨fl 0.5, fl 0.7, fl 0.9⟩
  | some (tnear, sphere) =>
    let surfaceColor : Vec3f F := ⟨0, 0, 0⟩
    let phit := vec_add_fl fl rayorig (vec_mul_scalar_fl fl raydir tnear)
    let nhit := vec_sub_fl fl phit sphere.center
    let nhit := vec_normalize_fl fl m.sqrtf nhit
    let flip : Bool := decide (vec_dot_fl fl raydir nhit > 0)
    let nhit := if flip then vec_neg nhit else nhit
    let inside : Bool := flip
    let surfaceColor :=
      if _h : (sphere.transparency > 0 ∨ sphere.reflection > 0) ∧ depth < MAX_RAY_DEPTH then
        let facingratio := -vec_dot_fl fl raydir nhit
        let fresneleffect := mixf_fl fl (m.powf (fl (1 - facingratio)) 3) 1 (fl 0.1)
        let refldir :=
          vec_sub_fl fl raydir
            (vec_mul_scalar_fl fl nhit (fl (2 * vec_dot_fl fl raydir nhit)))
        let refldir := vec_normalize_fl fl m.sqrtf refldir
        let reflection :=
          trace_fl fl m (vec_add_fl fl phit (vec_mul_scalar_fl fl nhit (bias_fl fl))) refldir
            spheres (depth + 1)
        let refraction : Vec3f F :=
          if sphere.transparency > 0 then
            let ior : F := fl 1.1
            let eta := if inside then ior else fl (1 / ior)
            let cosi := -vec_dot_fl fl nhit raydir
            let k := fl (1 - fl (fl (eta * eta) * fl (1 - fl (cosi * cosi))))
            if k ≥ 0 then
              let refrdir :=
                vec_add_fl fl (vec_mul_scalar_fl fl raydir eta)
                  (vec_mul_scalar_fl fl nhit (fl (fl (eta * cosi) - m.sqrtf k)))
              let refrdir := vec_normalize_fl fl m.sqrtf refrdir
              trace_fl fl m (vec_sub_fl fl phit (vec_mul_scalar_fl fl nhit (bias_fl fl)))
                refrdir spheres (depth + 1)
            else ⟨0, 0, 0⟩
          else ⟨0, 0, 0⟩
        let term1 := vec_mul_scalar_fl fl reflection fresneleffect
        let term2 :=
          vec_mul_scalar_fl fl refraction (fl (fl (1 - fresneleffect) * sphere.transparency))
        vec_mul_fl fl (vec_add_fl fl term1 term2) sphere.surfaceColor
      else
        light_loop_fl fl m.sqrtf spheres sphere phit nhit 0 spheres surfaceColor
    vec_add_fl fl surfaceColor sphere.emissionColor
termination_by (MAX_RAY_DEPTH - depth).toNat
decreasing_by
  all_goals simp_wf
  all_goals (have hd := _h.2; simp only [MAX_RAY_DEPTH] at hd ⊢; omega)

/-- The value of `phit` in `trace` with rounded operations. -/
def hit_point_fl (fl : F → F) (rayorig raydir : Vec3f F) (tnear : F) : Vec3f F :=
  vec_add_fl fl rayorig (vec_mul_scalar_fl fl raydir tnear)

/-- The value of `nhit` in `trace` after the test `vec_dot(raydir, nhit) > 0`,
with rounded operations. -/
def hit_normal_fl (fl sqrtf : F → F) (raydir phit : Vec3f F) (sphere : Sphere F) : Vec3f F :=
  let nhit := vec_sub_fl fl phit sphere.center
  let nhit := vec_normalize_fl fl sqrtf nhit
  if vec_dot_fl fl raydir nhit > 0 then vec_neg nhit else nhit

/-- The value `trace` returns through its diffuse branch, with rounded operations. -/
def diffuse_shade_fl (fl sqrtf : F → F) (rayorig raydir : Vec3f F) (spheres : List (Sphere F))
    (tnear : F) (sphere : Sphere F) : Vec3f F :=
  let phit := hit_point_fl fl rayorig raydir tnear
  let nhit := hit_normal_fl fl sqrtf raydir phit sphere
  vec_add_fl fl (light_loop_fl fl sqrtf spheres sphere phit nhit 0 spheres ⟨0, 0, 0⟩)
    sphere.emissionColor

/-- The six spheres `setup_scene` stores, every literal with a fractional part
rounded and every `radius2` the rounded product of the literal with itself. -/
def setup_scene_fl (fl : F → F) : List (Sphere F) :=
  [ { center := ⟨0, 0, -10⟩, radius := fl 1.5, radius2 := fl (fl 1.5 * fl 1.5),
      surfaceColor := ⟨1, fl 0.2, fl 0.2⟩, emissionColor := ⟨0, 0, 0⟩,
      reflection := fl 0.5, transparency := 0 },
    { center := ⟨3, 0, -8⟩, radius := fl 1.2, radius2 := fl (fl 1.2 * fl 1.2),
      surfaceColor := ⟨fl 0.9, fl 0.9, fl 0.9⟩, emissionColor := ⟨0, 0, 0⟩,
      reflection := fl 0.9, transparency := fl 0.9 },
    { center := ⟨-3, fl 0.5, -7⟩, radius := 1, radius2 := fl (1 * 1),
      surfaceColor := ⟨fl 0.2, fl 0.3, fl 0.8⟩, emissionColor := ⟨0, 0, 0⟩,
      reflection := fl 0.7, transparency := 0 },
    { center := ⟨0, -1004, -10⟩, radius := 1000,
      radius2 := fl (1000 * 1000),
      surfaceColor := ⟨fl 0.4, fl 0.6, fl 0.4⟩, emissionColor := ⟨0, 0, 0⟩,
      reflection := fl 0.1, transparency := 0 },
    { center := ⟨-5, 10, -5⟩, radius := 1, radius2 := fl (1 * 1),
      surfaceColor := ⟨1, 1, 1⟩, emissionColor := ⟨2, 2, fl 1.5⟩,
      reflection := 0, transparency := 0 },
    { center := ⟨5, 8, -8⟩, radius := fl 0.8, radius2 := fl (fl 0.8 * fl 0.8),
      surfaceColor := ⟨1, 1, 1⟩, emissionColor := ⟨1, fl 1.5, fl 2.5⟩,
      reflection := 0, transparency := 0 } ]

/-! ### A ray whose hit point on the floor sees a light at grazing incidence -/

/-- The sphere `spheres[3]` of `setup_scene`, the floor, as binary32 values. -/
def scene_floor_f32 : Sphere ℚ :=
  { center := ⟨0, -1004, -10⟩, radius := 1000, radius2 := 1000000,
    surfaceColor := ⟨13421773 / 2 ^ 25, 10066330 / 2 ^ 24, 13421773 / 2 ^ 25⟩,
    emissionColor := ⟨0, 0, 0⟩,
    reflection := 13421773 / 2 ^ 27, transparency := 0 }

/-- The sphere `spheres[4]` of `setup_scene`, the yellow light, as binary32 values. -/
def scene_light_f32 : Sphere ℚ :=
  { center := ⟨-5, 10, -5⟩, radius := 1, radius2 := 1,
    surfaceColor := ⟨1, 1, 1⟩, emissionColor := ⟨2, 2, 3 / 2⟩,
    reflection := 0, transparency := 0 }

/-- A ray origin of binary32 values, `(56.90528869628906, 64, -117)`. -/
def grazing_rayorig : Vec3f ℚ := ⟨3729345 / 2 ^ 16, 64, -117⟩

/-- A ray direction of binary32 values, `(0.6f, -0.8f, 0.0f)`. -/
def grazing_raydir : Vec3f ℚ := ⟨5033165 / 2 ^ 23, -(13421773 / 2 ^ 24), 0⟩

/-- The distance at which the ray meets the floor, `100.87518310546875`. -/
def grazing_tnear : ℚ := 1652739 / 2 ^ 14

/-- The hit point `phit` of the ray on the floor. -/
def grazing_phit : Vec3f ℚ := ⟨7695919 / 2 ^ 16, -(1094461 / 2 ^ 16), -117⟩

/-- The normal `nhit` at the hit point. -/
def grazing_nhit : Vec3f ℚ := ⟨15761243 / 2 ^ 27, 1035259 / 2 ^ 20, -(7180649 / 2 ^ 26)⟩

/-- The direction `lightDirection` from the hit point to the yellow light. -/
def grazing_lightdir : Vec3f ℚ := ⟨-(3055413 / 2 ^ 22), 5330701 / 2 ^ 25, 5590217 / 2 ^ 23⟩

/-- The origin `phit + nhit * bias` of the shadow ray. -/
def grazing_shadow_orig : Vec3f ℚ := ⟨480995 / 2 ^ 12, -(2188909 / 2 ^ 17), -(15335425 / 2 ^ 17)⟩

end Defs

end Raytracer

namespace Raytracer

section Lemmas

variable {F : Type} [LinearOrderedField F]

theorem nearest_step_of_miss (m : Libm F) (rayorig raydir : Vec3f F)
    (acc : Option (F × Sphere F)) (s : Sphere F)
    (h : sphere_intersect m s rayorig raydir = none) :
    nearest_step m rayorig raydir acc s = acc := by
  simp [nearest_step, h]

theorem foldl_nearest_step_of_miss (m : Libm F) (rayorig raydir : Vec3f F)
    (spheres : List (Sphere F)) (acc : Option (F × Sphere F))
    (h : ∀ s ∈ spheres, sphere_intersect m s rayorig raydir = none) :
    spheres.foldl (nearest_step m rayorig raydir) acc = acc := by
  induction spheres generalizing acc with
  | nil => rfl
  | cons s rest ih =>
    have hs := h s (List.mem_cons_self s rest)
    have hrest : ∀ t ∈ rest, sphere_intersect m t rayorig raydir = none :=
      fun t ht => h t (List.mem_cons_of_mem s ht)
    rw [List.foldl_cons, nearest_step_of_miss m rayorig raydir acc s hs]
    exact ih acc hrest

theorem trace_of_no_hit (m : Libm F) (rayorig raydir : Vec3f F) (spheres : List (Sphere F))
    (depth : Int) (h : nearest_hit m rayorig raydir spheres = none) :
    trace m rayorig raydir spheres depth = ⟨0.5, 0.7, 0.9⟩ := by
  rw [trace, h]

/-- The value of `trace` when the test of the reflection/refraction branch
fails: the light loop over the whole scene from a zero colour, plus the hit
sphere's own emission. -/
theorem trace_of_diffuse (m : Libm F) (rayorig raydir : Vec3f F) (spheres : List (Sphere F))
    (depth : Int) (tnear : F) (sphere : Sphere F)
    (hhit : nearest_hit m rayorig raydir spheres = some (tnear, sphere))
    (hbranch : ¬ ((sphere.transparency > 0 ∨ sphere.reflection > 0) ∧ depth < MAX_RAY_DEPTH)) :
    trace m rayorig raydir spheres depth =
      diffuse_shade m rayorig raydir spheres tnear sphere := by
  rw [trace, hhit]
  simp only [dif_neg hbranch, decide_eq_true_eq, diffuse_shade, hit_point, hit_normal]

/-! ### The scan and the diffuse branch do not read `reflection`, `transparency` -/

theorem sphere_intersect_matte (m : Libm F) (s : Sphere F) (rayorig raydir : Vec3f F) :
    sphere_intersect m s.matte rayorig raydir = sphere_intersect m s rayorig raydir := rfl

theorem nearest_step_matte (m : Libm F) (rayorig raydir : Vec3f F)
    (acc : Option (F × Sphere F)) (s : Sphere F) :
    Option.map (Prod.map id Sphere.matte) (nearest_step m rayorig raydir acc s) =
      nearest_step m rayorig raydir (Option.map (Prod.map id Sphere.matte) acc) s.matte := by
  unfold nearest_step
  rw [sphere_intersect_matte]
  cases hi : sphere_intersect m s rayorig raydir with
  | none => rfl
  | some p =>
    obtain ⟨t0, t1⟩ := p
    cases acc with
    | none => rfl
    | some q =>
      obtain ⟨tnear, sp⟩ := q
      by_cases hlt : (if t0 < 0 then t1 else t0) < tnear
      · simp [hlt]
      · simp [hlt]

theorem foldl_nearest_step_matte (m : Libm F) (rayorig raydir : Vec3f F)
    (spheres : List (Sphere F)) (acc : Option (F × Sphere F)) :
    Option.map (Prod.map id Sphere.matte) (spheres.foldl (nearest_step m rayorig raydir) acc) =
      (spheres.map Sphere.matte).foldl (nearest_step m rayorig raydir)
        (Option.map (Prod.map id Sphere.matte) acc) := by
  induction spheres generalizing acc with
  | nil => rfl
  | cons s rest ih =>
    rw [List.foldl_cons, List.map_cons, List.foldl_cons, ih, nearest_step_matte]

theorem nearest_hit_matte (m : Libm F) (rayorig raydir : Vec3f F) (spheres : List (Sphere F)) :
    Option.map (Prod.map id Sphere.matte) (nearest_hit m rayorig raydir spheres) =
      nearest_hit m rayorig raydir (spheres.map Sphere.matte) :=
  foldl_nearest_step_matte m rayorig raydir spheres none

theorem shadow_loop_matte (m : Libm F) (i : Nat) (orig dir : Vec3f F) (j : Nat)
    (rest : List (Sphere F)) (transmission : Vec3f F) :
    shadow_loop m i orig dir j (rest.map Sphere.matte) transmission =
      shadow_loop m i orig dir j rest transmission := by
  induction rest generalizing j with
  | nil => rfl
  | cons sj tl ih =>
    simp only [List.map_cons, shadow_loop, sphere_intersect_matte, ih]

theorem light_step_matte (m : Libm F) (spheres : List (Sphere F)) (sphere : Sphere F)
    (phit nhit : Vec3f F) (i : Nat) (si : Sphere F) (surfaceColor : Vec3f F) :
    light_step m (spheres.map Sphere.matte) sphere.matte phit nhit i si.matte surfaceColor =
      light_step m spheres sphere phit nhit i si surfaceColor := by
  simp only [light_step, shadow_loop_matte]
  rfl

theorem light_loop_matte (m : Libm F) (spheres : List (Sphere F)) (sphere : Sphere F)
    (phit nhit : Vec3f F) (i : Nat) (rest : List (Sphere F)) (surfaceColor : Vec3f F) :
    light_loop m (spheres.map Sphere.matte) sphere.matte phit nhit i
        (rest.map Sphere.matte) surfaceColor =
      light_loop m spheres sphere phit nhit i rest surfaceColor := by
  induction rest generalizing i surfaceColor with
  | nil => rfl
  | cons si tl ih =>
    simp only [List.map_cons, light_loop, light_step_matte, ih]

theorem diffuse_shade_matte (m : Libm F) (rayorig raydir : Vec3f F) (spheres : List (Sphere F))
    (tnear : F) (sphere : Sphere F) :
    diffuse_shade m rayorig raydir (spheres.map Sphere.matte) tnear sphere.matte =
      diffuse_shade m rayorig raydir spheres tnear sphere := by
  unfold diffuse_shade
  have hn : ∀ p, hit_normal m raydir p sphere.matte = hit_normal m raydir p sphere :=
    fun _ => rfl
  simp only [hn, light_loop_matte]
  rfl

/-- Two scenes that differ in `reflection` and `transparency` values only have
the same nearest distance, and hit spheres that differ in those two fields only. -/
theorem nearest_hit_congr_matte (m : Libm F) (rayorig raydir : Vec3f F)
    (spheres spheres' : List (Sphere F))
    (hsame : spheres'.map Sphere.matte = spheres.map Sphere.matte) :
    Option.map (Prod.map id Sphere.matte) (nearest_hit m rayorig raydir spheres') =
      Option.map (Prod.map id Sphere.matte) (nearest_hit m rayorig raydir spheres) := by
  rw [nearest_hit_matte, nearest_hit_matte, hsame]

/-! ### Math library facts and the camera basis -/

theorem pitch_limit_pos : (0 : F) < pitch_limit := by
  unfold pitch_limit M_PI; norm_num

theorem pitch_limit_lt_half_pi : (pitch_limit : F) < M_PI / 2 := by
  unfold pitch_limit M_PI; norm_num

theorem real_libm_exact :
    Libm.Exact (⟨Real.sqrt, Real.sin, Real.cos, Real.tan, fun x y => x ^ y⟩ : Libm ℝ) where
  sqrtf_nonneg := fun x _ => Real.sqrt_nonneg x
  sqrtf_mul_self := fun x hx => Real.mul_self_sqrt hx
  sinf_sq_add_cosf_sq := fun x => by
    have hsc := Real.sin_sq_add_cos_sq x
    simp only [sq] at hsc
    exact hsc
  cosf_pos := fun x h1 h2 => by
    apply Real.cos_pos_of_mem_Ioo
    have hpi : (M_PI : ℝ) < Real.pi := by
      unfold M_PI
      have hd := Real.pi_gt_d20
      linarith
    constructor <;> linarith
  sinf_zero := Real.sin_zero
  cosf_zero := Real.cos_zero

theorem sqrtf_eq_of_mul_self {m : Libm F} (hm : m.Exact) (x r : F) (hr : 0 ≤ r)
    (hx : r * r = x) : m.sqrtf x = r := by
  have hx0 : 0 ≤ x := by rw [← hx]; exact mul_self_nonneg r
  have h1 := hm.sqrtf_nonneg x hx0
  have h2 := hm.sqrtf_mul_self x hx0
  exact (mul_self_inj h1 hr).mp (h2.trans hx.symm)

theorem sqrtf_one {m : Libm F} (hm : m.Exact) : m.sqrtf 1 = 1 :=
  sqrtf_eq_of_mul_self hm 1 1 zero_le_one (one_mul 1)

theorem vec_length_of_dot_eq_one {m : Libm F} (hm : m.Exact) (a : Vec3f F)
    (ha : vec_dot a a = 1) : vec_length m a = 1 := by
  rw [vec_length, ha, sqrtf_one hm]

theorem vec_normalize_of_dot_eq_one {m : Libm F} (hm : m.Exact) (a : Vec3f F)
    (ha : vec_dot a a = 1) : vec_normalize m a = a := by
  simp [vec_normalize, vec_length_of_dot_eq_one hm a ha]

theorem vec_length_pos {m : Libm F} (hm : m.Exact) (a : Vec3f F) (ha : 0 < vec_dot a a) :
    0 < vec_length m a := by
  have h1 := hm.sqrtf_nonneg _ ha.le
  have h2 := hm.sqrtf_mul_self _ ha.le
  rcases h1.eq_or_lt with h0 | hpos
  · rw [← h0] at h2
    simp at h2
    rw [← h2] at ha
    exact absurd ha (lt_irrefl _)
  · exact hpos

theorem vec_normalize_of_pos {m : Libm F} (hm : m.Exact) (a : Vec3f F)
    (ha : 0 < vec_dot a a) :
    vec_normalize m a = vec_mul_scalar a (1 / vec_length m a) := by
  simp [vec_normalize, vec_length_pos hm a ha, vec_mul_scalar]

theorem vec_dot_normalize_self {m : Libm F} (hm : m.Exact) (a : Vec3f F)
    (ha : 0 < vec_dot a a) :
    vec_dot (vec_normalize m a) (vec_normalize m a) = 1 := by
  rw [vec_normalize_of_pos hm a ha]
  have hl := vec_length_pos hm a ha
  have hsq : vec_length m a * vec_length m a = vec_dot a a := hm.sqrtf_mul_self _ ha.le
  have hne : vec_length m a ≠ 0 := hl.ne'
  simp only [vec_dot, vec_mul_scalar] at hsq ⊢
  field_simp
  rw [← hsq]

/-- The basis `camera_update_vectors` derives from a unit `forward` that is not
vertical is orthonormal. -/
theorem basis_orthonormal {m : Libm F} (hm : m.Exact) (f : Vec3f F)
    (hf : vec_dot f f = 1) (hxz : 0 < f.x * f.x + f.z * f.z) :
    vec_dot (vec_normalize m (vec_cross f ⟨0, 1, 0⟩))
        (vec_normalize m (vec_cross f ⟨0, 1, 0⟩)) = 1 ∧
    vec_dot (vec_normalize m (vec_cross (vec_normalize m (vec_cross f ⟨0, 1, 0⟩)) f))
        (vec_normalize m (vec_cross (vec_normalize m (vec_cross f ⟨0, 1, 0⟩)) f)) = 1 ∧
    vec_dot f (vec_normalize m (vec_cross f ⟨0, 1, 0⟩)) = 0 ∧
    vec_dot f (vec_normalize m (vec_cross (vec_normalize m (vec_cross f ⟨0, 1, 0⟩)) f)) = 0 ∧
    vec_dot (vec_normalize m (vec_cross f ⟨0, 1, 0⟩))
        (vec_normalize m (vec_cross (vec_normalize m (vec_cross f ⟨0, 1, 0⟩)) f)) = 0 := by
  have hc : 0 < vec_dot (vec_cross f ⟨0, 1, 0⟩) (vec_cross f ⟨0, 1, 0⟩) := by
    simp only [vec_dot, vec_cross]
    nlinarith [hxz]
  have hr1 := vec_dot_normalize_self hm _ hc
  have hfr : vec_dot f (vec_normalize m (vec_cross f ⟨0, 1, 0⟩)) = 0 := by
    rw [vec_normalize_of_pos hm _ hc]
    simp only [vec_dot, vec_cross, vec_mul_scalar]
    ring
  generalize vec_normalize m (vec_cross f ⟨0, 1, 0⟩) = r at hr1 hfr ⊢
  have hu : vec_dot (vec_cross r f) (vec_cross r f) = 1 := by
    have hlag : vec_dot (vec_cross r f) (vec_cross r f) =
        vec_dot r r * vec_dot f f - vec_dot f r * vec_dot f r := by
      simp only [vec_dot, vec_cross]
      ring
    rw [hlag, hr1, hf, hfr]
    ring
  rw [vec_normalize_of_dot_eq_one hm _ hu]
  refine ⟨hr1, hu, hfr, ?_, ?_⟩
  · simp only [vec_dot, vec_cross]
    ring
  · simp only [vec_dot, vec_cross]
    ring

theorem camera_rotate_pitch (m : Libm F) (cam : Camera F) (dpitch dyaw : F) :
    (camera_rotate m cam dpitch dyaw).pitch =
      if (if cam.pitch + dpitch > pitch_limit then pitch_limit else cam.pitch + dpitch)
          < -pitch_limit
      then -pitch_limit
      else (if cam.pitch + dpitch > pitch_limit then pitch_limit else cam.pitch + dpitch) :=
  rfl

theorem camera_rotate_yaw (m : Libm F) (cam : Camera F) (dpitch dyaw : F) :
    (camera_rotate m cam dpitch dyaw).yaw = cam.yaw + dyaw := rfl

theorem camera_rotate_pos (m : Libm F) (cam : Camera F) (dpitch dyaw : F) :
    (camera_rotate m cam dpitch dyaw).pos = cam.pos := rfl

theorem camera_rotate_pitch_mem (m : Libm F) (cam : Camera F) (dpitch dyaw : F) :
    -pitch_limit ≤ (camera_rotate m cam dpitch dyaw).pitch ∧
      (camera_rotate m cam dpitch dyaw).pitch ≤ pitch_limit := by
  have hpos : (0 : F) < pitch_limit := pitch_limit_pos
  rw [camera_rotate_pitch]
  split_ifs with h1 h2 h3
  · exact ⟨le_refl _, by linarith⟩
  · exact ⟨by linarith, le_refl _⟩
  · exact ⟨le_refl _, by linarith⟩
  · exact ⟨not_lt.mp h3, not_lt.mp h1⟩

theorem camera_rotate_pitch_of_mem (m : Libm F) (cam : Camera F) (dpitch dyaw : F)
    (hlo : -pitch_limit ≤ cam.pitch + dpitch) (hhi : cam.pitch + dpitch ≤ pitch_limit) :
    (camera_rotate m cam dpitch dyaw).pitch = cam.pitch + dpitch := by
  rw [camera_rotate_pitch, if_neg (not_lt.mpr hhi), if_neg (not_lt.mpr hlo)]

theorem camera_update_vectors_idem (m : Libm F) (cam : Camera F) :
    camera_update_vectors m (camera_update_vectors m cam) = camera_update_vectors m cam := rfl

theorem camera_update_vectors_orthonormal {m : Libm F} (hm : m.Exact) (cam : Camera F)
    (hlo : -pitch_limit ≤ cam.pitch) (hhi : cam.pitch ≤ pitch_limit) :
    (camera_update_vectors m cam).orthonormal m := by
  have hlt : (pitch_limit : F) < M_PI / 2 := pitch_limit_lt_half_pi
  have hcos : 0 < m.cosf cam.pitch := hm.cosf_pos cam.pitch (by linarith) (by linarith)
  have hp := hm.sinf_sq_add_cosf_sq cam.pitch
  have hy := hm.sinf_sq_add_cosf_sq cam.yaw
  have hf : vec_dot
      (⟨m.cosf cam.pitch * m.sinf cam.yaw, m.sinf cam.pitch,
        -m.cosf cam.pitch * m.cosf cam.yaw⟩ : Vec3f F)
      ⟨m.cosf cam.pitch * m.sinf cam.yaw, m.sinf cam.pitch,
        -m.cosf cam.pitch * m.cosf cam.yaw⟩ = 1 := by
    simp only [vec_dot]
    linear_combination hp + m.cosf cam.pitch * m.cosf cam.pitch * hy
  have hxz : 0 <
      (⟨m.cosf cam.pitch * m.sinf cam.yaw, m.sinf cam.pitch,
        -m.cosf cam.pitch * m.cosf cam.yaw⟩ : Vec3f F).x *
      (⟨m.cosf cam.pitch * m.sinf cam.yaw, m.sinf cam.pitch,
        -m.cosf cam.pitch * m.cosf cam.yaw⟩ : Vec3f F).x +
      (⟨m.cosf cam.pitch * m.sinf cam.yaw, m.sinf cam.pitch,
        -m.cosf cam.pitch * m.cosf cam.yaw⟩ : Vec3f F).z *
      (⟨m.cosf cam.pitch * m.sinf cam.yaw, m.sinf cam.pitch,
        -m.cosf cam.pitch * m.cosf cam.yaw⟩ : Vec3f F).z := by
    have hsq : m.cosf cam.pitch * m.sinf cam.yaw * (m.cosf cam.pitch * m.sinf cam.yaw) +
        -m.cosf cam.pitch * m.cosf cam.yaw * (-m.cosf cam.pitch * m.cosf cam.yaw) =
        m.cosf cam.pitch * m.cosf cam.pitch := by
      linear_combination m.cosf cam.pitch * m.cosf cam.pitch * hy
    show 0 < m.cosf cam.pitch * m.sinf cam.yaw * (m.cosf cam.pitch * m.sinf cam.yaw) +
        -m.cosf cam.pitch * m.cosf cam.yaw * (-m.cosf cam.pitch * m.cosf cam.yaw)
    rw [hsq]
    exact mul_pos hcos hcos
  unfold Camera.orthonormal camera_update_vectors
  simp only [vec_normalize_of_dot_eq_one hm _ hf]
  obtain ⟨h1, h2, h3, h4, h5⟩ := basis_orthonormal hm _ hf hxz
  exact ⟨vec_length_of_dot_eq_one hm _ hf, vec_length_of_dot_eq_one hm _ h1,
    vec_length_of_dot_eq_one hm _ h2, h3, h4, h5⟩

theorem camera_init_orthonormal {m : Libm F} (hm : m.Exact) (pos : Vec3f F) :
    (camera_init pos).orthonormal m := by
  have h1 := sqrtf_one hm
  simp [Camera.orthonormal, camera_init, vec_length, vec_dot, h1]

theorem camera_init_update {m : Libm F} (hm : m.Exact) (pos : Vec3f F) :
    camera_update_vectors m (camera_init pos) = camera_init pos := by
  have h1 := sqrtf_one hm
  simp [camera_update_vectors, camera_init, vec_normalize, vec_length, vec_dot, vec_cross,
    hm.sinf_zero, hm.cosf_zero, h1]

/-- Along a run the pitch stays within the clamp bounds; with an exact math
library the basis is the one `camera_update_vectors` computes from the pitch
and yaw, and it is orthonormal. -/
theorem camera_run_invariant (m : Libm F) (calls : List (CameraCall F)) (cam : Camera F)
    (hlo : -pitch_limit ≤ cam.pitch) (hhi : cam.pitch ≤ pitch_limit) :
    (-pitch_limit ≤ (calls.foldl (camera_call m) cam).pitch ∧
      (calls.foldl (camera_call m) cam).pitch ≤ pitch_limit) ∧
    (m.Exact → camera_update_vectors m cam = cam → cam.orthonormal m →
      camera_update_vectors m (calls.foldl (camera_call m) cam) =
          calls.foldl (camera_call m) cam ∧
        (calls.foldl (camera_call m) cam).orthonormal m) := by
  induction calls generalizing cam with
  | nil => exact ⟨⟨hlo, hhi⟩, fun _ hu ho => ⟨hu, ho⟩⟩
  | cons c rest ih =>
    rw [List.foldl_cons]
    cases c with
    | rotate dpitch dyaw =>
      obtain ⟨h1, h2⟩ := camera_rotate_pitch_mem m cam dpitch dyaw
      refine ⟨(ih _ h1 h2).1, fun hm _ _ => (ih _ h1 h2).2 hm ?_ ?_⟩
      · exact camera_update_vectors_idem m _
      · exact camera_update_vectors_orthonormal hm _ h1 h2
    | move direction speed =>
      refine ⟨(ih (camera_move cam direction speed) hlo hhi).1,
        fun hm hu ho => (ih (camera_move cam direction speed) hlo hhi).2 hm ?_ ho⟩
      have hfw := congrArg Camera.forward hu
      have hrt := congrArg Camera.right hu
      have hup := congrArg Camera.up hu
      simp only [camera_update_vectors] at hfw hrt hup
      rw [hfw] at hrt hup
      rw [hrt] at hup
      simp only [camera_move, camera_update_vectors, hfw, hrt, hup]

/-! ### The shadow loop -/

theorem shadow_loop_of_hit (m : Libm F) (i : Nat) (orig dir : Vec3f F) (j0 : Nat)
    (rest : List (Sphere F)) (transmission : Vec3f F)
    (h : ∃ k sk, rest[k]? = some sk ∧ j0 + k ≠ i ∧ (sphere_intersect m sk orig dir).isSome) :
    shadow_loop m i orig dir j0 rest transmission = ⟨0, 0, 0⟩ := by
  induction rest generalizing j0 with
  | nil =>
    obtain ⟨k, sk, hk, _⟩ := h
    simp at hk
  | cons sj tl ih =>
    obtain ⟨k, sk, hk, hne, hhit⟩ := h
    unfold shadow_loop
    by_cases hc : i ≠ j0 ∧ (sphere_intersect m sj orig dir).isSome
    · rw [if_pos hc]
    · rw [if_neg hc]
      cases k with
      | zero =>
        simp only [List.getElem?_cons_zero, Option.some.injEq] at hk
        subst hk
        exact absurd ⟨fun e => hne (by simp [e]), hhit⟩ hc
      | succ k =>
        simp only [List.getElem?_cons_succ] at hk
        exact ih (j0 + 1) ⟨k, sk, hk, by omega, hhit⟩

theorem shadow_loop_of_no_hit (m : Libm F) (i : Nat) (orig dir : Vec3f F) (j0 : Nat)
    (rest : List (Sphere F)) (transmission : Vec3f F)
    (h : ¬ ∃ k sk, rest[k]? = some sk ∧ j0 + k ≠ i ∧ (sphere_intersect m sk orig dir).isSome) :
    shadow_loop m i orig dir j0 rest transmission = transmission := by
  induction rest generalizing j0 with
  | nil => rfl
  | cons sj tl ih =>
    unfold shadow_loop
    have hc : ¬ (i ≠ j0 ∧ (sphere_intersect m sj orig dir).isSome) := fun hc =>
      h ⟨0, sj, by simp, fun e => hc.1 (by simpa using e.symm), hc.2⟩
    rw [if_neg hc]
    apply ih (j0 + 1)
    rintro ⟨k, sk, hk, hne, hhit⟩
    exact h ⟨k + 1, sk, by simpa using hk, by omega, hhit⟩

/-! ### Ray-sphere intersection in terms of `tca` and `d2` -/

theorem sphere_intersect_eq (m : Libm F) (s : Sphere F) (rayorig raydir : Vec3f F) :
    sphere_intersect m s rayorig raydir =
      if sphere_tca s rayorig raydir < 0 then none
      else if sphere_d2 s rayorig raydir > s.radius2 then none
      else some
        (sphere_tca s rayorig raydir - m.sqrtf (s.radius2 - sphere_d2 s rayorig raydir),
          sphere_tca s rayorig raydir + m.sqrtf (s.radius2 - sphere_d2 s rayorig raydir)) :=
  rfl

theorem sphere_intersect_sqrtf_args_eq (s : Sphere F) (rayorig raydir : Vec3f F) :
    sphere_intersect_sqrtf_args s rayorig raydir =
      if sphere_tca s rayorig raydir < 0 then []
      else if sphere_d2 s rayorig raydir > s.radius2 then []
      else [s.radius2 - sphere_d2 s rayorig raydir] :=
  rfl

/-! ### The sphere the scan returns is one of the scene -/

theorem nearest_step_mem (m : Libm F) (rayorig raydir : Vec3f F)
    (acc : Option (F × Sphere F)) (s : Sphere F) (t : F) (sp : Sphere F)
    (h : nearest_step m rayorig raydir acc s = some (t, sp)) :
    sp = s ∨ acc = some (t, sp) := by
  unfold nearest_step at h
  cases hi : sphere_intersect m s rayorig raydir with
  | none =>
    rw [hi] at h
    exact Or.inr h
  | some p =>
    obtain ⟨t0, t1⟩ := p
    rw [hi] at h
    cases acc with
    | none =>
      simp only [Option.some.injEq, Prod.mk.injEq] at h
      exact Or.inl h.2.symm
    | some q =>
      obtain ⟨tnear, sq⟩ := q
      simp only at h
      by_cases hlt : (if t0 < 0 then t1 else t0) < tnear
      · rw [if_pos hlt] at h
        simp only [Option.some.injEq, Prod.mk.injEq] at h
        exact Or.inl h.2.symm
      · rw [if_neg hlt] at h
        exact Or.inr h

theorem foldl_nearest_step_mem (m : Libm F) (rayorig raydir : Vec3f F)
    (spheres : List (Sphere F)) (acc : Option (F × Sphere F)) (t : F) (sp : Sphere F)
    (h : spheres.foldl (nearest_step m rayorig raydir) acc = some (t, sp)) :
    sp ∈ spheres ∨ acc = some (t, sp) := by
  induction spheres generalizing acc with
  | nil => exact Or.inr h
  | cons s rest ih =>
    rw [List.foldl_cons] at h
    rcases ih _ h with hmem | hacc
    · exact Or.inl (List.mem_cons_of_mem s hmem)
    · rcases nearest_step_mem m rayorig raydir acc s t sp hacc with rfl | hacc'
      · exact Or.inl (List.mem_cons_self _ _)
      · exact Or.inr hacc'

theorem nearest_hit_mem (m : Libm F) (rayorig raydir : Vec3f F) (spheres : List (Sphere F))
    (t : F) (sp : Sphere F) (h : nearest_hit m rayorig raydir spheres = some (t, sp)) :
    sp ∈ spheres := by
  rcases foldl_nearest_step_mem m rayorig raydir spheres none t sp h with hmem | hnone
  · exact hmem
  · cases hnone

/-! ### Points of a ray and the surface of a sphere -/

theorem bias_pos : (0 : F) < bias := by
  unfold bias; norm_num

/-! ### The reflection/refraction branch -/

/-- The value of `trace` when the test of the reflection/refraction branch
succeeds, in terms of the two recursive calls. -/
theorem trace_of_mirror (m : Libm F) (rayorig raydir : Vec3f F) (spheres : List (Sphere F))
    (depth : Int) (tnear : F) (sphere : Sphere F)
    (hhit : nearest_hit m rayorig raydir spheres = some (tnear, sphere))
    (hbranch : (sphere.transparency > 0 ∨ sphere.reflection > 0) ∧ depth < MAX_RAY_DEPTH) :
    trace m rayorig raydir spheres depth =
      vec_add
        (vec_mul
          (vec_add
            (vec_mul_scalar
              (trace m
                (vec_add (hit_point rayorig raydir tnear)
                  (vec_mul_scalar
                    (hit_normal m raydir (hit_point rayorig raydir tnear) sphere) bias))
                (reflect_dir m raydir
                  (hit_normal m raydir (hit_point rayorig raydir tnear) sphere))
                spheres (depth + 1))
              (fresnel_effect m raydir
                (hit_normal m raydir (hit_point rayorig raydir tnear) sphere)))
            (vec_mul_scalar
              (if sphere.transparency > 0 then
                if refract_k
                    (refract_eta (ray_inside m raydir (hit_point rayorig raydir tnear) sphere))
                    raydir (hit_normal m raydir (hit_point rayorig raydir tnear) sphere) ≥ 0
                then
                  trace m
                    (vec_sub (hit_point rayorig raydir tnear)
                      (vec_mul_scalar
                        (hit_normal m raydir (hit_point rayorig raydir tnear) sphere) bias))
                    (refract_dir m
                      (refract_eta
                        (ray_inside m raydir (hit_point rayorig raydir tnear) sphere))
                      raydir (hit_normal m raydir (hit_point rayorig raydir tnear) sphere))
                    spheres (depth + 1)
                else ⟨0, 0, 0⟩
              else ⟨0, 0, 0⟩)
              ((1 - fresnel_effect m raydir
                  (hit_normal m raydir (hit_point rayorig raydir tnear) sphere)) *
                sphere.transparency)))
          sphere.surfaceColor)
        sphere.emissionColor := by
  rw [trace, hhit]
  simp only [dif_pos hbranch, decide_eq_true_eq, hit_point, hit_normal, fresnel_effect,
    reflect_dir, refract_eta, refract_k, refract_dir, ray_inside]

theorem nearest_hit_singleton (m : Libm F) (rayorig raydir : Vec3f F) (s : Sphere F)
    (t0 t1 : F) (h : sphere_intersect m s rayorig raydir = some (t0, t1)) :
    nearest_hit m rayorig raydir [s] = some (if t0 < 0 then t1 else t0, s) := by
  simp [nearest_hit, nearest_step, h]

/-! ### The nearest-hit loop keeps the least candidate -/

theorem nearest_step_eq_candidate (m : Libm F) (rayorig raydir : Vec3f F)
    (acc : Option (F × Sphere F)) (s : Sphere F) :
    nearest_step m rayorig raydir acc s =
      match hit_candidate m s rayorig raydir with
      | none => acc
      | some c =>
        match acc with
        | none => some (c, s)
        | some (tnear, _) => if c < tnear then some (c, s) else acc := by
  unfold nearest_step hit_candidate
  cases sphere_intersect m s rayorig raydir with
  | none => rfl
  | some p => rfl

/-- What one iteration of the nearest-hit loop does to the state, in terms of
the candidate of the sphere it visits. -/
theorem nearest_step_cases (m : Libm F) (rayorig raydir : Vec3f F)
    (acc : Option (F × Sphere F)) (s : Sphere F) :
    (nearest_step m rayorig raydir acc s = none →
      acc = none ∧ hit_candidate m s rayorig raydir = none) ∧
    (∀ t sp, nearest_step m rayorig raydir acc s = some (t, sp) →
      (acc = some (t, sp) ∨ (sp = s ∧ hit_candidate m s rayorig raydir = some t)) ∧
      (∀ c, hit_candidate m s rayorig raydir = some c → t ≤ c) ∧
      (∀ t0 s0, acc = some (t0, s0) → t ≤ t0)) := by
  rw [nearest_step_eq_candidate]
  cases hc : hit_candidate m s rayorig raydir with
  | none =>
    refine ⟨fun h => ⟨h, rfl⟩, fun t sp h => ⟨Or.inl h, fun c hcc => (by cases hcc), ?_⟩⟩
    intro t0 s0 h0
    simp only at h
    rw [h0] at h
    simp only [Option.some.injEq, Prod.mk.injEq] at h
    exact h.1.ge
  | some c =>
    cases acc with
    | none =>
      refine ⟨fun h => (by cases h), fun t sp h => ?_⟩
      simp only [Option.some.injEq, Prod.mk.injEq] at h
      obtain ⟨rfl, rfl⟩ := h
      exact ⟨Or.inr ⟨rfl, rfl⟩, fun c' hc' => (by cases hc'; exact le_rfl),
        fun t0 s0 h0 => (by cases h0)⟩
    | some q =>
      obtain ⟨tnear, sq⟩ := q
      simp only
      by_cases hlt : c < tnear
      · rw [if_pos hlt]
        refine ⟨fun h => (by cases h), fun t sp h => ?_⟩
        simp only [Option.some.injEq, Prod.mk.injEq] at h
        obtain ⟨rfl, rfl⟩ := h
        refine ⟨Or.inr ⟨rfl, rfl⟩, fun c' hc' => (by cases hc'; exact le_rfl), ?_⟩
        intro t0 s0 h0
        simp only [Option.some.injEq, Prod.mk.injEq] at h0
        rw [← h0.1]
        exact hlt.le
      · rw [if_neg hlt]
        refine ⟨fun h => (by cases h), fun t sp h => ?_⟩
        simp only [Option.some.injEq, Prod.mk.injEq] at h
        obtain ⟨rfl, rfl⟩ := h
        refine ⟨Or.inl rfl, fun c' hc' => ?_, ?_⟩
        · cases hc'
          exact not_lt.mp hlt
        · intro t0 s0 h0
          simp only [Option.some.injEq, Prod.mk.injEq] at h0
          exact h0.1.le

theorem foldl_nearest_step_spec (m : Libm F) (rayorig raydir : Vec3f F)
    (l : List (Sphere F)) (acc : Option (F × Sphere F)) :
    (l.foldl (nearest_step m rayorig raydir) acc = none →
      acc = none ∧ ∀ s ∈ l, hit_candidate m s rayorig raydir = none) ∧
    (∀ t sp, l.foldl (nearest_step m rayorig raydir) acc = some (t, sp) →
      (acc = some (t, sp) ∨ (sp ∈ l ∧ hit_candidate m sp rayorig raydir = some t)) ∧
      (∀ s ∈ l, ∀ c, hit_candidate m s rayorig raydir = some c → t ≤ c) ∧
      (∀ t0 s0, acc = some (t0, s0) → t ≤ t0)) := by
  induction l generalizing acc with
  | nil =>
    refine ⟨fun h => ⟨h, fun s hs => by cases hs⟩, fun t sp h => ⟨Or.inl h, ?_, ?_⟩⟩
    · intro s hs
      cases hs
    · intro t0 s0 h0
      simp only [List.foldl_nil] at h
      rw [h0] at h
      simp only [Option.some.injEq, Prod.mk.injEq] at h
      exact h.1.ge
  | cons s rest ih =>
    rw [List.foldl_cons]
    obtain ⟨ihn, ihs⟩ := ih (nearest_step m rayorig raydir acc s)
    obtain ⟨stn, sts⟩ := nearest_step_cases m rayorig raydir acc s
    refine ⟨fun h => ?_, fun t sp h => ?_⟩
    · obtain ⟨h1, h2⟩ := ihn h
      obtain ⟨h3, h4⟩ := stn h1
      refine ⟨h3, fun s' hs' => ?_⟩
      rcases List.mem_cons.mp hs' with rfl | hmem
      · exact h4
      · exact h2 s' hmem
    · obtain ⟨h1, h2, h3⟩ := ihs t sp h
      have hmin : (∀ c, hit_candidate m s rayorig raydir = some c → t ≤ c) ∧
          (∀ t0 s0, acc = some (t0, s0) → t ≤ t0) := by
        cases hst : nearest_step m rayorig raydir acc s with
        | none =>
          obtain ⟨ha, hc⟩ := stn hst
          exact ⟨fun c hcc => (by rw [hc] at hcc; cases hcc),
            fun t0 s0 h0 => (by rw [ha] at h0; cases h0)⟩
        | some q =>
          obtain ⟨t', s'⟩ := q
          obtain ⟨_, hb, hc⟩ := sts t' s' hst
          have hle : t ≤ t' := h3 t' s' hst
          exact ⟨fun c hcc => hle.trans (hb c hcc), fun t0 s0 h0 => hle.trans (hc t0 s0 h0)⟩
      refine ⟨?_, ?_, hmin.2⟩
      · rcases h1 with h1 | ⟨hmem, hcand⟩
        · rcases (sts t sp h1).1 with ha | ⟨rfl, hcand⟩
          · exact Or.inl ha
          · exact Or.inr ⟨List.mem_cons_self _ _, hcand⟩
        · exact Or.inr ⟨List.mem_cons_of_mem _ hmem, hcand⟩
      · intro s' hs' c hcc
        rcases List.mem_cons.mp hs' with rfl | hmem
        · exact hmin.1 c hcc
        · exact h2 s' hmem c hcc

theorem hit_candidate_nonneg {m : Libm F} (hm : m.Exact) (s : Sphere F)
    (rayorig raydir : Vec3f F) (t : F) (h : hit_candidate m s rayorig raydir = some t) :
    0 ≤ t := by
  unfold hit_candidate at h
  rw [sphere_intersect_eq] at h
  by_cases h1 : sphere_tca s rayorig raydir < 0
  · rw [if_pos h1] at h
    cases h
  · rw [if_neg h1] at h
    by_cases h2 : sphere_d2 s rayorig raydir > s.radius2
    · rw [if_pos h2] at h
      cases h
    · rw [if_neg h2] at h
      simp only [Option.some.injEq] at h
      have hnn := hm.sqrtf_nonneg (s.radius2 - sphere_d2 s rayorig raydir)
        (by linarith [not_lt.mp h2])
      rw [← h]
      split_ifs with h3
      · linarith [not_lt.mp h1]
      · exact not_lt.mp h3

/-! ### Primary rays -/

theorem foldl_update_range {α : Type} (image : Nat → α) (f : Nat → Nat) (g : Nat → α)
    (n : Nat) :
    (∀ x, x < n → (∀ x', x' < n → f x' = f x → x' = x) →
      (List.range n).foldl (fun image x => Function.update image (f x) (g x)) image (f x) =
        g x) ∧
    (∀ i, (∀ x, x < n → f x ≠ i) →
      (List.range n).foldl (fun image x => Function.update image (f x) (g x)) image i =
        image i) := by
  induction n with
  | zero =>
    exact ⟨fun x hx => absurd hx (Nat.not_lt_zero x), fun i _ => rfl⟩
  | succ n ih =>
    obtain ⟨ih1, ih2⟩ := ih
    simp only [List.range_succ, List.foldl_append, List.foldl_cons, List.foldl_nil]
    refine ⟨fun x hx hinj => ?_, fun i hi => ?_⟩
    · rcases Nat.lt_succ_iff_lt_or_eq.mp hx with hlt | rfl
      · have hne : f x ≠ f n := fun e =>
          absurd (hinj n (Nat.lt_succ_self n) e.symm) (Nat.ne_of_gt hlt)
        rw [Function.update_noteq hne]
        exact ih1 x hlt (fun x' hx' e => hinj x' (Nat.lt_succ_of_lt hx') e)
      · rw [Function.update_same]
    · rw [Function.update_noteq (fun e => hi n (Nat.lt_succ_self n) e.symm)]
      exact ih2 i (fun x hx => hi x (Nat.lt_succ_of_lt hx))

theorem foldl_append_singleton {α β : Type} (f : α → β) (l : List α) (init : List β) :
    l.foldl (fun stores x => stores ++ [f x]) init = init ++ l.map f := by
  induction l generalizing init with
  | nil => simp
  | cons a tl ih => simp [ih]

theorem pixel_index_lt {width height x y : Nat} (hx : x < width) (hy : y < height) :
    y * width + x < width * height := by
  have h1 : y * width + x < (y + 1) * width := by
    rw [Nat.succ_mul]
    exact Nat.add_lt_add_left hx _
  have h2 : (y + 1) * width ≤ height * width := Nat.mul_le_mul_right _ hy
  rw [Nat.mul_comm width height]
  exact lt_of_lt_of_le h1 h2

theorem image_index_eq {width height x y : Nat} (hsz : width * height < 2 ^ 32)
    (hx : x < width) (hy : y < height) : image_index width x y = y * width + x :=
  Nat.mod_eq_of_lt (lt_trans (pixel_index_lt hx hy) hsz)

theorem pixel_index_inj {width x y x' y' : Nat} (hx : x < width) (hx' : x' < width)
    (h : y * width + x = y' * width + x') : x = x' ∧ y = y' := by
  have hw : 0 < width := lt_of_le_of_lt (Nat.zero_le x) hx
  have hm : (x + y * width) % width = (x' + y' * width) % width := by
    rw [Nat.add_comm x, Nat.add_comm x', h]
  have hd : (x + y * width) / width = (x' + y' * width) / width := by
    rw [Nat.add_comm x, Nat.add_comm x', h]
  rw [Nat.add_mul_mod_self_right, Nat.add_mul_mod_self_right, Nat.mod_eq_of_lt hx,
    Nat.mod_eq_of_lt hx'] at hm
  rw [Nat.add_mul_div_right _ _ hw, Nat.add_mul_div_right _ _ hw, Nat.div_eq_of_lt hx,
    Nat.div_eq_of_lt hx', Nat.zero_add, Nat.zero_add] at hd
  exact ⟨hm, hd⟩

theorem render_row_stores_eq (width height y : Nat) (stores : List Nat)
    (hsz : width * height < 2 ^ 32) (hy : y < height) :
    render_row_stores width y stores = stores ++ List.range' (y * width) width := by
  unfold render_row_stores
  rw [foldl_append_singleton (fun x => image_index width x y), List.range'_eq_map_range]
  congr 1
  apply List.map_congr_left
  intro x hx
  exact image_index_eq hsz (List.mem_range.mp hx) hy

theorem render_stores_after_rows (width height : Nat) (hsz : width * height < 2 ^ 32) (k : Nat)
    (hk : k ≤ height) :
    (List.range k).foldl (fun stores y => render_row_stores width y stores) [] =
      List.range (k * width) := by
  induction k with
  | zero => simp
  | succ k ih =>
    rw [List.range_succ, List.foldl_append, List.foldl_cons, List.foldl_nil,
      ih (Nat.le_of_succ_le hk), render_row_stores_eq width height k _ hsz hk,
      List.range_eq_range', List.range_eq_range']
    have h := List.range'_append_1 0 (k * width) width
    rw [Nat.zero_add] at h
    rw [h, Nat.succ_mul, Nat.add_comm]

theorem render_after_rows (m : Libm F) (image : Nat → Vec3f F) (width height : Nat)
    (spheres : List (Sphere F)) (cam : Camera F) (hsz : width * height < 2 ^ 32) (k : Nat)
    (hk : k ≤ height) :
    (∀ x y, x < width → y < k →
      (List.range k).foldl (fun image y => render_row m image width height spheres cam y)
          image (y * width + x) =
        trace m cam.pos (render_raydir m width height cam x y) spheres 0) ∧
    (∀ i, k * width ≤ i →
      (List.range k).foldl (fun image y => render_row m image width height spheres cam y)
          image i = image i) := by
  induction k with
  | zero =>
    exact ⟨fun x y _ hy => absurd hy (Nat.not_lt_zero y), fun i _ => rfl⟩
  | succ k ih =>
    obtain ⟨ih1, ih2⟩ := ih (Nat.le_of_succ_le hk)
    have hkh : k < height := hk
    simp only [List.range_succ, List.foldl_append, List.foldl_cons, List.foldl_nil]
    obtain ⟨row1, row2⟩ := foldl_update_range
      ((List.range k).foldl (fun image y => render_row m image width height spheres cam y) image)
      (fun x => image_index width x k)
      (fun x => trace m cam.pos (render_raydir m width height cam x k) spheres 0) width
    refine ⟨fun x y hx hy => ?_, fun i hi => ?_⟩
    · rcases Nat.lt_succ_iff_lt_or_eq.mp hy with hlt | rfl
      · have hmiss : ∀ x', x' < width → image_index width x' k ≠ y * width + x := by
          intro x' hx' e
          rw [image_index_eq hsz hx' hkh] at e
          have h1 := @pixel_index_lt width k x y hx hlt
          rw [Nat.mul_comm width k] at h1
          omega
        exact (row2 _ hmiss).trans (ih1 x y hx hlt)
      · have hinj : ∀ x', x' < width → image_index width x' y = image_index width x y →
            x' = x := by
          intro x' hx' e
          rw [image_index_eq hsz hx' hkh, image_index_eq hsz hx hkh] at e
          exact (pixel_index_inj hx' hx e).1
        have hrow := row1 x hx hinj
        rw [image_index_eq hsz hx hkh] at hrow
        exact hrow
    · have hmiss : ∀ x', x' < width → image_index width x' k ≠ i := by
        intro x' hx' e
        rw [image_index_eq hsz hx' hkh] at e
        rw [Nat.succ_mul] at hi
        omega
      exact (row2 _ hmiss).trans
        (ih2 i (le_trans (Nat.mul_le_mul_right _ (Nat.le_succ k)) hi))

/-! ### The recorded calls of `trace` -/

theorem trace_logged_of_no_hit (m : Libm F) (rayorig raydir : Vec3f F)
    (spheres : List (Sphere F)) (depth : Int)
    (h : nearest_hit m rayorig raydir spheres = none) :
    trace_logged m rayorig raydir spheres depth = (⟨0.5, 0.7, 0.9⟩, [depth]) := by
  rw [trace_logged, h]

theorem trace_logged_of_diffuse (m : Libm F) (rayorig raydir : Vec3f F)
    (spheres : List (Sphere F)) (depth : Int) (tnear : F) (sphere : Sphere F)
    (hhit : nearest_hit m rayorig raydir spheres = some (tnear, sphere))
    (hbranch : ¬ ((sphere.transparency > 0 ∨ sphere.reflection > 0) ∧ depth < MAX_RAY_DEPTH)) :
    trace_logged m rayorig raydir spheres depth =
      (diffuse_shade m rayorig raydir spheres tnear sphere, [depth]) := by
  rw [trace_logged, hhit]
  simp only [dif_neg hbranch, decide_eq_true_eq, diffuse_shade, hit_point, hit_normal]

theorem trace_logged_of_mirror (m : Libm F) (rayorig raydir : Vec3f F)
    (spheres : List (Sphere F)) (depth : Int) (tnear : F) (sphere : Sphere F)
    (hhit : nearest_hit m rayorig raydir spheres = some (tnear, sphere))
    (hbranch : (sphere.transparency > 0 ∨ sphere.reflection > 0) ∧ depth < MAX_RAY_DEPTH) :
    trace_logged m rayorig raydir spheres depth =
      (vec_add
        (vec_mul
          (vec_add
            (vec_mul_scalar
              (trace_logged m
                (vec_add (hit_point rayorig raydir tnear)
                  (vec_mul_scalar
                    (hit_normal m raydir (hit_point rayorig raydir tnear) sphere) bias))
                (reflect_dir m raydir
                  (hit_normal m raydir (hit_point rayorig raydir tnear) sphere))
                spheres (depth + 1)).1
              (fresnel_effect m raydir
                (hit_normal m raydir (hit_point rayorig raydir tnear) sphere)))
            (vec_mul_scalar
              (if sphere.transparency > 0 then
                if refract_k
                    (refract_eta (ray_inside m raydir (hit_point rayorig raydir tnear) sphere))
                    raydir (hit_normal m raydir (hit_point rayorig raydir tnear) sphere) ≥ 0
                then
                  trace_logged m
                    (vec_sub (hit_point rayorig raydir tnear)
                      (vec_mul_scalar
                        (hit_normal m raydir (hit_point rayorig raydir tnear) sphere) bias))
                    (refract_dir m
                      (refract_eta
                        (ray_inside m raydir (hit_point rayorig raydir tnear) sphere))
                      raydir (hit_normal m raydir (hit_point rayorig raydir tnear) sphere))
                    spheres (depth + 1)
                else (⟨0, 0, 0⟩, [])
              else (⟨0, 0, 0⟩, [])).1
              ((1 - fresnel_effect m raydir
                  (hit_normal m raydir (hit_point rayorig raydir tnear) sphere)) *
                sphere.transparency)))
          sphere.surfaceColor)
        sphere.emissionColor,
      depth ::
        ((trace_logged m
            (vec_add (hit_point rayorig raydir tnear)
              (vec_mul_scalar
                (hit_normal m raydir (hit_point rayorig raydir tnear) sphere) bias))
            (reflect_dir m raydir
              (hit_normal m raydir (hit_point rayorig raydir tnear) sphere))
            spheres (depth + 1)).2 ++
          (if sphere.transparency > 0 then
            if refract_k
                (refract_eta (ray_inside m raydir (hit_point rayorig raydir tnear) sphere))
                raydir (hit_normal m raydir (hit_point rayorig raydir tnear) sphere) ≥ 0
            then
              trace_logged m
                (vec_sub (hit_point rayorig raydir tnear)
                  (vec_mul_scalar
                    (hit_normal m raydir (hit_point rayorig raydir tnear) sphere) bias))
                (refract_dir m
                  (refract_eta
                    (ray_inside m raydir (hit_point rayorig raydir tnear) sphere))
                  raydir (hit_normal m raydir (hit_point rayorig raydir tnear) sphere))
                spheres (depth + 1)
            else (⟨0, 0, 0⟩, [])
          else (⟨0, 0, 0⟩, [])).2)) := by
  rw [trace_logged, hhit]
  simp only [dif_pos hbranch, decide_eq_true_eq, hit_point, hit_normal, fresnel_effect,
    reflect_dir, refract_eta, refract_k, refract_dir, ray_inside]

theorem trace_log_leaf (n : Nat) (depth : Int) :
    (∀ k ∈ [depth], depth ≤ k ∧ (k = depth ∨ k ≤ MAX_RAY_DEPTH)) ∧
      [depth].length + 1 ≤ 2 ^ (n + 1) := by
  refine ⟨fun k hk => ?_, ?_⟩
  · rw [List.mem_singleton] at hk
    subst hk
    exact ⟨le_rfl, Or.inl rfl⟩
  · have hp : 1 ≤ 2 ^ n := Nat.one_le_two_pow
    simp only [List.length_singleton, pow_succ]
    omega

/-- By induction on the number of levels left: the recorder returns the colour
of `trace`, every recorded depth is the depth of the call or a greater one up to
`MAX_RAY_DEPTH`, and the number of invocations is below `2 ^ (levels + 1)`. -/
theorem trace_logged_spec (m : Libm F) (spheres : List (Sphere F)) (n : Nat) :
    ∀ (depth : Int) (rayorig raydir : Vec3f F), (MAX_RAY_DEPTH - depth).toNat ≤ n →
      (trace_logged m rayorig raydir spheres depth).1 = trace m rayorig raydir spheres depth ∧
      (∀ k ∈ (trace_logged m rayorig raydir spheres depth).2,
        depth ≤ k ∧ (k = depth ∨ k ≤ MAX_RAY_DEPTH)) ∧
      (trace_logged m rayorig raydir spheres depth).2.length + 1 ≤ 2 ^ (n + 1) := by
  induction n with
  | zero =>
    intro depth rayorig raydir hn
    have hdep : ¬ depth < MAX_RAY_DEPTH := by
      simp only [MAX_RAY_DEPTH] at hn ⊢
      omega
    cases hhit : nearest_hit m rayorig raydir spheres with
    | none =>
      rw [trace_logged_of_no_hit m _ _ _ _ hhit, trace_of_no_hit m _ _ _ _ hhit]
      exact ⟨rfl, trace_log_leaf 0 depth⟩
    | some p =>
      obtain ⟨tnear, sphere⟩ := p
      rw [trace_logged_of_diffuse m _ _ _ _ tnear sphere hhit (fun hc => hdep hc.2),
        trace_of_diffuse m _ _ _ _ tnear sphere hhit (fun hc => hdep hc.2)]
      exact ⟨rfl, trace_log_leaf 0 depth⟩
  | succ n ih =>
    intro depth rayorig raydir hn
    cases hhit : nearest_hit m rayorig raydir spheres with
    | none =>
      rw [trace_logged_of_no_hit m _ _ _ _ hhit, trace_of_no_hit m _ _ _ _ hhit]
      exact ⟨rfl, trace_log_leaf (n + 1) depth⟩
    | some p =>
      obtain ⟨tnear, sphere⟩ := p
      by_cases hb : (sphere.transparency > 0 ∨ sphere.reflection > 0) ∧ depth < MAX_RAY_DEPTH
      · have hmeas : (MAX_RAY_DEPTH - (depth + 1)).toNat ≤ n := by
          have hd := hb.2
          simp only [MAX_RAY_DEPTH] at hn hd ⊢
          omega
        have hd1 : depth + 1 ≤ MAX_RAY_DEPTH := by
          have hd := hb.2
          simp only [MAX_RAY_DEPTH] at hd ⊢
          omega
        rw [trace_logged_of_mirror m _ _ _ _ tnear sphere hhit hb,
          trace_of_mirror m _ _ _ _ tnear sphere hhit hb]
        obtain ⟨r1, r2, r3⟩ := ih (depth + 1)
          (vec_add (hit_point rayorig raydir tnear)
            (vec_mul_scalar (hit_normal m raydir (hit_point rayorig raydir tnear) sphere) bias))
          (reflect_dir m raydir (hit_normal m raydir (hit_point rayorig raydir tnear) sphere))
          hmeas
        obtain ⟨t1, t2, t3⟩ := ih (depth + 1)
          (vec_sub (hit_point rayorig raydir tnear)
            (vec_mul_scalar (hit_normal m raydir (hit_point rayorig raydir tnear) sphere) bias))
          (refract_dir m
            (refract_eta (ray_inside m raydir (hit_point rayorig raydir tnear) sphere))
            raydir (hit_normal m raydir (hit_point rayorig raydir tnear) sphere))
          hmeas
        have hsub : ∀ k : Int, depth + 1 ≤ k ∧ (k = depth + 1 ∨ k ≤ MAX_RAY_DEPTH) →
            depth ≤ k ∧ (k = depth ∨ k ≤ MAX_RAY_DEPTH) := by
          rintro k ⟨hk1, hk2⟩
          refine ⟨by omega, Or.inr ?_⟩
          rcases hk2 with rfl | hk2
          · exact hd1
          · exact hk2
        by_cases h1 : sphere.transparency > 0
        · by_cases h2 : refract_k
              (refract_eta (ray_inside m raydir (hit_point rayorig raydir tnear) sphere))
              raydir (hit_normal m raydir (hit_point rayorig raydir tnear) sphere) ≥ 0
          · simp only [if_pos h1, if_pos h2]
            refine ⟨by rw [r1, t1], fun k hk => ?_, ?_⟩
            · simp only [List.mem_cons, List.mem_append] at hk
              rcases hk with rfl | hk | hk
              · exact ⟨le_rfl, Or.inl rfl⟩
              · exact hsub k (r2 k hk)
              · exact hsub k (t2 k hk)
            · simp only [List.length_cons, List.length_append]
              rw [pow_succ]
              omega
          · simp only [if_pos h1, if_neg h2]
            refine ⟨by rw [r1], fun k hk => ?_, ?_⟩
            · simp only [List.mem_cons, List.append_nil] at hk
              rcases hk with rfl | hk
              · exact ⟨le_rfl, Or.inl rfl⟩
              · exact hsub k (r2 k hk)
            · simp only [List.length_cons, List.append_nil]
              rw [pow_succ]
              omega
        · simp only [if_neg h1]
          refine ⟨by rw [r1], fun k hk => ?_, ?_⟩
          · simp only [List.mem_cons, List.append_nil] at hk
            rcases hk with rfl | hk
            · exact ⟨le_rfl, Or.inl rfl⟩
            · exact hsub k (r2 k hk)
          · simp only [List.length_cons, List.append_nil]
            rw [pow_succ]
            omega
      · rw [trace_logged_of_diffuse m _ _ _ _ tnear sphere hhit hb,
          trace_of_diffuse m _ _ _ _ tnear sphere hhit hb]
        exact ⟨rfl, trace_log_leaf (n + 1) depth⟩

/-- The record of an invocation is its own depth followed by the records of the
calls it makes itself. -/
theorem trace_logged_snd_eq (m : Libm F) (rayorig raydir : Vec3f F)
    (spheres : List (Sphere F)) (depth : Int) :
    (trace_logged m rayorig raydir spheres depth).2 =
      depth ::
        ((trace_subcalls m rayorig raydir spheres depth).map
          (fun c => (trace_logged m c.1 c.2.1 spheres c.2.2).2)).flatten := by
  cases hhit : nearest_hit m rayorig raydir spheres with
  | none =>
    rw [trace_logged_of_no_hit m _ _ _ _ hhit]
    simp [trace_subcalls, hhit]
  | some p =>
    obtain ⟨tnear, sphere⟩ := p
    by_cases hb : (sphere.transparency > 0 ∨ sphere.reflection > 0) ∧ depth < MAX_RAY_DEPTH
    · rw [trace_logged_of_mirror m _ _ _ _ tnear sphere hhit hb]
      by_cases h1 : sphere.transparency > 0
      · by_cases h2 : refract_k
            (refract_eta (ray_inside m raydir (hit_point rayorig raydir tnear) sphere))
            raydir (hit_normal m raydir (hit_point rayorig raydir tnear) sphere) ≥ 0
        · simp only [trace_subcalls, hhit, if_pos hb, if_pos h1, if_pos h2]
          simp
        · simp only [trace_subcalls, hhit, if_pos hb, if_pos h1, if_neg h2]
          simp
      · simp only [trace_subcalls, hhit, if_pos hb, if_neg h1]
        simp
    · rw [trace_logged_of_diffuse m _ _ _ _ tnear sphere hhit hb]
      simp only [trace_subcalls, hhit, if_neg hb]
      simp

theorem trace_subcalls_spec (m : Libm F) (rayorig raydir : Vec3f F)
    (spheres : List (Sphere F)) (depth : Int) :
    (trace_subcalls m rayorig raydir spheres depth).length ≤ 2 ∧
    ∀ c ∈ trace_subcalls m rayorig raydir spheres depth,
      c.2.2 = depth + 1 ∧ depth < MAX_RAY_DEPTH := by
  unfold trace_subcalls
  cases nearest_hit m rayorig raydir spheres with
  | none => simp
  | some p =>
    obtain ⟨tnear, sphere⟩ := p
    simp only
    by_cases hb : (sphere.transparency > 0 ∨ sphere.reflection > 0) ∧ depth < MAX_RAY_DEPTH
    · rw [if_pos hb]
      refine ⟨?_, fun c hc => ?_⟩
      · split_ifs <;> simp
      · split_ifs at hc <;> simp at hc
        · rcases hc with rfl | rfl <;> exact ⟨rfl, hb.2⟩
        · subst hc
          exact ⟨rfl, hb.2⟩
        · subst hc
          exact ⟨rfl, hb.2⟩
    · rw [if_neg hb]
      simp

/-! ### Evaluating `sphere_intersect` and the light loop on given spheres -/

theorem sphere_intersect_of_roots {m : Libm F} (hm : m.Exact) (s : Sphere F)
    (rayorig raydir : Vec3f F) (tca d2 thc : F)
    (h1 : sphere_tca s rayorig raydir = tca) (h2 : sphere_d2 s rayorig raydir = d2)
    (h3 : 0 ≤ tca) (h4 : d2 ≤ s.radius2) (h5 : 0 ≤ thc) (h6 : thc * thc = s.radius2 - d2) :
    sphere_intersect m s rayorig raydir = some (tca - thc, tca + thc) := by
  rw [sphere_intersect_eq, h1, h2, if_neg (not_lt.mpr h3), if_neg (not_lt.mpr h4),
    sqrtf_eq_of_mul_self hm _ thc h5 h6]

theorem sphere_intersect_of_behind (m : Libm F) (s : Sphere F) (rayorig raydir : Vec3f F)
    (h : sphere_tca s rayorig raydir < 0) : sphere_intersect m s rayorig raydir = none := by
  rw [sphere_intersect_eq, if_pos h]

theorem sphere_intersect_of_aside (m : Libm F) (s : Sphere F) (rayorig raydir : Vec3f F)
    (h : sphere_d2 s rayorig raydir > s.radius2) :
    sphere_intersect m s rayorig raydir = none := by
  rw [sphere_intersect_eq, if_pos h]
  split_ifs <;> rfl

theorem light_step_of_dark (m : Libm F) (spheres : List (Sphere F)) (sphere : Sphere F)
    (phit nhit : Vec3f F) (i : Nat) (si : Sphere F) (surfaceColor : Vec3f F)
    (h : ¬ (si.emissionColor.x > 0 ∨ si.emissionColor.y > 0 ∨ si.emissionColor.z > 0)) :
    light_step m spheres sphere phit nhit i si surfaceColor = surfaceColor := by
  unfold light_step
  rw [if_neg h]

theorem light_step_of_shadowed (m : Libm F) (spheres : List (Sphere F)) (sphere : Sphere F)
    (phit nhit : Vec3f F) (i : Nat) (si : Sphere F) (surfaceColor : Vec3f F)
    (hocc : ∃ j sj, spheres[j]? = some sj ∧ j ≠ i ∧
        (sphere_intersect m sj (vec_add phit (vec_mul_scalar nhit bias))
          (vec_normalize m (vec_sub si.center phit))).isSome) :
    light_step m spheres sphere phit nhit i si surfaceColor = surfaceColor := by
  have hocc' : ∃ k sk, spheres[k]? = some sk ∧ 0 + k ≠ i ∧
      (sphere_intersect m sk (vec_add phit (vec_mul_scalar nhit bias))
        (vec_normalize m (vec_sub si.center phit))).isSome := by
    simpa using hocc
  unfold light_step
  simp only [shadow_loop_of_hit m i _ _ 0 spheres _ hocc']
  split_ifs <;> simp [vec_add, vec_mul, vec_mul_scalar]

theorem light_step_of_lit (m : Libm F) (spheres : List (Sphere F)) (sphere : Sphere F)
    (phit nhit : Vec3f F) (i : Nat) (si : Sphere F) (surfaceColor : Vec3f F)
    (hem : si.emissionColor.x > 0 ∨ si.emissionColor.y > 0 ∨ si.emissionColor.z > 0)
    (hfree : ¬ ∃ j sj, spheres[j]? = some sj ∧ j ≠ i ∧
        (sphere_intersect m sj (vec_add phit (vec_mul_scalar nhit bias))
          (vec_normalize m (vec_sub si.center phit))).isSome)
    (hdot : vec_dot nhit (vec_normalize m (vec_sub si.center phit)) > 0) :
    light_step m spheres sphere phit nhit i si surfaceColor =
      vec_add surfaceColor
        (vec_mul_scalar (vec_mul sphere.surfaceColor si.emissionColor)
          (vec_dot nhit (vec_normalize m (vec_sub si.center phit)))) := by
  have hfree' : ¬ ∃ k sk, spheres[k]? = some sk ∧ 0 + k ≠ i ∧
      (sphere_intersect m sk (vec_add phit (vec_mul_scalar nhit bias))
        (vec_normalize m (vec_sub si.center phit))).isSome := by
    simpa using hfree
  unfold light_step
  rw [if_pos hem]
  simp only [shadow_loop_of_no_hit m i _ _ 0 spheres _ hfree', if_pos hdot]
  simp [vec_mul, vec_mul_scalar]

/-! ### The shadow test scene -/

theorem test_light_dir {m : Libm F} (hm : m.Exact) :
    vec_normalize m (vec_sub (test_light : Sphere F).center ⟨0, 0, 0⟩) = ⟨0, 1, 0⟩ := by
  simp [vec_normalize, vec_length, vec_dot, vec_sub, test_light, sqrtf_one hm]

theorem test_floor_normal {m : Libm F} (hm : m.Exact) (raydir : Vec3f F) (h : raydir.y ≤ 0) :
    hit_normal m raydir ⟨0, 0, 0⟩ (test_floor : Sphere F) = ⟨0, 1, 0⟩ := by
  have hn : vec_normalize m (vec_sub ⟨0, 0, 0⟩ (test_floor : Sphere F).center) = ⟨0, 1, 0⟩ := by
    simp [vec_normalize, vec_length, vec_dot, vec_sub, test_floor, sqrtf_one hm]
  simp only [hit_normal, hn]
  rw [if_neg]
  simp only [vec_dot]
  simp only [mul_zero, mul_one, zero_add, add_zero]
  exact not_lt.mpr h

theorem test_shadow_floor (m : Libm F) :
    sphere_intersect m (test_floor : Sphere F)
      (vec_add ⟨0, 0, 0⟩ (vec_mul_scalar ⟨0, 1, 0⟩ bias)) ⟨0, 1, 0⟩ = none := by
  apply sphere_intersect_of_behind
  simp [sphere_tca, vec_dot, vec_sub, vec_add, vec_mul_scalar, test_floor, bias]
  norm_num

theorem test_shadow_far {m : Libm F} (hm : m.Exact) :
    sphere_intersect m (test_far : Sphere F)
      (vec_add ⟨0, 0, 0⟩ (vec_mul_scalar ⟨0, 1, 0⟩ bias)) ⟨0, 1, 0⟩ =
        some (2.9999 - 0.1, 2.9999 + 0.1) := by
  apply sphere_intersect_of_roots hm _ _ _ 2.9999 0 0.1
  · simp [sphere_tca, vec_dot, vec_sub, vec_add, vec_mul_scalar, test_far, bias]
    norm_num
  · simp [sphere_d2, sphere_tca, vec_dot, vec_sub, vec_add, vec_mul_scalar, test_far, bias]
  · norm_num
  · simp [test_far]
    norm_num
  · norm_num
  · simp [test_far]

theorem test_primary_floor {m : Libm F} (hm : m.Exact) :
    sphere_intersect m (test_floor : Sphere F) ⟨3, 4, 0⟩ ⟨-0.6, -0.8, 0⟩ =
      some (5.8 - 0.8, 5.8 + 0.8) := by
  apply sphere_intersect_of_roots hm _ _ _ 5.8 0.36 0.8
  · simp [sphere_tca, vec_dot, vec_sub, test_floor]
    norm_num
  · simp [sphere_d2, sphere_tca, vec_dot, vec_sub, test_floor]
    norm_num
  · norm_num
  · simp [test_floor]
    norm_num
  · norm_num
  · simp [test_floor]
    norm_num

theorem test_primary_light (m : Libm F) :
    sphere_intersect m (test_light : Sphere F) ⟨3, 4, 0⟩ ⟨-0.6, -0.8, 0⟩ = none := by
  apply sphere_intersect_of_aside
  simp [sphere_d2, sphere_tca, vec_dot, vec_sub, test_light]
  norm_num

theorem test_primary_far (m : Libm F) :
    sphere_intersect m (test_far : Sphere F) ⟨3, 4, 0⟩ ⟨-0.6, -0.8, 0⟩ = none := by
  apply sphere_intersect_of_aside
  simp [sphere_d2, sphere_tca, vec_dot, vec_sub, test_far]
  norm_num

/-! ### `trace` reads `reflection` only through the test `reflection > 0` -/

theorem sphere_intersect_congr_reflection (m : Libm F) (s s' : Sphere F)
    (rayorig raydir : Vec3f F) (h : s.same_up_to_reflection s') :
    sphere_intersect m s rayorig raydir = sphere_intersect m s' rayorig raydir := by
  obtain ⟨hc, _, hr2, _⟩ := h
  simp only [sphere_intersect, hc, hr2]

theorem nearest_step_corresponds (m : Libm F) (rayorig raydir : Vec3f F)
    (acc acc' : Option (F × Sphere F)) (s s' : Sphere F)
    (hacc : nearest_corresponds acc acc') (hs : s.same_up_to_reflection s') :
    nearest_corresponds (nearest_step m rayorig raydir acc s)
      (nearest_step m rayorig raydir acc' s') := by
  unfold nearest_step
  rw [← sphere_intersect_congr_reflection m s s' rayorig raydir hs]
  cases sphere_intersect m s rayorig raydir with
  | none => exact hacc
  | some p =>
    obtain ⟨t0, t1⟩ := p
    match acc, acc', hacc with
    | none, none, _ => exact ⟨rfl, hs⟩
    | some (t, a), some (t', a'), hrel =>
      obtain ⟨ht, ha⟩ := hrel
      subst ht
      simp only
      by_cases hlt : (if t0 < 0 then t1 else t0) < t
      · rw [if_pos hlt, if_pos hlt]
        exact ⟨rfl, hs⟩
      · rw [if_neg hlt, if_neg hlt]
        exact ⟨rfl, ha⟩

theorem nearest_hit_corresponds (m : Libm F) (rayorig raydir : Vec3f F)
    (spheres spheres' : List (Sphere F))
    (h : List.Forall₂ Sphere.same_up_to_reflection spheres spheres') :
    nearest_corresponds (nearest_hit m rayorig raydir spheres)
      (nearest_hit m rayorig raydir spheres') := by
  have hgen : ∀ (acc acc' : Option (F × Sphere F)), nearest_corresponds acc acc' →
      nearest_corresponds (spheres.foldl (nearest_step m rayorig raydir) acc)
        (spheres'.foldl (nearest_step m rayorig raydir) acc') := by
    induction h with
    | nil => exact fun acc acc' hacc => hacc
    | cons hs _ ih =>
      intro acc acc' hacc
      exact ih _ _ (nearest_step_corresponds m rayorig raydir acc acc' _ _ hacc hs)
  exact hgen none none trivial

theorem shadow_loop_congr_reflection (m : Libm F) (i : Nat) (orig dir : Vec3f F)
    (rest rest' : List (Sphere F))
    (h : List.Forall₂ Sphere.same_up_to_reflection rest rest') (j : Nat)
    (transmission : Vec3f F) :
    shadow_loop m i orig dir j rest transmission =
      shadow_loop m i orig dir j rest' transmission := by
  induction h generalizing j with
  | nil => rfl
  | cons hs _ ih =>
    simp only [shadow_loop, sphere_intersect_congr_reflection m _ _ orig dir hs, ih]

theorem light_step_congr_reflection (m : Libm F) (spheres spheres' : List (Sphere F))
    (h : List.Forall₂ Sphere.same_up_to_reflection spheres spheres')
    (sphere sphere' : Sphere F) (hsph : sphere.same_up_to_reflection sphere')
    (phit nhit : Vec3f F) (i : Nat) (si si' : Sphere F)
    (hsi : si.same_up_to_reflection si') (surfaceColor : Vec3f F) :
    light_step m spheres sphere phit nhit i si surfaceColor =
      light_step m spheres' sphere' phit nhit i si' surfaceColor := by
  obtain ⟨hc, _, _, _, he, _, _⟩ := hsi
  obtain ⟨_, _, _, hcol, _, _, _⟩ := hsph
  simp only [light_step, hc, he, hcol,
    shadow_loop_congr_reflection m i _ _ spheres spheres' h]

theorem light_loop_congr_reflection (m : Libm F) (spheres spheres' : List (Sphere F))
    (h : List.Forall₂ Sphere.same_up_to_reflection spheres spheres')
    (sphere sphere' : Sphere F) (hsph : sphere.same_up_to_reflection sphere')
    (phit nhit : Vec3f F) (rest rest' : List (Sphere F))
    (hrest : List.Forall₂ Sphere.same_up_to_reflection rest rest') (i : Nat)
    (surfaceColor : Vec3f F) :
    light_loop m spheres sphere phit nhit i rest surfaceColor =
      light_loop m spheres' sphere' phit nhit i rest' surfaceColor := by
  induction hrest generalizing i surfaceColor with
  | nil => rfl
  | cons hsi _ ih =>
    simp only [light_loop,
      light_step_congr_reflection m spheres spheres' h sphere sphere' hsph phit nhit i _ _ hsi,
      ih]

theorem hit_normal_congr_reflection (m : Libm F) (raydir phit : Vec3f F) (s s' : Sphere F)
    (h : s.same_up_to_reflection s') :
    hit_normal m raydir phit s = hit_normal m raydir phit s' := by
  simp only [hit_normal, h.1]

theorem ray_inside_congr_reflection (m : Libm F) (raydir phit : Vec3f F) (s s' : Sphere F)
    (h : s.same_up_to_reflection s') :
    ray_inside m raydir phit s = ray_inside m raydir phit s' := by
  simp only [ray_inside, h.1]

/-- One level of `trace` on two scenes that differ in `reflection` values only,
given that the calls one level deeper agree. -/
theorem trace_congr_reflection_step (m : Libm F) (spheres spheres' : List (Sphere F))
    (h : List.Forall₂ Sphere.same_up_to_reflection spheres spheres') (depth : Int)
    (ih : depth < MAX_RAY_DEPTH → ∀ (rayorig raydir : Vec3f F),
      trace m rayorig raydir spheres (depth + 1) = trace m rayorig raydir spheres' (depth + 1))
    (rayorig raydir : Vec3f F) :
    trace m rayorig raydir spheres depth = trace m rayorig raydir spheres' depth := by
  have hrel := nearest_hit_corresponds m rayorig raydir spheres spheres' h
  cases hhit : nearest_hit m rayorig raydir spheres with
  | none =>
    cases hhit' : nearest_hit m rayorig raydir spheres' with
    | none =>
      rw [trace_of_no_hit m _ _ _ _ hhit, trace_of_no_hit m _ _ _ _ hhit']
    | some q =>
      rw [hhit, hhit'] at hrel
      exact absurd hrel (fun hc => hc)
  | some p =>
    obtain ⟨t, s⟩ := p
    cases hhit' : nearest_hit m rayorig raydir spheres' with
    | none =>
      rw [hhit, hhit'] at hrel
      exact absurd hrel (fun hc => hc)
    | some q =>
      obtain ⟨t', s'⟩ := q
      rw [hhit, hhit'] at hrel
      obtain ⟨ht, hs⟩ := hrel
      subst ht
      have hn := hit_normal_congr_reflection m raydir (hit_point rayorig raydir t) s s' hs
      have hin := ray_inside_congr_reflection m raydir (hit_point rayorig raydir t) s s' hs
      obtain ⟨_, _, _, hcol, hem, htr, hsign⟩ := hs
      by_cases hb : (s.transparency > 0 ∨ s.reflection > 0) ∧ depth < MAX_RAY_DEPTH
      · have hb' : (s'.transparency > 0 ∨ s'.reflection > 0) ∧ depth < MAX_RAY_DEPTH := by
          rw [← htr, ← hsign]
          exact hb
        rw [trace_of_mirror m _ _ _ _ t s hhit hb, trace_of_mirror m _ _ _ _ t s' hhit' hb',
          ih hb.2, ih hb.2, hn, hin, hcol, hem, htr]
      · have hb' : ¬ ((s'.transparency > 0 ∨ s'.reflection > 0) ∧ depth < MAX_RAY_DEPTH) := by
          rw [← htr, ← hsign]
          exact hb
        have hs : s.same_up_to_reflection s' :=
          ⟨by assumption, by assumption, by assumption, hcol, hem, htr, hsign⟩
        rw [trace_of_diffuse m _ _ _ _ t s hhit hb, trace_of_diffuse m _ _ _ _ t s' hhit' hb']
        simp only [diffuse_shade, hn, hem,
          light_loop_congr_reflection m spheres spheres' h s s' hs _ _ spheres spheres' h]

theorem trace_congr_reflection (m : Libm F) (spheres spheres' : List (Sphere F))
    (h : List.Forall₂ Sphere.same_up_to_reflection spheres spheres') (n : Nat) :
    ∀ (depth : Int), (MAX_RAY_DEPTH - depth).toNat ≤ n → ∀ (rayorig raydir : Vec3f F),
      trace m rayorig raydir spheres depth = trace m rayorig raydir spheres' depth := by
  induction n with
  | zero =>
    intro depth hn rayorig raydir
    apply trace_congr_reflection_step m spheres spheres' h depth
    intro hlt
    simp only [MAX_RAY_DEPTH] at hn hlt
    omega
  | succ n ih =>
    intro depth hn rayorig raydir
    apply trace_congr_reflection_step m spheres spheres' h depth
    intro hlt
    apply ih
    simp only [MAX_RAY_DEPTH] at hn hlt ⊢
    omega

/-! ### The light loop is the sum of the contributions of the specification -/

theorem shadow_blocked_iff (m : Libm F) (spheres : List (Sphere F)) (i : Nat)
    (orig dir : Vec3f F) :
    shadow_blocked m spheres i orig dir = true ↔
      ∃ j sj, spheres[j]? = some sj ∧ j ≠ i ∧ (sphere_intersect m sj orig dir).isSome := by
  unfold shadow_blocked
  rw [List.any_eq_true]
  constructor
  · rintro ⟨j, _, hj⟩
    cases hsj : spheres[j]? with
    | none => rw [hsj] at hj; cases hj
    | some sj =>
      rw [hsj] at hj
      simp only [Bool.and_eq_true, decide_eq_true_eq] at hj
      exact ⟨j, sj, hsj, hj.1, hj.2⟩
  · rintro ⟨j, sj, hsj, hne, hhit⟩
    obtain ⟨hlt, _⟩ := List.getElem?_eq_some.mp hsj
    refine ⟨j, List.mem_range.mpr hlt, ?_⟩
    rw [hsj]
    simp only [Bool.and_eq_true, decide_eq_true_eq]
    exact ⟨hne, hhit⟩

theorem vec_add_zero_right (a : Vec3f F) : vec_add a ⟨0, 0, 0⟩ = a := by
  simp [vec_add]

theorem vec_add_zero_left (a : Vec3f F) : vec_add ⟨0, 0, 0⟩ a = a := by
  simp [vec_add]

theorem vec_add_assoc (a b c : Vec3f F) :
    vec_add (vec_add a b) c = vec_add a (vec_add b c) := by
  simp only [vec_add, Vec3f.mk.injEq]
  exact ⟨add_assoc _ _ _, add_assoc _ _ _, add_assoc _ _ _⟩

/-- One iteration of the light loop adds the contribution of the specification. -/
theorem light_step_eq_add_contribution (m : Libm F) (spheres : List (Sphere F))
    (sphere : Sphere F) (phit nhit : Vec3f F) (i : Nat) (si : Sphere F)
    (surfaceColor : Vec3f F) :
    light_step m spheres sphere phit nhit i si surfaceColor =
      vec_add surfaceColor (light_contribution m spheres sphere phit nhit i si) := by
  by_cases hem : si.emissionColor.x > 0 ∨ si.emissionColor.y > 0 ∨ si.emissionColor.z > 0
  · cases hb : shadow_blocked m spheres i (vec_add phit (vec_mul_scalar nhit bias))
        (vec_normalize m (vec_sub si.center phit)) with
    | true =>
      have hocc := (shadow_blocked_iff m spheres i _ _).mp hb
      rw [light_step_of_shadowed m spheres sphere phit nhit i si surfaceColor hocc]
      simp only [light_contribution, hb]
      rw [if_neg (fun hc => by simp at hc), vec_add_zero_right]
    | false =>
      have hfree : ¬ ∃ j sj, spheres[j]? = some sj ∧ j ≠ i ∧
          (sphere_intersect m sj (vec_add phit (vec_mul_scalar nhit bias))
            (vec_normalize m (vec_sub si.center phit))).isSome := by
        intro hc
        rw [← shadow_blocked_iff, hb] at hc
        cases hc
      by_cases hdot : vec_dot nhit (vec_normalize m (vec_sub si.center phit)) > 0
      · rw [light_step_of_lit m spheres sphere phit nhit i si surfaceColor hem hfree hdot]
        simp only [light_contribution, hb]
        rw [if_pos ⟨hem, trivial, hdot⟩]
      · simp only [light_contribution, hb]
        rw [if_neg (fun hc => hdot hc.2.2), vec_add_zero_right]
        simp only [light_step]
        rw [if_pos hem, if_neg hdot]
  · rw [light_step_of_dark m spheres sphere phit nhit i si surfaceColor hem]
    simp only [light_contribution]
    rw [if_neg (fun hc => hem hc.1), vec_add_zero_right]

theorem light_loop_eq_add_sum (m : Libm F) (spheres : List (Sphere F)) (sphere : Sphere F)
    (phit nhit : Vec3f F) (i : Nat) (rest : List (Sphere F)) (surfaceColor : Vec3f F) :
    light_loop m spheres sphere phit nhit i rest surfaceColor =
      vec_add surfaceColor
        (vec_sum (light_contributions_from m spheres sphere phit nhit i rest)) := by
  induction rest generalizing i surfaceColor with
  | nil => simp [light_loop, light_contributions_from, vec_sum, vec_add]
  | cons si tl ih =>
    simp only [light_loop, light_contributions_from, vec_sum, ih,
      light_step_eq_add_contribution, vec_add_assoc]

theorem light_contributions_from_getElem? (m : Libm F) (spheres : List (Sphere F))
    (sphere : Sphere F) (phit nhit : Vec3f F) (i : Nat) (rest : List (Sphere F)) (k : Nat)
    (si : Sphere F) (h : rest[k]? = some si) :
    (light_contributions_from m spheres sphere phit nhit i rest)[k]? =
      some (light_contribution m spheres sphere phit nhit (i + k) si) := by
  induction rest generalizing i k with
  | nil => simp at h
  | cons s tl ih =>
    cases k with
    | zero =>
      simp only [List.getElem?_cons_zero, Option.some.injEq] at h
      subst h
      simp [light_contributions_from]
    | succ k =>
      simp only [List.getElem?_cons_succ] at h
      simp only [light_contributions_from, List.getElem?_cons_succ]
      rw [ih (i + 1) k h]
      congr 2
      omega

theorem light_contributions_from_length (m : Libm F) (spheres : List (Sphere F))
    (sphere : Sphere F) (phit nhit : Vec3f F) (i : Nat) (rest : List (Sphere F)) :
    (light_contributions_from m spheres sphere phit nhit i rest).length = rest.length := by
  induction rest generalizing i with
  | nil => rfl
  | cons s tl ih => simp [light_contributions_from, ih]

theorem test_primary_occluder (m : Libm F) :
    sphere_intersect m (test_occluder : Sphere F) ⟨3, 4, 0⟩ ⟨-0.6, -0.8, 0⟩ = none := by
  apply sphere_intersect_of_aside
  simp [sphere_d2, sphere_tca, vec_dot, vec_sub, test_occluder]
  norm_num

theorem test_shadow_occluder (m : Libm F) :
    (sphere_intersect m (test_occluder : Sphere F)
      (vec_add ⟨0, 0, 0⟩ (vec_mul_scalar ⟨0, 1, 0⟩ bias)) ⟨0, 1, 0⟩).isSome := by
  rw [sphere_intersect_eq, if_neg, if_neg]
  · rfl
  · simp [sphere_d2, sphere_tca, vec_dot, vec_sub, vec_add, vec_mul_scalar, test_occluder, bias]
    norm_num
  · simp [sphere_tca, vec_dot, vec_sub, vec_add, vec_mul_scalar, test_occluder, bias]
    norm_num

/-! ### The binary32 rounding and square root -/

theorem isqrt_bits_spec (n : Nat) (b acc : Nat) (h1 : acc * acc ≤ n)
    (h2 : n < (acc + 2 ^ b) * (acc + 2 ^ b)) :
    isqrt_bits n b acc * isqrt_bits n b acc ≤ n ∧
      n < (isqrt_bits n b acc + 1) * (isqrt_bits n b acc + 1) := by
  induction b generalizing acc with
  | zero => exact ⟨h1, by simpa using h2⟩
  | succ b ih =>
    simp only [isqrt_bits]
    split_ifs with hc
    · apply ih _ hc
      have e : acc + 2 ^ b + 2 ^ b = acc + 2 ^ (b + 1) := by rw [pow_succ]; ring
      rw [e]
      exact h2
    · exact ih _ h1 (not_le.mp hc)

theorem pow2_eq_zpow (e : Int) : pow2 e = (2 : ℚ) ^ e := by
  unfold pow2
  split_ifs with h
  · obtain ⟨n, rfl⟩ := Int.eq_ofNat_of_zero_le h
    simp
  · push_neg at h
    obtain ⟨n, hn⟩ := Int.eq_ofNat_of_zero_le (by omega : 0 ≤ -e)
    have he : e = -(n : Int) := by omega
    subst he
    simp

theorem pow2_pos (e : Int) : 0 < pow2 e := by
  rw [pow2_eq_zpow]
  positivity

theorem rat_floor_le (q : ℚ) : ((Rat.floor q : Int) : ℚ) ≤ q :=
  Int.floor_le q

theorem rat_lt_floor_add_one (q : ℚ) : q < ((Rat.floor q : Int) : ℚ) + 1 :=
  Int.lt_floor_add_one q

/-- The function `round_half_even` gives an integer nearest to its argument. -/
theorem round_half_even_spec (q : ℚ) : |(round_half_even q : ℚ) - q| ≤ 1 / 2 := by
  have h1 := rat_floor_le q
  have h2 := rat_lt_floor_add_one q
  unfold round_half_even
  simp only
  rw [abs_le]
  split_ifs with ha hb hc
  · constructor <;> linarith
  · push_cast
    constructor <;> linarith
  · constructor <;> linarith
  · push_cast
    constructor <;> linarith

/-- For `q ≠ 0` the value `round_f32 q` lies within half a unit in the last
place of `q`, the unit being `2 ^ (e - 23)` for the exponent `e` of `q`, at
least `-126`. -/
theorem round_f32_near (q : ℚ) :
    |round_f32 q - q| ≤ pow2 (max (floor_log2 q) (-126) - 23) / 2 := by
  unfold round_f32
  split_ifs with h0
  · subst h0
    simp only [sub_self, abs_zero]
    exact (half_pos (pow2_pos _)).le
  · simp only
    have hu := pow2_pos (max (floor_log2 q) (-126) - 23)
    generalize pow2 (max (floor_log2 q) (-126) - 23) = ulp at hu
    have h := round_half_even_spec (q / ulp)
    have e : (round_half_even (q / ulp) : ℚ) * ulp - q =
        ((round_half_even (q / ulp) : ℚ) - q / ulp) * ulp := by
      field_simp
    rw [e, abs_mul, abs_of_pos hu]
    calc |(round_half_even (q / ulp) : ℚ) - q / ulp| * ulp ≤ 1 / 2 * ulp :=
          mul_le_mul_of_nonneg_right h hu.le
      _ = ulp / 2 := by ring

theorem bit_length_fuel_lower (fuel n : Nat) (h : n ≤ fuel) (hn : 0 < n) :
    2 ^ (bit_length_fuel fuel n - 1) ≤ n := by
  induction fuel generalizing n with
  | zero => omega
  | succ fuel ih =>
    simp only [bit_length_fuel]
    rw [if_neg (by omega)]
    simp only [Nat.add_sub_cancel]
    by_cases h1 : n / 2 = 0
    · have : bit_length_fuel fuel (n / 2) = 0 := by
        rw [h1]
        cases fuel <;> simp [bit_length_fuel]
      rw [this]
      simpa using hn
    · have hpos : 0 < n / 2 := Nat.pos_of_ne_zero h1
      have hlt : n / 2 ≤ fuel := by omega
      have := ih (n / 2) hlt hpos
      have hb : 0 < bit_length_fuel fuel (n / 2) := by
        cases fuel with
        | zero => omega
        | succ f =>
          simp only [bit_length_fuel]
          rw [if_neg h1]
          omega
      have e : bit_length_fuel fuel (n / 2) = (bit_length_fuel fuel (n / 2) - 1) + 1 := by omega
      rw [e, pow_succ]
      omega

theorem bit_length_fuel_upper (fuel n : Nat) (h : n ≤ fuel) :
    n < 2 ^ bit_length_fuel fuel n := by
  induction fuel generalizing n with
  | zero =>
    have : n = 0 := Nat.le_zero.mp h
    subst this
    simp [bit_length_fuel]
  | succ fuel ih =>
    simp only [bit_length_fuel]
    split_ifs with h0
    · subst h0
      simp
    · have hlt : n / 2 ≤ fuel := by omega
      have := ih (n / 2) hlt
      rw [pow_succ]
      omega

/-- For `n > 0` the number `b = bit_length n` satisfies `2 ^ (b - 1) ≤ n < 2 ^ b`. -/
theorem bit_length_spec (n : Nat) (hn : 0 < n) :
    0 < bit_length n ∧ 2 ^ (bit_length n - 1) ≤ n ∧ n < 2 ^ bit_length n := by
  have hu := bit_length_fuel_upper n n le_rfl
  refine ⟨?_, bit_length_fuel_lower n n le_rfl hn, hu⟩
  by_contra hc
  have h0 : bit_length n = 0 := by omega
  unfold bit_length at h0
  rw [h0] at hu
  simp at hu
  omega

/-- For `q ≠ 0` the exponent `e = floor_log2 q` satisfies `2 ^ e ≤ |q| < 2 ^ (e + 1)`. -/
theorem floor_log2_spec (q : ℚ) (hq : q ≠ 0) :
    pow2 (floor_log2 q) ≤ |q| ∧ |q| < pow2 (floor_log2 q + 1) := by
  have hnum : 0 < q.num.natAbs := Int.natAbs_pos.mpr (Rat.num_ne_zero.mpr hq)
  have hden : 0 < q.den := q.den_pos
  obtain ⟨hn0, hn1, hn2⟩ := bit_length_spec _ hnum
  obtain ⟨hd0, hd1, hd2⟩ := bit_length_spec _ hden
  have habs : |q| = (q.num.natAbs : ℚ) / (q.den : ℚ) := by
    conv_lhs => rw [← Rat.num_div_den q]
    rw [abs_div, Nat.abs_cast, Nat.cast_natAbs, Int.cast_abs]
  have hdq : (0 : ℚ) < (q.den : ℚ) := by exact_mod_cast hden
  have hnq : (0 : ℚ) < (q.num.natAbs : ℚ) := by exact_mod_cast hnum
  have hn1q : (2 : ℚ) ^ (bit_length q.num.natAbs - 1) ≤ (q.num.natAbs : ℚ) := by
    exact_mod_cast hn1
  have hn2q : (q.num.natAbs : ℚ) < (2 : ℚ) ^ bit_length q.num.natAbs := by
    exact_mod_cast hn2
  have hd1q : (2 : ℚ) ^ (bit_length q.den - 1) ≤ (q.den : ℚ) := by
    exact_mod_cast hd1
  have hd2q : (q.den : ℚ) < (2 : ℚ) ^ bit_length q.den := by
    exact_mod_cast hd2
  have hA : (2 : ℚ) ^ bit_length q.num.natAbs = 2 * 2 ^ (bit_length q.num.natAbs - 1) := by
    rw [← pow_succ']
    congr 1
    omega
  have hB : (2 : ℚ) ^ bit_length q.den = 2 * 2 ^ (bit_length q.den - 1) := by
    rw [← pow_succ']
    congr 1
    omega
  have he0 : pow2 ((bit_length q.num.natAbs : Int) - (bit_length q.den : Int)) =
      (2 : ℚ) ^ (bit_length q.num.natAbs - 1) / 2 ^ (bit_length q.den - 1) := by
    rw [pow2_eq_zpow, zpow_sub₀ (by norm_num), zpow_natCast, zpow_natCast, hA, hB]
    field_simp
    ring
  have hstep : ∀ e : Int, pow2 (e + 1) = 2 * pow2 e := by
    intro e
    rw [pow2_eq_zpow, pow2_eq_zpow, zpow_add_one₀ (by norm_num)]
    ring
  rw [habs]
  unfold floor_log2
  simp only
  rw [he0]
  generalize (2 : ℚ) ^ (bit_length q.num.natAbs - 1) = a at hn1q hn2q hA he0
  generalize (2 : ℚ) ^ (bit_length q.den - 1) = b at hd1q hd2q hB he0
  generalize (q.num.natAbs : ℚ) = n at hnq hn1q hn2q
  generalize (q.den : ℚ) = d at hdq hd1q hd2q
  rw [hA] at hn2q
  rw [hB] at hd2q
  have hb : 0 < b := by linarith
  have ha : 0 < a := by linarith
  split_ifs with hc
  · have hlow : pow2 ((bit_length q.num.natAbs : Int) - (bit_length q.den : Int) - 1) =
        a / b / 2 := by
      have := hstep ((bit_length q.num.natAbs : Int) - (bit_length q.den : Int) - 1)
      rw [sub_add_cancel, he0] at this
      linarith
    rw [sub_add_cancel, hlow, he0]
    constructor
    · rw [div_div, div_le_div_iff₀ (by positivity) hdq]
      nlinarith
    · rw [div_lt_iff₀ hdq]
      exact hc
  · rw [hstep, he0]
    push_neg at hc
    constructor
    · rw [le_div_iff₀ hdq]
      exact hc
    · rw [div_lt_iff₀ hdq]
      have : 2 * (a / b) * d = 2 * a * d / b := by ring
      rw [this, lt_div_iff₀ hb]
      nlinarith

/-- The function `isqrt` is the integer square root. -/
theorem isqrt_spec (n : Nat) :
    isqrt n * isqrt n ≤ n ∧ n < (isqrt n + 1) * (isqrt n + 1) := by
  apply isqrt_bits_spec n _ 0 (Nat.zero_le _)
  rw [Nat.zero_add, ← pow_add]
  have h := bit_length_fuel_upper n n le_rfl
  have hle : bit_length n ≤ bit_length n / 2 + 1 + (bit_length n / 2 + 1) := by omega
  exact lt_of_lt_of_le h (Nat.pow_le_pow_right (by decide) hle)

/-- For `q ≠ 0` the value `round_f32 q` is an integer multiple of the unit in
the last place with at most 24 significant bits. -/
theorem round_f32_significand (q : ℚ) (hq : q ≠ 0) :
    round_f32 q =
        (round_half_even (q / pow2 (max (floor_log2 q) (-126) - 23)) : ℚ) *
          pow2 (max (floor_log2 q) (-126) - 23) ∧
      |(round_half_even (q / pow2 (max (floor_log2 q) (-126) - 23)) : ℚ)| ≤ 2 ^ 24 := by
  refine ⟨by unfold round_f32; rw [if_neg hq], ?_⟩
  have hu := pow2_pos (max (floor_log2 q) (-126) - 23)
  have hspec := (floor_log2_spec q hq).2
  have hmono : pow2 (floor_log2 q + 1) ≤ pow2 (max (floor_log2 q) (-126) + 1) := by
    rw [pow2_eq_zpow, pow2_eq_zpow]
    apply zpow_le_zpow_right₀ (by norm_num)
    have := le_max_left (floor_log2 q) (-126)
    omega
  have h24 : pow2 (max (floor_log2 q) (-126) + 1) =
      2 ^ 24 * pow2 (max (floor_log2 q) (-126) - 23) := by
    rw [pow2_eq_zpow, pow2_eq_zpow]
    have e : max (floor_log2 q) (-126) + 1 = 24 + (max (floor_log2 q) (-126) - 23) := by ring
    rw [e, zpow_add₀ (by norm_num)]
    norm_num
  generalize pow2 (max (floor_log2 q) (-126) - 23) = ulp at hu h24
  have hx : |q / ulp| < 2 ^ 24 := by
    rw [abs_div, abs_of_pos hu, div_lt_iff₀ hu]
    linarith
  have hr := round_half_even_spec (q / ulp)
  generalize q / ulp = x at hx hr
  -- an integer within 1/2 of x, |x| < 2^24
  rw [abs_le] at hr ⊢
  rw [abs_lt] at hx
  have h1 : (round_half_even x : ℚ) < 2 ^ 24 + 1 := by linarith
  have h2 : -(2 ^ 24 + 1 : ℚ) < (round_half_even x : ℚ) := by linarith
  have h1i : round_half_even x < 2 ^ 24 + 1 := by exact_mod_cast h1
  have h2i : -(2 ^ 24 + 1 : Int) < round_half_even x := by exact_mod_cast h2
  constructor
  · have : -(2 ^ 24 : Int) ≤ round_half_even x := by omega
    exact_mod_cast this
  · have : round_half_even x ≤ (2 ^ 24 : Int) := by omega
    exact_mod_cast this

theorem sqrt_bounds_scale (z s u : ℚ) (hu : 0 < u) (h1 : z ≤ (s + 1 / 2) ^ 2)
    (h2 : 1 / 2 ≤ s → (s - 1 / 2) ^ 2 ≤ z) :
    z * (u * u) ≤ (s * u + u / 2) ^ 2 ∧
      (u / 2 ≤ s * u → (s * u - u / 2) ^ 2 ≤ z * (u * u)) := by
  have huu : 0 ≤ u * u := (mul_pos hu hu).le
  constructor
  · have e : (s * u + u / 2) ^ 2 = (s + 1 / 2) ^ 2 * (u * u) := by ring
    rw [e]
    exact mul_le_mul_of_nonneg_right h1 huu
  · intro hle
    have hs : 1 / 2 ≤ s := by
      by_contra hc
      push_neg at hc
      have : s * u < 1 / 2 * u := mul_lt_mul_of_pos_right hc hu
      linarith
    have e : (s * u - u / 2) ^ 2 = (s - 1 / 2) ^ 2 * (u * u) := by ring
    rw [e]
    exact mul_le_mul_of_nonneg_right (h2 hs) huu

/-- For `q > 0` the value `sqrtf_f32 q` lies within half a unit in the last
place of the square root of `q`: with `u` the unit, `q ≤ (sqrtf_f32 q + u / 2) ^ 2`,
and `(sqrtf_f32 q - u / 2) ^ 2 ≤ q` when `sqrtf_f32 q ≥ u / 2`. -/
theorem sqrtf_f32_near (q : ℚ) (hq : 0 < q) :
    q ≤ (sqrtf_f32 q + pow2 (max (floor_log2 q / 2) (-126) - 23) / 2) ^ 2 ∧
    (pow2 (max (floor_log2 q / 2) (-126) - 23) / 2 ≤ sqrtf_f32 q →
      (sqrtf_f32 q - pow2 (max (floor_log2 q / 2) (-126) - 23) / 2) ^ 2 ≤ q) := by
  have hu := pow2_pos (max (floor_log2 q / 2) (-126) - 23)
  unfold sqrtf_f32
  rw [if_neg (not_le.mpr hq)]
  simp only
  generalize pow2 (max (floor_log2 q / 2) (-126) - 23) = u at hu
  have hz : 0 < q / (u * u) := by positivity
  have hqz : q = q / (u * u) * (u * u) := by field_simp
  generalize q / (u * u) = z at hz hqz
  have hf1 := rat_floor_le z
  have hf2 := rat_lt_floor_add_one z
  have hf0 : 0 ≤ Rat.floor z := by
    by_contra hc
    push_neg at hc
    have : (Rat.floor z : ℚ) + 1 ≤ 0 := by exact_mod_cast hc
    linarith
  obtain ⟨n, hn⟩ := Int.eq_ofNat_of_zero_le hf0
  rw [hn] at hf1 hf2 ⊢
  simp only [Int.toNat_ofNat]
  obtain ⟨hk1, hk2⟩ := isqrt_spec n
  have hk1q : (isqrt n : ℚ) * isqrt n ≤ n := by exact_mod_cast hk1
  have hk2q : (n : ℚ) + 1 ≤ ((isqrt n : ℚ) + 1) * ((isqrt n : ℚ) + 1) := by
    exact_mod_cast hk2
  simp only [Int.cast_natCast] at hf1 hf2
  generalize (isqrt n : Nat) = k at hk1q hk2q
  have hk0 : (0 : ℚ) ≤ k := Nat.cast_nonneg k
  rw [hqz]
  split_ifs with h1 h2 h3
  · apply sqrt_bounds_scale z k u hu
    · have e : ((k : ℚ) + 1 / 2) ^ 2 = ((k : ℚ) + 1 / 2) * ((k : ℚ) + 1 / 2) := by ring
      rw [e]
      exact h1.le
    · intro hk
      have e : ((k : ℚ) - 1 / 2) ^ 2 = (k : ℚ) * k - k + 1 / 4 := by ring
      rw [e]
      linarith
  · push_cast
    apply sqrt_bounds_scale z ((k : ℚ) + 1) u hu
    · have e : ((k : ℚ) + 1 + 1 / 2) ^ 2 =
          ((k : ℚ) + 1) * ((k : ℚ) + 1) + (k + 1) + 1 / 4 := by ring
      rw [e]
      linarith
    · intro _
      have e : ((k : ℚ) + 1 - 1 / 2) ^ 2 = ((k : ℚ) + 1 / 2) * ((k : ℚ) + 1 / 2) := by ring
      rw [e]
      exact h2.le
  · have hmid : z = ((k : ℚ) + 1 / 2) * ((k : ℚ) + 1 / 2) :=
      le_antisymm (not_lt.mp h2) (not_lt.mp h1)
    apply sqrt_bounds_scale z k u hu
    · rw [hmid]
      exact le_of_eq (by ring)
    · intro _
      rw [hmid]
      have e : ((k : ℚ) + 1 / 2) * ((k : ℚ) + 1 / 2) = ((k : ℚ) - 1 / 2) ^ 2 + 2 * k := by
        ring
      rw [e]
      linarith
  · have hmid : z = ((k : ℚ) + 1 / 2) * ((k : ℚ) + 1 / 2) :=
      le_antisymm (not_lt.mp h2) (not_lt.mp h1)
    push_cast
    apply sqrt_bounds_scale z ((k : ℚ) + 1) u hu
    · rw [hmid]
      have e : ((k : ℚ) + 1 + 1 / 2) ^ 2 =
          ((k : ℚ) + 1 / 2) * ((k : ℚ) + 1 / 2) + 2 * k + 2 := by ring
      rw [e]
      linarith
    · intro _
      rw [hmid]
      exact le_of_eq (by ring)

/-! ### With the identity as rounding the rounded code is the exact code -/

theorem vec_add_fl_id (a b : Vec3f F) : vec_add_fl id a b = vec_add a b := rfl

theorem vec_sub_fl_id (a b : Vec3f F) : vec_sub_fl id a b = vec_sub a b := rfl

theorem vec_mul_scalar_fl_id (a : Vec3f F) (s : F) :
    vec_mul_scalar_fl id a s = vec_mul_scalar a s := rfl

theorem vec_mul_fl_id (a b : Vec3f F) : vec_mul_fl id a b = vec_mul a b := rfl

theorem vec_dot_fl_id (a b : Vec3f F) : vec_dot_fl id a b = vec_dot a b := rfl

theorem mixf_fl_id (a b mix : F) : mixf_fl id a b mix = mixf a b mix := rfl

theorem bias_fl_id : bias_fl id = (bias : F) := rfl

theorem sphere_intersect_fl_id (m : Libm F) (s : Sphere F) (rayorig raydir : Vec3f F) :
    sphere_intersect_fl id m.sqrtf s rayorig raydir = sphere_intersect m s rayorig raydir :=
  rfl

theorem vec_normalize_fl_id (m : Libm F) (a : Vec3f F) :
    vec_normalize_fl id m.sqrtf a = vec_normalize m a :=
  rfl

theorem nearest_hit_fl_id (m : Libm F) (rayorig raydir : Vec3f F) (spheres : List (Sphere F)) :
    nearest_hit_fl id m.sqrtf rayorig raydir spheres = nearest_hit m rayorig raydir spheres := by
  have hstep : nearest_step_fl id m.sqrtf rayorig raydir = nearest_step m rayorig raydir := by
    funext acc s
    rfl
  simp only [nearest_hit_fl, nearest_hit, hstep]

theorem shadow_loop_fl_id (m : Libm F) (i : Nat) (orig lightDirection : Vec3f F) (j : Nat)
    (rest : List (Sphere F)) (transmission : Vec3f F) :
    shadow_loop_fl id m.sqrtf i orig lightDirection j rest transmission =
      shadow_loop m i orig lightDirection j rest transmission := by
  induction rest generalizing j with
  | nil => rfl
  | cons sj rest ih =>
    simp only [shadow_loop_fl, shadow_loop, sphere_intersect_fl_id, ih]

theorem light_step_fl_id (m : Libm F) (spheres : List (Sphere F)) (sphere : Sphere F)
    (phit nhit : Vec3f F) (i : Nat) (si : Sphere F) (surfaceColor : Vec3f F) :
    light_step_fl id m.sqrtf spheres sphere phit nhit i si surfaceColor =
      light_step m spheres sphere phit nhit i si surfaceColor := by
  simp only [light_step_fl, light_step, shadow_loop_fl_id]
  rfl

theorem light_loop_fl_id (m : Libm F) (spheres : List (Sphere F)) (sphere : Sphere F)
    (phit nhit : Vec3f F) (i : Nat) (rest : List (Sphere F)) (surfaceColor : Vec3f F) :
    light_loop_fl id m.sqrtf spheres sphere phit nhit i rest surfaceColor =
      light_loop m spheres sphere phit nhit i rest surfaceColor := by
  induction rest generalizing i surfaceColor with
  | nil => rfl
  | cons si rest ih =>
    simp only [light_loop_fl, light_loop, light_step_fl_id, ih]

theorem trace_fl_id_step (m : Libm F) (spheres : List (Sphere F)) (depth : Int)
    (ih : depth < MAX_RAY_DEPTH → ∀ (rayorig raydir : Vec3f F),
      trace_fl id m rayorig raydir spheres (depth + 1) =
        trace m rayorig raydir spheres (depth + 1))
    (rayorig raydir : Vec3f F) :
    trace_fl id m rayorig raydir spheres depth = trace m rayorig raydir spheres depth := by
  rw [trace_fl, trace, nearest_hit_fl_id]
  cases nearest_hit m rayorig raydir spheres with
  | none => rfl
  | some p =>
    obtain ⟨t, s⟩ := p
    by_cases hb : (s.transparency > 0 ∨ s.reflection > 0) ∧ depth < MAX_RAY_DEPTH
    · simp only [dif_pos hb, ih hb.2, vec_add_fl_id, vec_sub_fl_id, vec_mul_scalar_fl_id,
        vec_mul_fl_id, vec_dot_fl_id, vec_normalize_fl_id, mixf_fl_id, bias_fl_id, id_eq]
    · simp only [dif_neg hb, light_loop_fl_id, vec_add_fl_id, vec_sub_fl_id,
        vec_mul_scalar_fl_id, vec_dot_fl_id, vec_normalize_fl_id, id_eq]

/-- With the identity as rounding, `trace_fl` is `trace`. -/
theorem trace_fl_id (m : Libm F) (rayorig raydir : Vec3f F) (spheres : List (Sphere F))
    (depth : Int) :
    trace_fl id m rayorig raydir spheres depth = trace m rayorig raydir spheres depth := by
  have h : ∀ (n : Nat) (depth : Int), (MAX_RAY_DEPTH - depth).toNat ≤ n →
      ∀ (rayorig raydir : Vec3f F),
        trace_fl id m rayorig raydir spheres depth = trace m rayorig raydir spheres depth := by
    intro n
    induction n with
    | zero =>
      intro depth hn rayorig raydir
      apply trace_fl_id_step m spheres depth
      intro hlt
      simp only [MAX_RAY_DEPTH] at hn hlt
      omega
    | succ n ih =>
      intro depth hn rayorig raydir
      apply trace_fl_id_step m spheres depth
      intro hlt
      apply ih
      simp only [MAX_RAY_DEPTH] at hn hlt ⊢
      omega
  exact h _ depth le_rfl rayorig raydir

/-- With the identity as rounding, `setup_scene_fl` is `setup_scene`. -/
theorem setup_scene_fl_id : setup_scene_fl id = (setup_scene : List (Sphere F)) :=
  rfl

/-- The rounding on known bit patterns: `0.1f = 0x3DCCCCCD`, `1e-4f = 0x38D1B717`; a
representable value is kept; a value halfway between two neighbours goes to
the one with the even significand, also among the subnormal values. -/
theorem round_f32_examples :
    round_f32 0.1 = 13421773 / 2 ^ 27 ∧
    bias_fl round_f32 = 13743895 / 2 ^ 37 ∧
    round_f32 (13421773 / 2 ^ 27) = 13421773 / 2 ^ 27 ∧
    round_f32 (-(13421773 / 2 ^ 27)) = -(13421773 / 2 ^ 27) ∧
    round_f32 (1 + 1 / 2 ^ 24) = 1 ∧
    round_f32 (1 + 3 / 2 ^ 24) = 1 + 1 / 2 ^ 22 ∧
    round_f32 16777217 = 16777216 ∧
    round_f32 16777219 = 16777220 ∧
    round_f32 (1 / 2 ^ 150) = 0 ∧
    round_f32 (3 / 2 ^ 150) = 1 / 2 ^ 148 := by
  decide!

/-- The square root on known bit patterns: `sqrtf(2.0f) = 0x3FB504F3`. -/
theorem sqrtf_f32_examples :
    sqrtf_f32 2 = 11863283 / 2 ^ 23 ∧ sqrtf_f32 4 = 2 ∧ sqrtf_f32 (1 / 4) = 1 / 2 ∧
    sqrtf_f32 1000000 = 1000 := by
  decide!

/-- The value of `trace` with rounded operations when the test of the
reflection/refraction branch fails. -/
theorem trace_fl_of_diffuse (fl : F → F) (m : Libm F) (rayorig raydir : Vec3f F)
    (spheres : List (Sphere F)) (depth : Int) (tnear : F) (sphere : Sphere F)
    (hhit : nearest_hit_fl fl m.sqrtf rayorig raydir spheres = some (tnear, sphere))
    (hbranch : ¬ ((sphere.transparency > 0 ∨ sphere.reflection > 0) ∧ depth < MAX_RAY_DEPTH)) :
    trace_fl fl m rayorig raydir spheres depth =
      diffuse_shade_fl fl m.sqrtf rayorig raydir spheres tnear sphere := by
  rw [trace_fl, hhit]
  simp only [dif_neg hbranch, decide_eq_true_eq, diffuse_shade_fl, hit_point_fl,
    hit_normal_fl]

end Lemmas

/-! ## Claims -/

section Claims

variable {F : Type} [LinearOrderedField F]

/-- C1: a ray that `sphere_intersect` reports as missing every sphere of the
scene (the empty scene included) makes `trace` return exactly the background
colour `(0.5, 0.7, 0.9)`, whatever the depth argument is. -/
theorem trace_miss_returns_background (m : Libm F) (rayorig raydir : Vec3f F)
    (spheres : List (Sphere F)) (depth : Int)
    (hmiss : ∀ s ∈ spheres, sphere_intersect m s rayorig raydir = none) :
    trace m rayorig raydir spheres depth = ⟨0.5, 0.7, 0.9⟩ :=
  trace_of_no_hit m rayorig raydir spheres depth
    (foldl_nearest_step_of_miss m rayorig raydir spheres none hmiss)

/-- C1, at a concrete input: from the start position `(0, 2, 5)` the ray along
`(0, 0, 1)` misses the six spheres of `setup_scene`, and `trace` returns the
background colour. -/
theorem trace_miss_returns_background_witness :
    (∀ s ∈ (setup_scene : List (Sphere ℝ)),
        sphere_intersect ⟨Real.sqrt, Real.sin, Real.cos, Real.tan, fun x y => x ^ y⟩ s
          ⟨0, 2, 5⟩ ⟨0, 0, 1⟩ = none) ∧
      trace ⟨Real.sqrt, Real.sin, Real.cos, Real.tan, fun x y => x ^ y⟩
        ⟨0, 2, 5⟩ ⟨0, 0, 1⟩ (setup_scene : List (Sphere ℝ)) 0 = ⟨0.5, 0.7, 0.9⟩ :=
  have h : ∀ s ∈ (setup_scene : List (Sphere ℝ)),
        sphere_intersect ⟨Real.sqrt, Real.sin, Real.cos, Real.tan, fun x y => x ^ y⟩ s
          ⟨0, 2, 5⟩ ⟨0, 0, 1⟩ = none := by
    intro s hs
    simp only [setup_scene, List.mem_cons, List.mem_singleton, List.not_mem_nil, or_false] at hs
    rcases hs with rfl | rfl | rfl | rfl | rfl | rfl <;>
      simp [sphere_intersect, vec_sub, vec_dot] <;> norm_num
  ⟨h, trace_miss_returns_background _ _ _ _ 0 h⟩

/-- C2: at `depth = MAX_RAY_DEPTH` the result of `trace` is given without any
recursive call, whatever the hit sphere's `reflection` and `transparency` are:
it is the background colour on a miss and otherwise the light loop of the
diffuse branch plus the hit sphere's `emissionColor`.  It is the value `trace`
returns, at any depth, on every scene that differs from this one in
`reflection` and `transparency` values only and whose hit sphere has both `0`. -/
theorem trace_at_max_depth_is_diffuse (m : Libm F) (rayorig raydir : Vec3f F)
    (spheres : List (Sphere F)) :
    trace m rayorig raydir spheres MAX_RAY_DEPTH =
        (match nearest_hit m rayorig raydir spheres with
          | none => ⟨0.5, 0.7, 0.9⟩
          | some (tnear, sphere) =>
            vec_add
              (light_loop m spheres sphere (hit_point rayorig raydir tnear)
                (hit_normal m raydir (hit_point rayorig raydir tnear) sphere)
                0 spheres ⟨0, 0, 0⟩)
              sphere.emissionColor)
      ∧ ∀ (spheres' : List (Sphere F)) (depth' : Int),
          spheres'.map Sphere.matte = spheres.map Sphere.matte →
          (∀ t s', nearest_hit m rayorig raydir spheres' = some (t, s') →
            s'.reflection = 0 ∧ s'.transparency = 0) →
          trace m rayorig raydir spheres' depth' =
            trace m rayorig raydir spheres MAX_RAY_DEPTH := by
  have hmax : ∀ (l : List (Sphere F)) (t : F) (s : Sphere F),
      nearest_hit m rayorig raydir l = some (t, s) →
      trace m rayorig raydir l MAX_RAY_DEPTH = diffuse_shade m rayorig raydir l t s :=
    fun l t s hl => trace_of_diffuse m rayorig raydir l MAX_RAY_DEPTH t s hl
      (fun hc => lt_irrefl _ hc.2)
  refine ⟨?_, ?_⟩
  · cases hhit : nearest_hit m rayorig raydir spheres with
    | none => exact trace_of_no_hit m rayorig raydir spheres MAX_RAY_DEPTH hhit
    | some p =>
      obtain ⟨tnear, sphere⟩ := p
      rw [hmax spheres tnear sphere hhit]
      rfl
  · intro spheres' depth' hsame hmatte
    have hcongr := nearest_hit_congr_matte m rayorig raydir spheres spheres' hsame
    cases hhit' : nearest_hit m rayorig raydir spheres' with
    | none =>
      cases hhit : nearest_hit m rayorig raydir spheres with
      | none =>
        rw [trace_of_no_hit m rayorig raydir spheres' depth' hhit',
          trace_of_no_hit m rayorig raydir spheres MAX_RAY_DEPTH hhit]
      | some p => rw [hhit', hhit] at hcongr; simp at hcongr
    | some p' =>
      obtain ⟨t', s'⟩ := p'
      cases hhit : nearest_hit m rayorig raydir spheres with
      | none => rw [hhit', hhit] at hcongr; simp at hcongr
      | some p =>
        obtain ⟨t, s⟩ := p
        rw [hhit', hhit] at hcongr
        simp only [Option.map_some', Prod.map_apply, id_eq, Option.some.injEq,
          Prod.mk.injEq] at hcongr
        obtain ⟨ht, hs⟩ := hcongr
        obtain ⟨hr0, ht0⟩ := hmatte t' s' hhit'
        have hbranch : ¬ ((s'.transparency > 0 ∨ s'.reflection > 0) ∧ depth' < MAX_RAY_DEPTH) := by
          rw [hr0, ht0]
          intro hc
          rcases hc.1 with h | h <;> exact lt_irrefl _ h
        rw [trace_of_diffuse m rayorig raydir spheres' depth' t' s' hhit' hbranch,
          hmax spheres t s hhit,
          ← diffuse_shade_matte m rayorig raydir spheres' t' s',
          ← diffuse_shade_matte m rayorig raydir spheres t s, hsame, ht, hs]

/-- C2, at a concrete input: on `setup_scene`, whose first sphere has
`reflection = 0.5`, the ray from `(0, 0, 5)` along `(0, 0, -1)` traced at depth
`MAX_RAY_DEPTH` gives the value that the scene with every `reflection` and
`transparency` set to `0` gives at depth `0`. -/
theorem trace_at_max_depth_is_diffuse_witness :
    trace ⟨Real.sqrt, Real.sin, Real.cos, Real.tan, fun x y => x ^ y⟩ ⟨0, 0, 5⟩ ⟨0, 0, -1⟩
        ((setup_scene : List (Sphere ℝ)).map Sphere.matte) 0 =
      trace ⟨Real.sqrt, Real.sin, Real.cos, Real.tan, fun x y => x ^ y⟩ ⟨0, 0, 5⟩ ⟨0, 0, -1⟩
        (setup_scene : List (Sphere ℝ)) MAX_RAY_DEPTH :=
  (trace_at_max_depth_is_diffuse _ _ _ _).2 _ 0 (by simp [Sphere.matte])
    (fun t s' h => by
      have hmem := nearest_hit_mem _ _ _ _ t s' h
      rw [List.mem_map] at hmem
      obtain ⟨s, _, rfl⟩ := hmem
      exact ⟨rfl, rfl⟩)

/-- C4: after `camera_rotate` the pitch lies in the closed interval
`[-limit, limit]` with `limit = M_PI / 2 - 0.01`; when `pitch + dpitch` already
lies in it the new pitch is `pitch + dpitch`; the new yaw is `yaw + dyaw`. -/
theorem camera_rotate_clamps_pitch (m : Libm F) (cam : Camera F) (dpitch dyaw : F) :
    (pitch_limit : F) = M_PI / 2 - 0.01 ∧
    -pitch_limit ≤ (camera_rotate m cam dpitch dyaw).pitch ∧
    (camera_rotate m cam dpitch dyaw).pitch ≤ pitch_limit ∧
    (-pitch_limit ≤ cam.pitch + dpitch ∧ cam.pitch + dpitch ≤ pitch_limit →
      (camera_rotate m cam dpitch dyaw).pitch = cam.pitch + dpitch) ∧
    (camera_rotate m cam dpitch dyaw).yaw = cam.yaw + dyaw :=
  ⟨rfl, (camera_rotate_pitch_mem m cam dpitch dyaw).1,
    (camera_rotate_pitch_mem m cam dpitch dyaw).2,
    fun h => camera_rotate_pitch_of_mem m cam dpitch dyaw h.1 h.2, rfl⟩

/-- C5 as stated fails: one `camera_rotate` call with `dpitch = 2` on the
initialized camera leaves the pitch equal to `limit`, which is not strictly
below `limit`. -/
theorem camera_pitch_not_in_open_interval :
    (camera_run ⟨Real.sqrt, Real.sin, Real.cos, Real.tan, fun x y => x ^ y⟩ ⟨0, 2, 5⟩
        [CameraCall.rotate (2 : ℝ) 0]).pitch = pitch_limit ∧
    ¬ (-(pitch_limit : ℝ) <
          (camera_run ⟨Real.sqrt, Real.sin, Real.cos, Real.tan, fun x y => x ^ y⟩ ⟨0, 2, 5⟩
            [CameraCall.rotate 2 0]).pitch ∧
        (camera_run ⟨Real.sqrt, Real.sin, Real.cos, Real.tan, fun x y => x ^ y⟩ ⟨0, 2, 5⟩
            [CameraCall.rotate 2 0]).pitch < pitch_limit) := by
  have hp : (camera_run ⟨Real.sqrt, Real.sin, Real.cos, Real.tan, fun x y => x ^ y⟩ ⟨0, 2, 5⟩
      [CameraCall.rotate (2 : ℝ) 0]).pitch = pitch_limit := by
    simp only [camera_run, List.foldl_cons, List.foldl_nil, camera_call, camera_rotate_pitch,
      camera_init, pitch_limit, M_PI]
    norm_num
  refine ⟨hp, ?_⟩
  rw [hp]
  exact fun h => lt_irrefl _ h.2

/-- C5, amended: after `camera_init` and any sequence of `camera_rotate` calls
(`camera_move` calls may be interleaved) the pitch lies in the closed interval
`[-limit, limit]`, `limit = M_PI / 2 - 0.01`, and both ends are reached. -/
theorem camera_pitch_in_closed_interval (m : Libm F) (pos : Vec3f F)
    (calls : List (CameraCall F)) :
    (-pitch_limit ≤ (camera_run m pos calls).pitch ∧
      (camera_run m pos calls).pitch ≤ pitch_limit) ∧
    (camera_run m pos (calls ++ [CameraCall.rotate 4 0])).pitch = pitch_limit ∧
    (camera_run m pos (calls ++ [CameraCall.rotate (-4) 0])).pitch = -pitch_limit := by
  have hinv := (camera_run_invariant m calls (camera_init pos)
    (neg_nonpos.mpr pitch_limit_pos.le) pitch_limit_pos.le).1
  have hpos : (0 : F) < pitch_limit := pitch_limit_pos
  have hlt : (pitch_limit : F) < 2 := by
    unfold pitch_limit M_PI; norm_num
  refine ⟨hinv, ?_, ?_⟩
  · simp only [camera_run, List.foldl_append, List.foldl_cons, List.foldl_nil, camera_call,
      camera_rotate_pitch]
    have h1 : (calls.foldl (camera_call m) (camera_init pos)).pitch + 4 > pitch_limit := by
      have := hinv.1
      simp only [camera_run] at this
      linarith
    rw [if_pos h1, if_neg (by linarith)]
  · simp only [camera_run, List.foldl_append, List.foldl_cons, List.foldl_nil, camera_call,
      camera_rotate_pitch]
    have h1 : ¬ (calls.foldl (camera_call m) (camera_init pos)).pitch + -4 > pitch_limit := by
      have := hinv.2
      simp only [camera_run] at this
      intro hc
      linarith
    have h2 : (calls.foldl (camera_call m) (camera_init pos)).pitch + -4 < -pitch_limit := by
      have := hinv.2
      simp only [camera_run] at this
      linarith
    rw [if_neg h1, if_pos h2]

/-- C6: with an exact math library, on every camera reached from `camera_init`
by `camera_rotate` and `camera_move` calls (the freshly initialized camera
included), `camera_rotate(0, 0)` changes nothing: `forward`, `right`, `up`,
`pitch`, `yaw` and `pos` are all kept. -/
theorem camera_rotate_zero_fixed (m : Libm F) (hm : m.Exact) (pos : Vec3f F)
    (calls : List (CameraCall F)) :
    camera_rotate m (camera_run m pos calls) 0 0 = camera_run m pos calls := by
  have hinv := camera_run_invariant m calls (camera_init pos)
    (neg_nonpos.mpr pitch_limit_pos.le) pitch_limit_pos.le
  obtain ⟨⟨hlo, hhi⟩, hrest⟩ := hinv
  have hupd := (hrest hm (camera_init_update hm pos) (camera_init_orthonormal hm pos)).1
  unfold camera_run
  generalize calls.foldl (camera_call m) (camera_init pos) = cam at hlo hhi hupd
  unfold camera_rotate
  simp only [add_zero]
  rw [if_neg (not_lt.mpr hhi), if_neg (not_lt.mpr hlo)]
  exact hupd

/-- C6, at concrete inputs: over the reals with the real `sqrt`, `sin`, `cos`,
`camera_rotate(0, 0)` fixes the camera reached by a rotation, a move and a
second rotation from the start position `(0, 2, 5)`. -/
theorem camera_rotate_zero_fixed_witness :
    Libm.Exact (⟨Real.sqrt, Real.sin, Real.cos, Real.tan, fun x y => x ^ y⟩ : Libm ℝ) ∧
      camera_rotate ⟨Real.sqrt, Real.sin, Real.cos, Real.tan, fun x y => x ^ y⟩
        (camera_run ⟨Real.sqrt, Real.sin, Real.cos, Real.tan, fun x y => x ^ y⟩ ⟨0, 2, 5⟩
          [CameraCall.rotate 0.05 0, CameraCall.move ⟨0, 0, -1⟩ 0.1,
            CameraCall.rotate 0 0.05]) 0 0 =
        camera_run ⟨Real.sqrt, Real.sin, Real.cos, Real.tan, fun x y => x ^ y⟩ ⟨0, 2, 5⟩
          [CameraCall.rotate 0.05 0, CameraCall.move ⟨0, 0, -1⟩ 0.1,
            CameraCall.rotate 0 0.05] :=
  ⟨real_libm_exact, camera_rotate_zero_fixed _ real_libm_exact _ _⟩

/-- C7: in the diffuse branch of `trace` (the nearest hit sphere fails the test
`(transparency > 0 || reflection > 0) && depth < MAX_RAY_DEPTH`, as it does with
`reflection = 0` and `transparency = 0`, or with `depth >= 5`), the returned
colour is the sum over all spheres `i` of the scene, in scene order, of the
contribution of sphere `i`, plus the emission of the hit sphere; and the
contribution of sphere `i` is: the zero vector when sphere `i` is not emissive;
for an emissive sphere `i`, exactly the zero vector when the shadow ray from
`phit + nhit * bias` toward the centre of sphere `i` is reported hit by
`sphere_intersect` against some sphere `j != i`; exactly
`surfaceColor * emissionColor_i * dot(nhit, lightDir)`, componentwise, when no
such sphere is hit and `dot(nhit, lightDir) > 0`; the zero vector when no such
sphere is hit and `dot(nhit, lightDir) <= 0`. -/
theorem trace_diffuse_light_contributions (m : Libm F) (rayorig raydir : Vec3f F)
    (spheres : List (Sphere F)) (depth : Int) (tnear : F) (sphere : Sphere F)
    (hhit : nearest_hit m rayorig raydir spheres = some (tnear, sphere))
    (hbranch : ¬ ((sphere.transparency > 0 ∨ sphere.reflection > 0) ∧ depth < MAX_RAY_DEPTH)) :
    trace m rayorig raydir spheres depth =
      vec_add
        (vec_sum (light_contributions m spheres sphere (hit_point rayorig raydir tnear)
          (hit_normal m raydir (hit_point rayorig raydir tnear) sphere)))
        sphere.emissionColor ∧
    (light_contributions m spheres sphere (hit_point rayorig raydir tnear)
      (hit_normal m raydir (hit_point rayorig raydir tnear) sphere)).length = spheres.length ∧
    ∀ (i : Nat) (si : Sphere F), spheres[i]? = some si →
      (light_contributions m spheres sphere (hit_point rayorig raydir tnear)
          (hit_normal m raydir (hit_point rayorig raydir tnear) sphere))[i]? =
        some (light_contribution m spheres sphere (hit_point rayorig raydir tnear)
          (hit_normal m raydir (hit_point rayorig raydir tnear) sphere) i si) ∧
      (¬ (si.emissionColor.x > 0 ∨ si.emissionColor.y > 0 ∨ si.emissionColor.z > 0) →
        light_contribution m spheres sphere (hit_point rayorig raydir tnear)
          (hit_normal m raydir (hit_point rayorig raydir tnear) sphere) i si = ⟨0, 0, 0⟩) ∧
      ((si.emissionColor.x > 0 ∨ si.emissionColor.y > 0 ∨ si.emissionColor.z > 0) →
        ((∃ j sj, spheres[j]? = some sj ∧ j ≠ i ∧
            (sphere_intersect m sj
              (vec_add (hit_point rayorig raydir tnear)
                (vec_mul_scalar (hit_normal m raydir (hit_point rayorig raydir tnear) sphere)
                  bias))
              (vec_normalize m (vec_sub si.center (hit_point rayorig raydir tnear)))).isSome) →
          light_contribution m spheres sphere (hit_point rayorig raydir tnear)
            (hit_normal m raydir (hit_point rayorig raydir tnear) sphere) i si = ⟨0, 0, 0⟩) ∧
        ((¬ ∃ j sj, spheres[j]? = some sj ∧ j ≠ i ∧
            (sphere_intersect m sj
              (vec_add (hit_point rayorig raydir tnear)
                (vec_mul_scalar (hit_normal m raydir (hit_point rayorig raydir tnear) sphere)
                  bias))
              (vec_normalize m (vec_sub si.center (hit_point rayorig raydir tnear)))).isSome) →
          (vec_dot (hit_normal m raydir (hit_point rayorig raydir tnear) sphere)
              (vec_normalize m (vec_sub si.center (hit_point rayorig raydir tnear))) > 0 →
            light_contribution m spheres sphere (hit_point rayorig raydir tnear)
                (hit_normal m raydir (hit_point rayorig raydir tnear) sphere) i si =
              vec_mul_scalar (vec_mul sphere.surfaceColor si.emissionColor)
                (vec_dot (hit_normal m raydir (hit_point rayorig raydir tnear) sphere)
                  (vec_normalize m (vec_sub si.center (hit_point rayorig raydir tnear))))) ∧
          (¬ vec_dot (hit_normal m raydir (hit_point rayorig raydir tnear) sphere)
              (vec_normalize m (vec_sub si.center (hit_point rayorig raydir tnear))) > 0 →
            light_contribution m spheres sphere (hit_point rayorig raydir tnear)
                (hit_normal m raydir (hit_point rayorig raydir tnear) sphere) i si =
              ⟨0, 0, 0⟩))) := by
  generalize hp : hit_point rayorig raydir tnear = phit
  generalize hn : hit_normal m raydir phit sphere = nhit
  refine ⟨?_, light_contributions_from_length m spheres sphere phit nhit 0 spheres,
    fun i si hsi => ⟨?_, fun hdark => ?_, fun hem => ⟨fun hocc => ?_, fun hfree => ⟨fun hdot => ?_,
      fun hdot => ?_⟩⟩⟩⟩
  · rw [trace_of_diffuse m rayorig raydir spheres depth tnear sphere hhit hbranch]
    simp only [diffuse_shade, hp, hn]
    rw [light_loop_eq_add_sum, vec_add_zero_left]
    rfl
  · have h := light_contributions_from_getElem? m spheres sphere phit nhit 0 spheres i si hsi
    rw [Nat.zero_add] at h
    exact h
  · simp only [light_contribution]
    rw [if_neg (fun hc => hdark hc.1)]
  · have hb := (shadow_blocked_iff m spheres i _ _).mpr hocc
    simp only [light_contribution]
    rw [if_neg (fun hc => by rw [hb] at hc; exact Bool.noConfusion hc.2.1)]
  · have hb : shadow_blocked m spheres i (vec_add phit (vec_mul_scalar nhit bias))
        (vec_normalize m (vec_sub si.center phit)) = false := by
      cases h : shadow_blocked m spheres i (vec_add phit (vec_mul_scalar nhit bias))
        (vec_normalize m (vec_sub si.center phit)) with
      | false => rfl
      | true => exact absurd ((shadow_blocked_iff m spheres i _ _).mp h) hfree
    simp only [light_contribution]
    rw [if_pos ⟨hem, hb, hdot⟩]
  · simp only [light_contribution]
    rw [if_neg (fun hc => hdot hc.2.2)]

/-- C7, at concrete inputs: over the reals, the ray from `(3, 4, 0)` along
`(-0.6, -0.8, 0)` hits the diffuse `test_floor` at the point `(0, 0, 0)` with
normal `(0, 1, 0)`; with `test_occluder` between that point and `test_light`
the light contributes the zero vector and `trace` returns `(0, 0, 0)`; without
it the light contributes `surfaceColor * emissionColor * dot(nhit, lightDir)`
and `trace` returns `(0.8, 1.2, 0.6)`. -/
theorem trace_diffuse_light_contributions_witness :
    nearest_hit ⟨Real.sqrt, Real.sin, Real.cos, Real.tan, fun x y => x ^ y⟩
      ⟨3, 4, 0⟩ ⟨-0.6, -0.8, 0⟩ [(test_floor : Sphere ℝ), test_light, test_occluder] =
        some (5, test_floor) ∧
    nearest_hit ⟨Real.sqrt, Real.sin, Real.cos, Real.tan, fun x y => x ^ y⟩
      ⟨3, 4, 0⟩ ⟨-0.6, -0.8, 0⟩ [(test_floor : Sphere ℝ), test_light] =
        some (5, test_floor) ∧
    ¬ (((test_floor : Sphere ℝ).transparency > 0 ∨ (test_floor : Sphere ℝ).reflection > 0) ∧
        (0 : Int) < MAX_RAY_DEPTH) ∧
    ((test_light : Sphere ℝ).emissionColor.x > 0 ∨ (test_light : Sphere ℝ).emissionColor.y > 0 ∨
        (test_light : Sphere ℝ).emissionColor.z > 0) ∧
    hit_point (⟨3, 4, 0⟩ : Vec3f ℝ) ⟨-0.6, -0.8, 0⟩ 5 = ⟨0, 0, 0⟩ ∧
    hit_normal ⟨Real.sqrt, Real.sin, Real.cos, Real.tan, fun x y => x ^ y⟩
      ⟨-0.6, -0.8, 0⟩ ⟨0, 0, 0⟩ (test_floor : Sphere ℝ) = ⟨0, 1, 0⟩ ∧
    light_contributions ⟨Real.sqrt, Real.sin, Real.cos, Real.tan, fun x y => x ^ y⟩
      [(test_floor : Sphere ℝ), test_light, test_occluder] test_floor ⟨0, 0, 0⟩ ⟨0, 1, 0⟩ =
        [⟨0, 0, 0⟩, ⟨0, 0, 0⟩, ⟨0, 0, 0⟩] ∧
    trace ⟨Real.sqrt, Real.sin, Real.cos, Real.tan, fun x y => x ^ y⟩
      ⟨3, 4, 0⟩ ⟨-0.6, -0.8, 0⟩ [(test_floor : Sphere ℝ), test_light, test_occluder] 0 =
        ⟨0, 0, 0⟩ ∧
    light_contributions ⟨Real.sqrt, Real.sin, Real.cos, Real.tan, fun x y => x ^ y⟩
      [(test_floor : Sphere ℝ), test_light] test_floor ⟨0, 0, 0⟩ ⟨0, 1, 0⟩ =
        [⟨0, 0, 0⟩,
          vec_mul_scalar (vec_mul (test_floor : Sphere ℝ).surfaceColor test_light.emissionColor)
            (vec_dot ⟨0, 1, 0⟩
              (vec_normalize ⟨Real.sqrt, Real.sin, Real.cos, Real.tan, fun x y => x ^ y⟩
                (vec_sub test_light.center ⟨0, 0, 0⟩)))] ∧
    trace ⟨Real.sqrt, Real.sin, Real.cos, Real.tan, fun x y => x ^ y⟩
      ⟨3, 4, 0⟩ ⟨-0.6, -0.8, 0⟩ [(test_floor : Sphere ℝ), test_light] 0 =
        ⟨0.8, 1.2, 0.6⟩ := by
  have hm := real_libm_exact
  have hdir := test_light_dir hm
  have hem : (test_light : Sphere ℝ).emissionColor.x > 0 ∨
      (test_light : Sphere ℝ).emissionColor.y > 0 ∨
      (test_light : Sphere ℝ).emissionColor.z > 0 := by
    left
    simp [test_light]
  have hfloor_dark : ¬ ((test_floor : Sphere ℝ).emissionColor.x > 0 ∨
      (test_floor : Sphere ℝ).emissionColor.y > 0 ∨
      (test_floor : Sphere ℝ).emissionColor.z > 0) := by
    simp [test_floor]
  have hocc_dark : ¬ ((test_occluder : Sphere ℝ).emissionColor.x > 0 ∨
      (test_occluder : Sphere ℝ).emissionColor.y > 0 ∨
      (test_occluder : Sphere ℝ).emissionColor.z > 0) := by
    simp [test_occluder]
  have hp : hit_point (⟨3, 4, 0⟩ : Vec3f ℝ) ⟨-0.6, -0.8, 0⟩ 5 = ⟨0, 0, 0⟩ := by
    simp [hit_point, vec_add, vec_mul_scalar]
    norm_num
  have hn : hit_normal ⟨Real.sqrt, Real.sin, Real.cos, Real.tan, fun x y => x ^ y⟩
      ⟨-0.6, -0.8, 0⟩ ⟨0, 0, 0⟩ (test_floor : Sphere ℝ) = ⟨0, 1, 0⟩ :=
    test_floor_normal hm _ (by norm_num)
  have h58 : (5.8 - 0.8 : ℝ) = 5 := by norm_num
  have hhit3 : nearest_hit ⟨Real.sqrt, Real.sin, Real.cos, Real.tan, fun x y => x ^ y⟩
      ⟨3, 4, 0⟩ ⟨-0.6, -0.8, 0⟩ [(test_floor : Sphere ℝ), test_light, test_occluder] =
        some (5, test_floor) := by
    simp only [nearest_hit, List.foldl_cons, List.foldl_nil, nearest_step,
      test_primary_floor hm, test_primary_light, test_primary_occluder, h58]
    rw [if_neg (by norm_num)]
  have hhit2 : nearest_hit ⟨Real.sqrt, Real.sin, Real.cos, Real.tan, fun x y => x ^ y⟩
      ⟨3, 4, 0⟩ ⟨-0.6, -0.8, 0⟩ [(test_floor : Sphere ℝ), test_light] =
        some (5, test_floor) := by
    simp only [nearest_hit, List.foldl_cons, List.foldl_nil, nearest_step,
      test_primary_floor hm, test_primary_light, h58]
    rw [if_neg (by norm_num)]
  have hbranch : ¬ (((test_floor : Sphere ℝ).transparency > 0 ∨
      (test_floor : Sphere ℝ).reflection > 0) ∧ (0 : Int) < MAX_RAY_DEPTH) := by
    intro hc
    rcases hc.1 with h | h <;> simp [test_floor] at h
  have h3 := trace_diffuse_light_contributions _ _ _ _ 0 _ _ hhit3 hbranch
  have h2 := trace_diffuse_light_contributions _ _ _ _ 0 _ _ hhit2 hbranch
  rw [hp, hn] at h3 h2
  obtain ⟨ht3, _, hc3⟩ := h3
  obtain ⟨ht2, _, hc2⟩ := h2
  have c30 := (hc3 0 test_floor rfl).2.1 hfloor_dark
  have c31 := ((hc3 1 test_light rfl).2.2 hem).1
    ⟨2, test_occluder, rfl, by decide, by rw [hdir]; exact test_shadow_occluder _⟩
  have c32 := (hc3 2 test_occluder rfl).2.1 hocc_dark
  have c20 := (hc2 0 test_floor rfl).2.1 hfloor_dark
  have c21 := (((hc2 1 test_light rfl).2.2 hem).2 (by
    rw [hdir]
    rintro ⟨j, sj, hj, hne, hhit⟩
    match j, hj, hne with
    | 0, hj, _ =>
      simp only [List.getElem?_cons_zero, Option.some.injEq] at hj
      subst hj
      rw [test_shadow_floor] at hhit
      cases hhit
    | 1, _, hne => exact hne rfl
    | (k + 2), hj, _ => simp at hj)).1 (by rw [hdir]; simp [vec_dot])
  have l3 : light_contributions ⟨Real.sqrt, Real.sin, Real.cos, Real.tan, fun x y => x ^ y⟩
      [(test_floor : Sphere ℝ), test_light, test_occluder] test_floor ⟨0, 0, 0⟩ ⟨0, 1, 0⟩ =
        [⟨0, 0, 0⟩, ⟨0, 0, 0⟩, ⟨0, 0, 0⟩] := by
    simp only [light_contributions, light_contributions_from, c30, c31, c32]
  have l2 : light_contributions ⟨Real.sqrt, Real.sin, Real.cos, Real.tan, fun x y => x ^ y⟩
      [(test_floor : Sphere ℝ), test_light] test_floor ⟨0, 0, 0⟩ ⟨0, 1, 0⟩ =
        [⟨0, 0, 0⟩,
          vec_mul_scalar (vec_mul (test_floor : Sphere ℝ).surfaceColor test_light.emissionColor)
            (vec_dot ⟨0, 1, 0⟩
              (vec_normalize ⟨Real.sqrt, Real.sin, Real.cos, Real.tan, fun x y => x ^ y⟩
                (vec_sub test_light.center ⟨0, 0, 0⟩)))] := by
    simp only [light_contributions, light_contributions_from, c20, c21]
  refine ⟨hhit3, hhit2, hbranch, hem, hp, hn, l3, ?_, l2, ?_⟩
  · rw [ht3, l3]
    simp [vec_sum, vec_add, test_floor]
  · rw [ht2, l2, hdir]
    simp [vec_sum, vec_add, vec_mul, vec_mul_scalar, vec_dot, test_floor, test_light]
    norm_num

/-- C8: with `L = center - rayorig`, `tca = dot(L, raydir)` and
`d2 = dot(L, L) - tca * tca`, `sphere_intersect` reports a hit if and only if
`tca >= 0` and `d2 <= radius2`; on a hit it returns `t0 = tca - sqrt(radius2 - d2)`
and `t1 = tca + sqrt(radius2 - d2)`; `sqrtf` is called exactly on a hit, once, on
`radius2 - d2`, and every argument it is called on is non-negative. -/
theorem sphere_intersect_spec (m : Libm F) (s : Sphere F) (rayorig raydir : Vec3f F) :
    ((sphere_intersect m s rayorig raydir).isSome ↔
      (sphere_tca s rayorig raydir ≥ 0 ∧ sphere_d2 s rayorig raydir ≤ s.radius2)) ∧
    ((sphere_intersect m s rayorig raydir).isSome →
      sphere_intersect m s rayorig raydir =
        some (sphere_tca s rayorig raydir - m.sqrtf (s.radius2 - sphere_d2 s rayorig raydir),
          sphere_tca s rayorig raydir + m.sqrtf (s.radius2 - sphere_d2 s rayorig raydir))) ∧
    ((sphere_intersect m s rayorig raydir).isSome →
      sphere_intersect_sqrtf_args s rayorig raydir = [s.radius2 - sphere_d2 s rayorig raydir]) ∧
    ((sphere_intersect m s rayorig raydir).isSome = false →
      sphere_intersect_sqrtf_args s rayorig raydir = []) ∧
    (∀ a ∈ sphere_intersect_sqrtf_args s rayorig raydir, 0 ≤ a) := by
  rw [sphere_intersect_eq, sphere_intersect_sqrtf_args_eq]
  generalize sphere_tca s rayorig raydir = tca
  generalize sphere_d2 s rayorig raydir = d2
  by_cases h1 : tca < 0
  · have h1' : ¬ (tca ≥ 0 ∧ d2 ≤ s.radius2) := fun hc => absurd h1 (not_lt.mpr hc.1)
    simp [h1, h1']
  · by_cases h2 : d2 > s.radius2
    · have h2' : ¬ (tca ≥ 0 ∧ d2 ≤ s.radius2) := fun hc => absurd h2 (not_lt.mpr hc.2)
      simp [h1, h2, h2']
    · have h12 : tca ≥ 0 ∧ d2 ≤ s.radius2 := ⟨not_lt.mp h1, not_lt.mp h2⟩
      simp only [if_neg h1, if_neg h2]
      simp [h12.1, h12.2]

/-- C9: with an exact math library, for a sphere centred at `(0, 0, 0)` with
radius `r > 0` and `radius2 = r * r`, the ray from `(0, 0, 5)` along `(0, 0, -1)`
is reported hit with `t0 = 5 - r` and `t1 = 5 + r`. -/
theorem sphere_intersect_on_axis (m : Libm F) (hm : m.Exact) (s : Sphere F)
    (hc : s.center = ⟨0, 0, 0⟩) (hr : 0 < s.radius) (hr2 : s.radius2 = s.radius * s.radius) :
    sphere_intersect m s ⟨0, 0, 5⟩ ⟨0, 0, -1⟩ = some (5 - s.radius, 5 + s.radius) := by
  have htca : sphere_tca s ⟨0, 0, 5⟩ ⟨0, 0, -1⟩ = 5 := by
    simp [sphere_tca, vec_dot, vec_sub, hc]
  have hd2 : sphere_d2 s ⟨0, 0, 5⟩ ⟨0, 0, -1⟩ = 0 := by
    rw [sphere_d2, htca]
    simp [vec_dot, vec_sub, hc]
  have hsq : m.sqrtf (s.radius2 - 0) = s.radius :=
    sqrtf_eq_of_mul_self hm _ _ hr.le (by rw [hr2, sub_zero])
  have hnn : ¬ (0 : F) > s.radius2 := by
    rw [hr2]
    exact not_lt.mpr (mul_self_nonneg _)
  rw [sphere_intersect_eq, htca, hd2, hsq, if_neg (by norm_num), if_neg hnn]

/-- C9, at a concrete input: over the reals with the real `sqrt`, the sphere
`test_ball` of radius `2` gives `t0 = 5 - 2` and `t1 = 5 + 2`. -/
theorem sphere_intersect_on_axis_witness :
    Libm.Exact (⟨Real.sqrt, Real.sin, Real.cos, Real.tan, fun x y => x ^ y⟩ : Libm ℝ) ∧
      (test_ball : Sphere ℝ).center = ⟨0, 0, 0⟩ ∧ 0 < (test_ball : Sphere ℝ).radius ∧
      (test_ball : Sphere ℝ).radius2 = test_ball.radius * test_ball.radius ∧
      sphere_intersect ⟨Real.sqrt, Real.sin, Real.cos, Real.tan, fun x y => x ^ y⟩
        (test_ball : Sphere ℝ) ⟨0, 0, 5⟩ ⟨0, 0, -1⟩ =
          some (5 - (test_ball : Sphere ℝ).radius, 5 + (test_ball : Sphere ℝ).radius) :=
  ⟨real_libm_exact, rfl, by simp [test_ball], rfl,
    sphere_intersect_on_axis _ real_libm_exact test_ball rfl (by simp [test_ball]) rfl⟩

/-- C10: every call of `sphere_intersect` with `tca < 0` is reported as a miss,
whether or not the origin is inside the sphere; and there are a sphere
(`test_ball`), an origin strictly inside it and a unit direction with `tca < 0`
for which the call is a miss although the ray meets the surface at some `t > 0`. -/
theorem sphere_intersect_negative_tca (m : Libm F) :
    (∀ (s : Sphere F) (rayorig raydir : Vec3f F),
      sphere_tca s rayorig raydir < 0 → sphere_intersect m s rayorig raydir = none) ∧
    (∃ (s : Sphere F) (rayorig raydir : Vec3f F),
      vec_dot (vec_sub rayorig s.center) (vec_sub rayorig s.center) < s.radius2 ∧
      vec_dot raydir raydir = 1 ∧
      sphere_tca s rayorig raydir < 0 ∧
      sphere_intersect m s rayorig raydir = none ∧
      ∃ t : F, 0 < t ∧
        vec_dot (vec_sub (hit_point rayorig raydir t) s.center)
          (vec_sub (hit_point rayorig raydir t) s.center) = s.radius2) := by
  have hall : ∀ (s : Sphere F) (rayorig raydir : Vec3f F),
      sphere_tca s rayorig raydir < 0 → sphere_intersect m s rayorig raydir = none := by
    intro s rayorig raydir h
    rw [sphere_intersect_eq, if_pos h]
  have htca : sphere_tca (test_ball : Sphere F) ⟨0, 0, 1⟩ ⟨0, 0, 1⟩ < 0 := by
    simp [sphere_tca, vec_dot, vec_sub, test_ball]
  refine ⟨hall, test_ball, ⟨0, 0, 1⟩, ⟨0, 0, 1⟩, ?_, ?_, htca, hall _ _ _ htca, 1, one_pos, ?_⟩
  · simp [vec_dot, vec_sub, test_ball]
    norm_num
  · simp [vec_dot]
  · simp [vec_dot, vec_sub, hit_point, vec_add, vec_mul_scalar, test_ball]
    norm_num

/-- C11: for a ray whose nearest hit is a sphere with `reflection > 0` or
`transparency > 0`, at `depth < MAX_RAY_DEPTH`, with `powf(x, 3) = x^3`:
`trace` returns
`surfaceColor * (R * fresnel + T * (1 - fresnel) * transparency) + emissionColor`
(componentwise product with `surfaceColor`), where
`fresnel = 0.1 + 0.9 * (1 - facingratio)^3`, `facingratio = -dot(raydir, nhit)`,
`R` is `trace` of the reflected ray from `phit + nhit * bias` at `depth + 1`, and
`T` is `trace` of the refracted ray from `phit - nhit * bias` at `depth + 1` when
`transparency > 0` and `k = 1 - eta^2 * (1 - cosi^2) >= 0`, the zero vector
otherwise. -/
theorem trace_reflective_formula (m : Libm F) (hpow : ∀ x, m.powf x 3 = x ^ 3)
    (rayorig raydir : Vec3f F) (spheres : List (Sphere F)) (depth : Int)
    (tnear : F) (sphere : Sphere F)
    (hhit : nearest_hit m rayorig raydir spheres = some (tnear, sphere))
    (hmat : sphere.reflection > 0 ∨ sphere.transparency > 0)
    (hdepth : depth < MAX_RAY_DEPTH)
    (phit nhit : Vec3f F) (hphit : phit = hit_point rayorig raydir tnear)
    (hnhit : nhit = hit_normal m raydir phit sphere)
    (facingratio fresnel : F) (hfacing : facingratio = -vec_dot raydir nhit)
    (hfresnel : fresnel = 0.1 + 0.9 * (1 - facingratio) ^ 3)
    (eta cosi k : F) (heta : eta = refract_eta (ray_inside m raydir phit sphere))
    (hcosi : cosi = -vec_dot nhit raydir) (hk : k = 1 - eta ^ 2 * (1 - cosi ^ 2))
    (R T : Vec3f F)
    (hR : R = trace m (vec_add phit (vec_mul_scalar nhit bias)) (reflect_dir m raydir nhit)
      spheres (depth + 1))
    (hT : T = if sphere.transparency > 0 ∧ k ≥ 0 then
        trace m (vec_sub phit (vec_mul_scalar nhit bias)) (refract_dir m eta raydir nhit)
          spheres (depth + 1)
      else ⟨0, 0, 0⟩) :
    trace m rayorig raydir spheres depth =
      vec_add
        (vec_mul sphere.surfaceColor
          (vec_add (vec_mul_scalar R fresnel)
            (vec_mul_scalar (vec_mul_scalar T (1 - fresnel)) sphere.transparency)))
        sphere.emissionColor := by
  have hfr : fresnel_effect m raydir nhit = fresnel := by
    rw [hfresnel, hfacing]
    simp only [fresnel_effect, mixf, hpow]
    ring
  have hkk : refract_k eta raydir nhit = k := by
    rw [hk, hcosi]
    simp only [refract_k]
    ring
  have hT' : T =
      (if sphere.transparency > 0 then
        if refract_k eta raydir nhit ≥ 0 then
          trace m (vec_sub phit (vec_mul_scalar nhit bias)) (refract_dir m eta raydir nhit)
            spheres (depth + 1)
        else ⟨0, 0, 0⟩
      else ⟨0, 0, 0⟩) := by
    rw [hT, hkk]
    by_cases h1 : sphere.transparency > 0
    · by_cases h2 : k ≥ 0
      · rw [if_pos ⟨h1, h2⟩, if_pos h1, if_pos h2]
      · rw [if_neg (fun hc => h2 hc.2), if_pos h1, if_neg h2]
    · rw [if_neg (fun hc => h1 hc.1), if_neg h1]
  rw [trace_of_mirror m rayorig raydir spheres depth tnear sphere hhit ⟨hmat.symm, hdepth⟩,
    ← hphit, ← hnhit, ← heta, ← hR, ← hT', hfr]
  simp only [vec_add, vec_mul, vec_mul_scalar, Vec3f.mk.injEq]
  refine ⟨?_, ?_, ?_⟩ <;> ring

/-- C11, at a concrete input: over the reals with the real `sqrt` and power, the
ray from `(0, 0, 5)` along `(0, 0, -1)` hits `test_glass` at distance `3`, in
`phit = (0, 0, 2)` with `nhit = (0, 0, 1)`; there `fresnel = 0.1`, `k = 1`, and
the colour at depth `0` is the stated combination of the two recursive calls. -/
theorem trace_reflective_formula_witness :
    (∀ x : ℝ, x ^ (3 : ℝ) = x ^ 3) ∧
    nearest_hit ⟨Real.sqrt, Real.sin, Real.cos, Real.tan, fun x y => x ^ y⟩
      ⟨0, 0, 5⟩ ⟨0, 0, -1⟩ [(test_glass : Sphere ℝ)] = some (3, test_glass) ∧
    trace ⟨Real.sqrt, Real.sin, Real.cos, Real.tan, fun x y => x ^ y⟩
        ⟨0, 0, 5⟩ ⟨0, 0, -1⟩ [(test_glass : Sphere ℝ)] 0 =
      vec_add
        (vec_mul (test_glass : Sphere ℝ).surfaceColor
          (vec_add
            (vec_mul_scalar
              (trace ⟨Real.sqrt, Real.sin, Real.cos, Real.tan, fun x y => x ^ y⟩
                (vec_add ⟨0, 0, 2⟩ (vec_mul_scalar ⟨0, 0, 1⟩ bias))
                (reflect_dir ⟨Real.sqrt, Real.sin, Real.cos, Real.tan, fun x y => x ^ y⟩
                  ⟨0, 0, -1⟩ ⟨0, 0, 1⟩)
                [(test_glass : Sphere ℝ)] (0 + 1))
              0.1)
            (vec_mul_scalar
              (vec_mul_scalar
                (trace ⟨Real.sqrt, Real.sin, Real.cos, Real.tan, fun x y => x ^ y⟩
                  (vec_sub ⟨0, 0, 2⟩ (vec_mul_scalar ⟨0, 0, 1⟩ bias))
                  (refract_dir ⟨Real.sqrt, Real.sin, Real.cos, Real.tan, fun x y => x ^ y⟩
                    (1 / 1.1) ⟨0, 0, -1⟩ ⟨0, 0, 1⟩)
                  [(test_glass : Sphere ℝ)] (0 + 1))
                (1 - 0.1))
              (test_glass : Sphere ℝ).transparency)))
        (test_glass : Sphere ℝ).emissionColor := by
  have hpow : ∀ x : ℝ, x ^ (3 : ℝ) = x ^ 3 := fun x => by
    exact_mod_cast Real.rpow_natCast x 3
  have hsq : Real.sqrt ((test_glass : Sphere ℝ).radius2 -
      sphere_d2 (test_glass : Sphere ℝ) ⟨0, 0, 5⟩ ⟨0, 0, -1⟩) = 2 :=
    sqrtf_eq_of_mul_self real_libm_exact _ 2 (by norm_num)
      (by simp [sphere_d2, sphere_tca, vec_dot, vec_sub, test_glass])
  have hint : sphere_intersect ⟨Real.sqrt, Real.sin, Real.cos, Real.tan, fun x y => x ^ y⟩
      (test_glass : Sphere ℝ) ⟨0, 0, 5⟩ ⟨0, 0, -1⟩ = some (3, 7) := by
    rw [sphere_intersect_eq]
    simp only [hsq]
    simp [sphere_d2, sphere_tca, vec_dot, vec_sub, test_glass]
    norm_num
  have hhit : nearest_hit ⟨Real.sqrt, Real.sin, Real.cos, Real.tan, fun x y => x ^ y⟩
      ⟨0, 0, 5⟩ ⟨0, 0, -1⟩ [(test_glass : Sphere ℝ)] = some (3, test_glass) := by
    rw [nearest_hit_singleton _ _ _ _ 3 7 hint, if_neg (by norm_num)]
  have hphit : (⟨0, 0, 2⟩ : Vec3f ℝ) = hit_point ⟨0, 0, 5⟩ ⟨0, 0, -1⟩ 3 := by
    simp [hit_point, vec_add, vec_mul_scalar]
    norm_num
  have hlen : vec_length ⟨Real.sqrt, Real.sin, Real.cos, Real.tan, fun x y => x ^ y⟩
      (vec_sub (⟨0, 0, 2⟩ : Vec3f ℝ) (test_glass : Sphere ℝ).center) = 2 := by
    simp only [vec_length]
    exact sqrtf_eq_of_mul_self real_libm_exact _ 2 (by norm_num)
      (by simp [vec_dot, vec_sub, test_glass])
  have hnorm : vec_normalize ⟨Real.sqrt, Real.sin, Real.cos, Real.tan, fun x y => x ^ y⟩
      (vec_sub (⟨0, 0, 2⟩ : Vec3f ℝ) (test_glass : Sphere ℝ).center) = ⟨0, 0, 1⟩ := by
    simp only [vec_normalize, hlen]
    simp [vec_sub, test_glass]
  have hnhit : (⟨0, 0, 1⟩ : Vec3f ℝ) =
      hit_normal ⟨Real.sqrt, Real.sin, Real.cos, Real.tan, fun x y => x ^ y⟩
        ⟨0, 0, -1⟩ ⟨0, 0, 2⟩ test_glass := by
    simp only [hit_normal, hnorm]
    norm_num [vec_dot]
  have hin : ray_inside ⟨Real.sqrt, Real.sin, Real.cos, Real.tan, fun x y => x ^ y⟩
      (⟨0, 0, -1⟩ : Vec3f ℝ) ⟨0, 0, 2⟩ test_glass = false := by
    simp only [ray_inside, hnorm]
    norm_num [vec_dot]
  exact ⟨hpow, hhit,
    trace_reflective_formula _ hpow _ _ _ 0 3 test_glass hhit
      (Or.inl (by norm_num [test_glass])) (by decide)
      ⟨0, 0, 2⟩ ⟨0, 0, 1⟩ hphit hnhit
      1 0.1 (by norm_num [vec_dot]) (by norm_num)
      (1 / 1.1) 1 1 (by rw [hin]; simp [refract_eta]) (by norm_num [vec_dot]) (by norm_num)
      _ _ rfl
      (by rw [if_pos ⟨by norm_num [test_glass], by norm_num⟩])⟩

/-- C12 as stated fails: from the origin, a point of the surface of
`test_touch`, along `(0, 0, -1)` the sphere is reported hit with `t0 = 0` and
`t1 = 2`, and the scan keeps the distance `0`, which is not positive. -/
theorem nearest_hit_distance_not_positive :
    sphere_intersect ⟨Real.sqrt, Real.sin, Real.cos, Real.tan, fun x y => x ^ y⟩
      (test_touch : Sphere ℝ) ⟨0, 0, 0⟩ ⟨0, 0, -1⟩ = some (0, 2) ∧
    nearest_hit ⟨Real.sqrt, Real.sin, Real.cos, Real.tan, fun x y => x ^ y⟩
      ⟨0, 0, 0⟩ ⟨0, 0, -1⟩ [(test_touch : Sphere ℝ)] = some (0, test_touch) ∧
    ¬ (∀ (t : ℝ) (sp : Sphere ℝ),
        nearest_hit ⟨Real.sqrt, Real.sin, Real.cos, Real.tan, fun x y => x ^ y⟩
          ⟨0, 0, 0⟩ ⟨0, 0, -1⟩ [(test_touch : Sphere ℝ)] = some (t, sp) → 0 < t) := by
  have hint : sphere_intersect ⟨Real.sqrt, Real.sin, Real.cos, Real.tan, fun x y => x ^ y⟩
      (test_touch : Sphere ℝ) ⟨0, 0, 0⟩ ⟨0, 0, -1⟩ = some (0, 2) := by
    simp [sphere_intersect, vec_sub, vec_dot, test_touch]
    norm_num
  have hhit : nearest_hit ⟨Real.sqrt, Real.sin, Real.cos, Real.tan, fun x y => x ^ y⟩
      ⟨0, 0, 0⟩ ⟨0, 0, -1⟩ [(test_touch : Sphere ℝ)] = some (0, test_touch) := by
    rw [nearest_hit_singleton _ _ _ _ 0 2 hint, if_neg (lt_irrefl 0)]
  exact ⟨hint, hhit, fun hall => lt_irrefl 0 (hall 0 test_touch hhit)⟩

/-- C12, amended: with an exact math library, whenever some sphere of the scene
is reported hit the scan of `trace` ends with a distance and a sphere; the
distance is non-negative and is the minimum, over all spheres reported hit, of
the per-sphere candidate (`t0`, or `t1` when `t0 < 0`), and the sphere kept is
one of the scene that attains it. -/
theorem nearest_hit_is_minimum (m : Libm F) (hm : m.Exact) (rayorig raydir : Vec3f F)
    (spheres : List (Sphere F)) :
    ((∃ s ∈ spheres, (sphere_intersect m s rayorig raydir).isSome) →
      ∃ t sp, nearest_hit m rayorig raydir spheres = some (t, sp)) ∧
    (∀ t sp, nearest_hit m rayorig raydir spheres = some (t, sp) →
      0 ≤ t ∧ sp ∈ spheres ∧ hit_candidate m sp rayorig raydir = some t ∧
      ∀ s ∈ spheres, ∀ c, hit_candidate m s rayorig raydir = some c → t ≤ c) := by
  obtain ⟨hn, hs⟩ := foldl_nearest_step_spec m rayorig raydir spheres none
  refine ⟨?_, fun t sp h => ?_⟩
  · rintro ⟨s, hmem, hsome⟩
    cases hnh : nearest_hit m rayorig raydir spheres with
    | none =>
      have hc := (hn hnh).2 s hmem
      unfold hit_candidate at hc
      cases hsi : sphere_intersect m s rayorig raydir with
      | none => rw [hsi] at hsome; cases hsome
      | some p => rw [hsi] at hc; cases hc
    | some q => exact ⟨q.1, q.2, rfl⟩
  · obtain ⟨h1, h2, _⟩ := hs t sp h
    rcases h1 with h1 | ⟨hmem, hcand⟩
    · cases h1
    · exact ⟨hit_candidate_nonneg hm sp rayorig raydir t hcand, hmem, hcand, h2⟩

/-- C12, amended, at a concrete input: over the reals with the real `sqrt`, for
the ray from `(0, 0, 5)` along `(0, 0, -1)` through `setup_scene`. -/
theorem nearest_hit_is_minimum_witness :
    Libm.Exact (⟨Real.sqrt, Real.sin, Real.cos, Real.tan, fun x y => x ^ y⟩ : Libm ℝ) ∧
    ((∃ s ∈ (setup_scene : List (Sphere ℝ)),
        (sphere_intersect ⟨Real.sqrt, Real.sin, Real.cos, Real.tan, fun x y => x ^ y⟩ s
          ⟨0, 0, 5⟩ ⟨0, 0, -1⟩).isSome) →
      ∃ t sp, nearest_hit ⟨Real.sqrt, Real.sin, Real.cos, Real.tan, fun x y => x ^ y⟩
        ⟨0, 0, 5⟩ ⟨0, 0, -1⟩ (setup_scene : List (Sphere ℝ)) = some (t, sp)) ∧
    (∀ t sp, nearest_hit ⟨Real.sqrt, Real.sin, Real.cos, Real.tan, fun x y => x ^ y⟩
        ⟨0, 0, 5⟩ ⟨0, 0, -1⟩ (setup_scene : List (Sphere ℝ)) = some (t, sp) →
      0 ≤ t ∧ sp ∈ (setup_scene : List (Sphere ℝ)) ∧
      hit_candidate ⟨Real.sqrt, Real.sin, Real.cos, Real.tan, fun x y => x ^ y⟩ sp
        ⟨0, 0, 5⟩ ⟨0, 0, -1⟩ = some t ∧
      ∀ s ∈ (setup_scene : List (Sphere ℝ)), ∀ c,
        hit_candidate ⟨Real.sqrt, Real.sin, Real.cos, Real.tan, fun x y => x ^ y⟩ s
          ⟨0, 0, 5⟩ ⟨0, 0, -1⟩ = some c → t ≤ c) :=
  ⟨real_libm_exact, nearest_hit_is_minimum _ real_libm_exact _ _ _⟩

/-- C13: for `width > 0` and `height > 0` with `width * height < 2^32`, the stores
of `render` go, in order, to the indices `0, 1, ..., width * height - 1`: each
index of the buffer below `width * height` is written exactly once and no other
index is written; `(x, y) -> y * width + x` is a bijection from the pixels onto
that range and is what the 32-bit index computation yields; after `render` the
cell `y * width + x` holds `trace(cam.pos, raydir(x, y), spheres, 0)`, whatever
the buffer held before, and the cells from `width * height` on are unchanged. -/
theorem render_writes_each_pixel_once (m : Libm F) (width height : Nat)
    (spheres : List (Sphere F)) (cam : Camera F)
    (hw : 0 < width) (hh : 0 < height) (hsz : width * height < 2 ^ 32) :
    (width < 2 ^ 32 ∧ height < 2 ^ 32) ∧
    render_stores width height = List.range (width * height) ∧
    (∀ i, i < width * height → (render_stores width height).count i = 1) ∧
    (∀ i ∈ render_stores width height, i < width * height) ∧
    (∀ x y, x < width → y < height →
      image_index width x y = y * width + x ∧ y * width + x < width * height) ∧
    (∀ x y x' y', x < width → y < height → x' < width → y' < height →
      y * width + x = y' * width + x' → x = x' ∧ y = y') ∧
    (∀ i, i < width * height → ∃ x y, x < width ∧ y < height ∧ i = y * width + x) ∧
    (∀ (image : Nat → Vec3f F) (x y : Nat), x < width → y < height →
      render m image width height spheres cam (y * width + x) =
        trace m cam.pos (render_raydir m width height cam x y) spheres 0) ∧
    (∀ (image : Nat → Vec3f F) (i : Nat), width * height ≤ i →
      render m image width height spheres cam i = image i) := by
  have hstores : render_stores width height = List.range (width * height) := by
    unfold render_stores
    rw [render_stores_after_rows width height hsz height le_rfl, Nat.mul_comm]
  refine ⟨⟨?_, ?_⟩, hstores, ?_, ?_, ?_, ?_, ?_, ?_, ?_⟩
  · exact lt_of_le_of_lt (Nat.le_mul_of_pos_right width hh) hsz
  · exact lt_of_le_of_lt (Nat.le_mul_of_pos_left height hw) hsz
  · intro i hi
    rw [hstores]
    exact List.count_eq_one_of_mem (List.nodup_range _) (List.mem_range.mpr hi)
  · intro i hi
    rw [hstores] at hi
    exact List.mem_range.mp hi
  · exact fun x y hx hy => ⟨image_index_eq hsz hx hy, pixel_index_lt hx hy⟩
  · exact fun x y x' y' hx _ hx' _ e => pixel_index_inj hx hx' e
  · intro i hi
    refine ⟨i % width, i / width, Nat.mod_lt _ hw, ?_, (Nat.div_add_mod' i width).symm⟩
    rw [Nat.div_lt_iff_lt_mul hw, Nat.mul_comm]
    exact hi
  · intro image x y hx hy
    exact (render_after_rows m image width height spheres cam hsz height le_rfl).1 x y hx hy
  · intro image i hi
    rw [Nat.mul_comm] at hi
    exact (render_after_rows m image width height spheres cam hsz height le_rfl).2 i hi

/-- C13, at a concrete input: the program's `1280 x 720` image of `setup_scene`
from the freshly initialized camera, over the reals. -/
theorem render_writes_each_pixel_once_witness :
    (0 < 1280 ∧ 0 < 720 ∧ 1280 * 720 < 2 ^ 32) ∧
    render_stores 1280 720 = List.range (1280 * 720) ∧
    (∀ (image : Nat → Vec3f ℝ) (x y : Nat), x < 1280 → y < 720 →
      render ⟨Real.sqrt, Real.sin, Real.cos, Real.tan, fun x y => x ^ y⟩ image 1280 720
          setup_scene (camera_init ⟨0, 2, 5⟩) (y * 1280 + x) =
        trace ⟨Real.sqrt, Real.sin, Real.cos, Real.tan, fun x y => x ^ y⟩
          (camera_init (⟨0, 2, 5⟩ : Vec3f ℝ)).pos
          (render_raydir ⟨Real.sqrt, Real.sin, Real.cos, Real.tan, fun x y => x ^ y⟩
            1280 720 (camera_init ⟨0, 2, 5⟩) x y)
          setup_scene 0) :=
  have h := render_writes_each_pixel_once
    (⟨Real.sqrt, Real.sin, Real.cos, Real.tan, fun x y => x ^ y⟩ : Libm ℝ) 1280 720
    setup_scene (camera_init ⟨0, 2, 5⟩) (by norm_num) (by norm_num) (by norm_num)
  ⟨⟨by norm_num, by norm_num, by norm_num⟩, h.2.1, h.2.2.2.2.2.2.2.1⟩

/-- C14: with an exact math library, `vec_normalize(d) = d` for every vector `d`
of length exactly one, and `vec_normalize(v) = v * (1 / length(v))` for every
vector `v` of non-zero length. -/
theorem vec_normalize_unit_and_scaled (m : Libm F) (hm : m.Exact) :
    (∀ d : Vec3f F, vec_length m d = 1 → vec_normalize m d = d) ∧
    (∀ v : Vec3f F, vec_length m v ≠ 0 →
      vec_normalize m v = vec_mul_scalar v (1 / vec_length m v)) := by
  refine ⟨fun d hd => ?_, fun v hv => ?_⟩
  · simp [vec_normalize, hd]
  · have hnn : 0 ≤ vec_dot v v := by
      simp only [vec_dot]
      nlinarith [mul_self_nonneg v.x, mul_self_nonneg v.y, mul_self_nonneg v.z]
    have hpos : 0 < vec_length m v := lt_of_le_of_ne (hm.sqrtf_nonneg _ hnn) (Ne.symm hv)
    simp [vec_normalize, hpos, vec_mul_scalar]

/-- C14, at a concrete input: over the reals with the real `sqrt`, the unit
vector `(0, 0, -1)` is returned as it is, and `(0, 3, 4)`, of length `5`, is
returned scaled by `1 / 5`. -/
theorem vec_normalize_unit_and_scaled_witness :
    Libm.Exact (⟨Real.sqrt, Real.sin, Real.cos, Real.tan, fun x y => x ^ y⟩ : Libm ℝ) ∧
      vec_normalize ⟨Real.sqrt, Real.sin, Real.cos, Real.tan, fun x y => x ^ y⟩
        (⟨0, 0, -1⟩ : Vec3f ℝ) = ⟨0, 0, -1⟩ ∧
      vec_normalize ⟨Real.sqrt, Real.sin, Real.cos, Real.tan, fun x y => x ^ y⟩
        (⟨0, 3, 4⟩ : Vec3f ℝ) = vec_mul_scalar ⟨0, 3, 4⟩ (1 / 5) := by
  have h1 : vec_length ⟨Real.sqrt, Real.sin, Real.cos, Real.tan, fun x y => x ^ y⟩
      (⟨0, 0, -1⟩ : Vec3f ℝ) = 1 := by
    simp [vec_length, vec_dot]
  have h5 : vec_length ⟨Real.sqrt, Real.sin, Real.cos, Real.tan, fun x y => x ^ y⟩
      (⟨0, 3, 4⟩ : Vec3f ℝ) = 5 := by
    simp only [vec_length, vec_dot]
    exact sqrtf_eq_of_mul_self real_libm_exact _ 5 (by norm_num) (by norm_num)
  refine ⟨real_libm_exact, (vec_normalize_unit_and_scaled _ real_libm_exact).1 _ h1, ?_⟩
  have h := (vec_normalize_unit_and_scaled _ real_libm_exact).2 (⟨0, 3, 4⟩ : Vec3f ℝ)
    (by rw [h5]; norm_num)
  rw [h5] at h
  exact h

/-- C15: `vec_normalize((0, 0, 0)) = (0, 0, 0)` whatever `sqrtf` returns; every
divisor of a division `vec_normalize` performs is positive, so none is zero;
and with an exact math library no division at all is performed on the zero
vector. -/
theorem vec_normalize_zero (m : Libm F) :
    vec_normalize m ⟨0, 0, 0⟩ = ⟨0, 0, 0⟩ ∧
    (∀ (a : Vec3f F), ∀ len ∈ vec_normalize_divisors m a, 0 < len ∧ len ≠ 0) ∧
    (m.Exact → vec_normalize_divisors m ⟨0, 0, 0⟩ = []) := by
  refine ⟨?_, ?_, ?_⟩
  · simp only [vec_normalize]
    split_ifs <;> simp
  · intro a len hlen
    simp only [vec_normalize_divisors] at hlen
    split_ifs at hlen with hpos
    · simp only [List.mem_singleton] at hlen
      subst hlen
      exact ⟨hpos, hpos.ne'⟩
    · simp at hlen
  · intro hm
    have h0 : m.sqrtf 0 = 0 := sqrtf_eq_of_mul_self hm 0 0 le_rfl (mul_zero 0)
    simp [vec_normalize_divisors, vec_length, vec_dot, h0]

/-- C16: `trace` is a total function of every input and every integer `depth`.
Recording its calls (`trace_logged` returns the colour of `trace`): an
invocation makes at most two recursive calls, each with `depth + 1` and only
when `depth < MAX_RAY_DEPTH`, so `MAX_RAY_DEPTH - depth` decreases; every
invocation of a run started at `depth` has a depth from `depth` on that is
`depth` itself or at most `MAX_RAY_DEPTH`, so from depth `0` none runs with
`depth > 5`; the number of invocations is finite, below
`2 ^ (MAX_RAY_DEPTH - depth + 1)`, and one when `depth >= MAX_RAY_DEPTH`. -/
theorem trace_calls_bounded (m : Libm F) (rayorig raydir : Vec3f F)
    (spheres : List (Sphere F)) (depth : Int) :
    (trace_logged m rayorig raydir spheres depth).1 = trace m rayorig raydir spheres depth ∧
    (trace_subcalls m rayorig raydir spheres depth).length ≤ 2 ∧
    (∀ c ∈ trace_subcalls m rayorig raydir spheres depth,
      c.2.2 = depth + 1 ∧ depth < MAX_RAY_DEPTH ∧
      (MAX_RAY_DEPTH - c.2.2).toNat < (MAX_RAY_DEPTH - depth).toNat) ∧
    (trace_logged m rayorig raydir spheres depth).2 =
      depth ::
        ((trace_subcalls m rayorig raydir spheres depth).map
          (fun c => (trace_logged m c.1 c.2.1 spheres c.2.2).2)).flatten ∧
    (∀ k ∈ (trace_logged m rayorig raydir spheres depth).2,
      depth ≤ k ∧ (k = depth ∨ k ≤ MAX_RAY_DEPTH)) ∧
    (∀ k ∈ (trace_logged m rayorig raydir spheres 0).2, 0 ≤ k ∧ k ≤ 5) ∧
    (trace_logged m rayorig raydir spheres depth).2.length + 1 ≤
      2 ^ ((MAX_RAY_DEPTH - depth).toNat + 1) ∧
    (trace_logged m rayorig raydir spheres 0).2.length ≤ 63 ∧
    (MAX_RAY_DEPTH ≤ depth → (trace_logged m rayorig raydir spheres depth).2 = [depth]) := by
  obtain ⟨h1, h2, h3⟩ := trace_logged_spec m spheres (MAX_RAY_DEPTH - depth).toNat depth
    rayorig raydir le_rfl
  obtain ⟨_, z2, z3⟩ := trace_logged_spec m spheres (MAX_RAY_DEPTH - 0).toNat 0
    rayorig raydir le_rfl
  obtain ⟨s1, s2⟩ := trace_subcalls_spec m rayorig raydir spheres depth
  refine ⟨h1, s1, fun c hc => ?_, trace_logged_snd_eq m rayorig raydir spheres depth, h2,
    fun k hk => ?_, h3, ?_, fun hge => ?_⟩
  · obtain ⟨e, hlt⟩ := s2 c hc
    refine ⟨e, hlt, ?_⟩
    rw [e]
    simp only [MAX_RAY_DEPTH] at hlt ⊢
    omega
  · obtain ⟨k0, k1⟩ := z2 k hk
    refine ⟨k0, ?_⟩
    rcases k1 with rfl | k1
    · norm_num
    · exact k1
  · have h63 : (MAX_RAY_DEPTH - 0 : Int).toNat + 1 = 6 := by
      simp [MAX_RAY_DEPTH]
    rw [h63] at z3
    omega
  · have hnb : ∀ (s : Sphere F),
        ¬ ((s.transparency > 0 ∨ s.reflection > 0) ∧ depth < MAX_RAY_DEPTH) :=
      fun s hc => absurd hc.2 (not_lt.mpr hge)
    cases hhit : nearest_hit m rayorig raydir spheres with
    | none => rw [trace_logged_of_no_hit m _ _ _ _ hhit]
    | some p =>
      obtain ⟨tnear, sphere⟩ := p
      rw [trace_logged_of_diffuse m _ _ _ _ tnear sphere hhit (hnb sphere)]

/-- C18: there is a scene in which a sphere lying beyond the light casts a
shadow.  At the top point `(0, 0, 0)` of the diffuse `test_floor`, with normal
`(0, 1, 0)`, the emissive `test_light` is centred at distance `1` along
`(0, 1, 0)` and `test_far` at distance `3`, wholly beyond the light; the shadow
ray is reported hit on `test_far` at `t0 = 2.8999 > 1`, the light then adds the
zero vector, and `trace` of the ray from `(3, 4, 0)` that arrives at that point
returns black, while without `test_far` it returns the light's Lambert term. -/
theorem shadow_from_sphere_behind_light (m : Libm F) (hm : m.Exact) :
    vec_normalize m (vec_sub (test_light : Sphere F).center ⟨0, 0, 0⟩) = ⟨0, 1, 0⟩ ∧
    vec_sub (test_light : Sphere F).center ⟨0, 0, 0⟩ = vec_mul_scalar ⟨0, 1, 0⟩ 1 ∧
    vec_sub (test_far : Sphere F).center ⟨0, 0, 0⟩ = vec_mul_scalar ⟨0, 1, 0⟩ 3 ∧
    (1 + (test_light : Sphere F).radius < 3 - (test_far : Sphere F).radius) ∧
    sphere_intersect m (test_far : Sphere F)
        (vec_add ⟨0, 0, 0⟩ (vec_mul_scalar ⟨0, 1, 0⟩ bias))
        (vec_normalize m (vec_sub (test_light : Sphere F).center ⟨0, 0, 0⟩)) =
      some (2.9999 - 0.1, 2.9999 + 0.1) ∧
    (∀ surfaceColor : Vec3f F,
      light_step m [test_floor, test_light, test_far] test_floor ⟨0, 0, 0⟩ ⟨0, 1, 0⟩ 1
        test_light surfaceColor = vec_add surfaceColor ⟨0, 0, 0⟩) ∧
    (∀ surfaceColor : Vec3f F,
      light_step m [test_floor, test_light] test_floor ⟨0, 0, 0⟩ ⟨0, 1, 0⟩ 1
        test_light surfaceColor = vec_add surfaceColor ⟨0.8, 1.2, 0.6⟩) ∧
    nearest_hit m ⟨3, 4, 0⟩ ⟨-0.6, -0.8, 0⟩ [test_floor, test_light, test_far] =
      some (5, test_floor) ∧
    hit_point (⟨3, 4, 0⟩ : Vec3f F) ⟨-0.6, -0.8, 0⟩ 5 = ⟨0, 0, 0⟩ ∧
    hit_normal m ⟨-0.6, -0.8, 0⟩ ⟨0, 0, 0⟩ (test_floor : Sphere F) = ⟨0, 1, 0⟩ ∧
    trace m ⟨3, 4, 0⟩ ⟨-0.6, -0.8, 0⟩ [test_floor, test_light, test_far] 0 = ⟨0, 0, 0⟩ ∧
    trace m ⟨3, 4, 0⟩ ⟨-0.6, -0.8, 0⟩ [test_floor, test_light] 0 = ⟨0.8, 1.2, 0.6⟩ := by
  have hdir := test_light_dir hm
  have hem : (test_light : Sphere F).emissionColor.x > 0 ∨
      (test_light : Sphere F).emissionColor.y > 0 ∨
      (test_light : Sphere F).emissionColor.z > 0 := by
    left
    simp [test_light]
  have hfloor_dark : ¬ ((test_floor : Sphere F).emissionColor.x > 0 ∨
      (test_floor : Sphere F).emissionColor.y > 0 ∨
      (test_floor : Sphere F).emissionColor.z > 0) := by
    simp [test_floor]
  have hfar_dark : ¬ ((test_far : Sphere F).emissionColor.x > 0 ∨
      (test_far : Sphere F).emissionColor.y > 0 ∨
      (test_far : Sphere F).emissionColor.z > 0) := by
    simp [test_far]
  have hshadow : ∀ surfaceColor : Vec3f F,
      light_step m [test_floor, test_light, test_far] test_floor ⟨0, 0, 0⟩ ⟨0, 1, 0⟩ 1
        test_light surfaceColor = surfaceColor := by
    intro surfaceColor
    apply light_step_of_shadowed
    refine ⟨2, test_far, rfl, by decide, ?_⟩
    rw [hdir, test_shadow_far hm]
    rfl
  have hlit : ∀ surfaceColor : Vec3f F,
      light_step m [test_floor, test_light] test_floor ⟨0, 0, 0⟩ ⟨0, 1, 0⟩ 1
        test_light surfaceColor = vec_add surfaceColor ⟨0.8, 1.2, 0.6⟩ := by
    intro surfaceColor
    rw [light_step_of_lit m _ _ _ _ 1 _ _ hem]
    · rw [hdir]
      simp [vec_mul, vec_mul_scalar, vec_dot, test_floor, test_light]
      norm_num
    · rw [hdir]
      rintro ⟨j, sj, hj, hne, hhit⟩
      match j, hj, hne with
      | 0, hj, _ =>
        simp only [List.getElem?_cons_zero, Option.some.injEq] at hj
        subst hj
        rw [test_shadow_floor m] at hhit
        cases hhit
      | 1, _, hne => exact hne rfl
      | (k + 2), hj, _ => simp at hj
    · rw [hdir]
      simp [vec_dot]
  have hp : hit_point (⟨3, 4, 0⟩ : Vec3f F) ⟨-0.6, -0.8, 0⟩ 5 = ⟨0, 0, 0⟩ := by
    simp [hit_point, vec_add, vec_mul_scalar]
    norm_num
  have hn : hit_normal m ⟨-0.6, -0.8, 0⟩ ⟨0, 0, 0⟩ (test_floor : Sphere F) = ⟨0, 1, 0⟩ :=
    test_floor_normal hm _ (by norm_num)
  have h58 : (5.8 - 0.8 : F) = 5 := by norm_num
  have hhit3 : nearest_hit m ⟨3, 4, 0⟩ ⟨-0.6, -0.8, 0⟩
      [(test_floor : Sphere F), test_light, test_far] = some (5, test_floor) := by
    simp only [nearest_hit, List.foldl_cons, List.foldl_nil, nearest_step,
      test_primary_floor hm, test_primary_light m, test_primary_far m, h58]
    rw [if_neg (by norm_num)]
  have hhit2 : nearest_hit m ⟨3, 4, 0⟩ ⟨-0.6, -0.8, 0⟩
      [(test_floor : Sphere F), test_light] = some (5, test_floor) := by
    simp only [nearest_hit, List.foldl_cons, List.foldl_nil, nearest_step,
      test_primary_floor hm, test_primary_light m, h58]
    rw [if_neg (by norm_num)]
  have hbranch : ∀ depth : Int,
      ¬ (((test_floor : Sphere F).transparency > 0 ∨ (test_floor : Sphere F).reflection > 0) ∧
        depth < MAX_RAY_DEPTH) := by
    intro depth hc
    simp [test_floor] at hc
  refine ⟨hdir, ?_, ?_, ?_, ?_, ?_, hlit, hhit3, hp, hn, ?_, ?_⟩
  · simp [vec_sub, vec_mul_scalar, test_light]
  · simp [vec_sub, vec_mul_scalar, test_far]
  · simp [test_light, test_far]
    norm_num
  · rw [hdir]
    exact test_shadow_far hm
  · intro surfaceColor
    rw [hshadow]
    simp [vec_add]
  · rw [trace_of_diffuse m _ _ _ 0 5 test_floor hhit3 (hbranch 0)]
    simp only [diffuse_shade, hp, hn, light_loop, hshadow,
      light_step_of_dark m _ _ _ _ _ _ _ hfloor_dark,
      light_step_of_dark m _ _ _ _ _ _ _ hfar_dark]
    simp [vec_add, test_floor]
  · rw [trace_of_diffuse m _ _ _ 0 5 test_floor hhit2 (hbranch 0)]
    simp only [diffuse_shade, hp, hn, light_loop, hlit,
      light_step_of_dark m _ _ _ _ _ _ _ hfloor_dark]
    simp [vec_add, test_floor]

/-- C18, at a concrete input: over the reals with the real `sqrt`, `trace` of
the ray from `(3, 4, 0)` returns black once `test_far`, which lies beyond the
light, is added to the scene. -/
theorem shadow_from_sphere_behind_light_witness :
    Libm.Exact (⟨Real.sqrt, Real.sin, Real.cos, Real.tan, fun x y => x ^ y⟩ : Libm ℝ) ∧
    trace ⟨Real.sqrt, Real.sin, Real.cos, Real.tan, fun x y => x ^ y⟩
      ⟨3, 4, 0⟩ ⟨-0.6, -0.8, 0⟩ [(test_floor : Sphere ℝ), test_light, test_far] 0 =
        ⟨0, 0, 0⟩ ∧
    trace ⟨Real.sqrt, Real.sin, Real.cos, Real.tan, fun x y => x ^ y⟩
      ⟨3, 4, 0⟩ ⟨-0.6, -0.8, 0⟩ [(test_floor : Sphere ℝ), test_light] 0 =
        ⟨0.8, 1.2, 0.6⟩ :=
  have h := shadow_from_sphere_behind_light
    (⟨Real.sqrt, Real.sin, Real.cos, Real.tan, fun x y => x ^ y⟩ : Libm ℝ) real_libm_exact
  ⟨real_libm_exact, h.2.2.2.2.2.2.2.2.2.2.1, h.2.2.2.2.2.2.2.2.2.2.2⟩

/-- C20 as stated fails in binary32 arithmetic.  On the scene of `setup_scene`,
at depth `MAX_RAY_DEPTH`, the ray from `(56.90528869628906, 64, -117)` along the
unit direction `(0.6f, -0.8f, 0)` hits the floor `spheres[3]` from outside: the
normal is not flipped, `dot(raydir, nhit) < 0`.  The yellow light `spheres[4]`
has `dot(nhit, lightDir) = 2 ^ (-27) > 0`.  For the shadow ray from
`phit + nhit * bias` toward that light the computed `tca` against the floor
itself is `0`, not negative, and `sphere_intersect` reports a hit with
`t0 = t1 = 0`; no other sphere but the light itself is hit; the shadow loop sets
the transmission to zero and `trace` returns `(0, 0, 0)`.  On the same shadow
origin and direction exact arithmetic gives the negative `tca` and the miss of
the claim. -/
theorem shadow_ray_hits_hit_sphere_binary32 :
    (setup_scene_fl round_f32)[3]? = some scene_floor_f32 ∧
    (setup_scene_fl round_f32)[4]? = some scene_light_f32 ∧
    grazing_raydir = ⟨round_f32 0.6, round_f32 (-0.8), round_f32 0⟩ ∧
    vec_normalize_fl round_f32 sqrtf_f32 grazing_raydir = grazing_raydir ∧
    nearest_hit_fl round_f32 sqrtf_f32 grazing_rayorig grazing_raydir
        (setup_scene_fl round_f32) = some (grazing_tnear, scene_floor_f32) ∧
    ¬ ((scene_floor_f32.transparency > 0 ∨ scene_floor_f32.reflection > 0) ∧
        (5 : Int) < MAX_RAY_DEPTH) ∧
    hit_point_fl round_f32 grazing_rayorig grazing_raydir grazing_tnear = grazing_phit ∧
    vec_normalize_fl round_f32 sqrtf_f32
        (vec_sub_fl round_f32 grazing_phit scene_floor_f32.center) = grazing_nhit ∧
    vec_dot_fl round_f32 grazing_raydir grazing_nhit = -(6034611 / 2 ^ 23) ∧
    hit_normal_fl round_f32 sqrtf_f32 grazing_raydir grazing_phit scene_floor_f32 =
      grazing_nhit ∧
    (scene_light_f32.emissionColor.x > 0 ∨ scene_light_f32.emissionColor.y > 0 ∨
      scene_light_f32.emissionColor.z > 0) ∧
    vec_normalize_fl round_f32 sqrtf_f32
        (vec_sub_fl round_f32 scene_light_f32.center grazing_phit) = grazing_lightdir ∧
    vec_dot_fl round_f32 grazing_nhit grazing_lightdir = 1 / 2 ^ 27 ∧
    vec_add_fl round_f32 grazing_phit
        (vec_mul_scalar_fl round_f32 grazing_nhit (bias_fl round_f32)) = grazing_shadow_orig ∧
    vec_dot_fl round_f32 (vec_sub_fl round_f32 scene_floor_f32.center grazing_shadow_orig)
        grazing_lightdir = 0 ∧
    sphere_intersect_fl round_f32 sqrtf_f32 scene_floor_f32 grazing_shadow_orig
        grazing_lightdir = some (0, 0) ∧
    (setup_scene_fl round_f32).map (fun sj =>
        (sphere_intersect_fl round_f32 sqrtf_f32 sj grazing_shadow_orig
          grazing_lightdir).isSome) = [false, false, false, true, true, false] ∧
    shadow_loop_fl round_f32 sqrtf_f32 4 grazing_shadow_orig grazing_lightdir 0
        (setup_scene_fl round_f32) ⟨1, 1, 1⟩ = ⟨0, 0, 0⟩ ∧
    light_step_fl round_f32 sqrtf_f32 (setup_scene_fl round_f32) scene_floor_f32
        grazing_phit grazing_nhit 4 scene_light_f32 ⟨0, 0, 0⟩ = ⟨0, 0, 0⟩ ∧
    (∀ (sinf cosf tanf : ℚ → ℚ) (powf : ℚ → ℚ → ℚ),
      trace_fl round_f32 ⟨sqrtf_f32, sinf, cosf, tanf, powf⟩ grazing_rayorig grazing_raydir
        (setup_scene_fl round_f32) 5 = ⟨0, 0, 0⟩) ∧
    sphere_tca scene_floor_f32 grazing_shadow_orig grazing_lightdir =
      -(43159379 / 2 ^ 42) ∧
    (∀ m : Libm ℚ,
      sphere_intersect m scene_floor_f32 grazing_shadow_orig grazing_lightdir = none) := by
  have hhit : nearest_hit_fl round_f32 sqrtf_f32 grazing_rayorig grazing_raydir
      (setup_scene_fl round_f32) = some (grazing_tnear, scene_floor_f32) := by decide!
  have hbranch : ¬ ((scene_floor_f32.transparency > 0 ∨ scene_floor_f32.reflection > 0) ∧
      (5 : Int) < MAX_RAY_DEPTH) := fun hc => absurd hc.2 (by decide)
  have htca : sphere_tca scene_floor_f32 grazing_shadow_orig grazing_lightdir =
      -(43159379 / 2 ^ 42) := by decide!
  refine ⟨by decide!, by decide!, by decide!, by decide!, hhit, hbranch, by decide!,
    by decide!, by decide!, by decide!, by decide!, by decide!, by decide!, by decide!,
    by decide!, by decide!, by decide!, by decide!, by decide!, ?_, htca, ?_⟩
  · intro sinf cosf tanf powf
    rw [trace_fl_of_diffuse round_f32 ⟨sqrtf_f32, sinf, cosf, tanf, powf⟩ grazing_rayorig
      grazing_raydir (setup_scene_fl round_f32) 5 grazing_tnear scene_floor_f32 hhit hbranch]
    show diffuse_shade_fl round_f32 sqrtf_f32 grazing_rayorig grazing_raydir
      (setup_scene_fl round_f32) grazing_tnear scene_floor_f32 = ⟨0, 0, 0⟩
    decide!
  · intro m
    apply sphere_intersect_of_behind
    rw [htca]
    norm_num

/-- C20, amended: in exact arithmetic, when the normal at the hit point is not
flipped (the ray arrives from outside: `dot(raydir, normalize(phit - center)) <= 0`)
and a light satisfies `dot(nhit, lightDir) > 0`, the shadow ray from
`phit + nhit * bias` toward that light has `tca < 0` against the hit sphere
itself and `sphere_intersect` reports a miss on it. -/
theorem shadow_ray_misses_hit_sphere (m : Libm F) (raydir phit : Vec3f F)
    (sphere si : Sphere F)
    (hout : vec_dot raydir (vec_normalize m (vec_sub phit sphere.center)) ≤ 0)
    (hdot : vec_dot (hit_normal m raydir phit sphere)
      (vec_normalize m (vec_sub si.center phit)) > 0) :
    hit_normal m raydir phit sphere = vec_normalize m (vec_sub phit sphere.center) ∧
    sphere_tca sphere (vec_add phit (vec_mul_scalar (hit_normal m raydir phit sphere) bias))
      (vec_normalize m (vec_sub si.center phit)) < 0 ∧
    sphere_intersect m sphere
      (vec_add phit (vec_mul_scalar (hit_normal m raydir phit sphere) bias))
      (vec_normalize m (vec_sub si.center phit)) = none := by
  have hn : hit_normal m raydir phit sphere = vec_normalize m (vec_sub phit sphere.center) := by
    simp only [hit_normal]
    rw [if_neg (not_lt.mpr hout)]
  rw [hn] at hdot ⊢
  generalize vec_normalize m (vec_sub si.center phit) = l at hdot ⊢
  have hb : (0 : F) < bias := bias_pos
  have htca : sphere_tca sphere
      (vec_add phit (vec_mul_scalar (vec_normalize m (vec_sub phit sphere.center)) bias)) l < 0 := by
    by_cases hlen : vec_length m (vec_sub phit sphere.center) > 0
    · have hv : vec_normalize m (vec_sub phit sphere.center) =
          vec_mul_scalar (vec_sub phit sphere.center)
            (1 / vec_length m (vec_sub phit sphere.center)) := by
        simp [vec_normalize, hlen, vec_mul_scalar]
      rw [hv] at hdot ⊢
      generalize vec_length m (vec_sub phit sphere.center) = len at hlen hdot ⊢
      have hinv : 0 < 1 / len := one_div_pos.mpr hlen
      generalize 1 / len = inv at hinv hdot ⊢
      simp only [sphere_tca, vec_dot, vec_sub, vec_add, vec_mul_scalar] at hdot ⊢
      have hfac : (phit.x - sphere.center.x) * inv * l.x + (phit.y - sphere.center.y) * inv * l.y +
          (phit.z - sphere.center.z) * inv * l.z =
          inv * ((phit.x - sphere.center.x) * l.x + (phit.y - sphere.center.y) * l.y +
            (phit.z - sphere.center.z) * l.z) := by ring
      rw [hfac] at hdot
      have hvl := (pos_iff_pos_of_mul_pos hdot).mp hinv
      nlinarith [mul_pos hb hdot]
    · have hv : vec_normalize m (vec_sub phit sphere.center) = vec_sub phit sphere.center := by
        simp [vec_normalize, hlen]
      rw [hv] at hdot ⊢
      simp only [sphere_tca, vec_dot, vec_sub, vec_add, vec_mul_scalar] at hdot ⊢
      nlinarith [mul_pos hb hdot]
  refine ⟨rfl, htca, ?_⟩
  rw [sphere_intersect_eq, if_pos htca]

/-- C20, amended, at a concrete input: over the reals with the real `sqrt`, the ray along
`(0, -1, 0)` arriving at the top point `(0, 0, 0)` of `test_floor`, lit by
`test_light` straight above, casts a shadow ray that misses `test_floor`. -/
theorem shadow_ray_misses_hit_sphere_witness :
    vec_dot (⟨0, -1, 0⟩ : Vec3f ℝ)
      (vec_normalize ⟨Real.sqrt, Real.sin, Real.cos, Real.tan, fun x y => x ^ y⟩
        (vec_sub ⟨0, 0, 0⟩ (test_floor : Sphere ℝ).center)) ≤ 0 ∧
    vec_dot
      (hit_normal ⟨Real.sqrt, Real.sin, Real.cos, Real.tan, fun x y => x ^ y⟩
        (⟨0, -1, 0⟩ : Vec3f ℝ) ⟨0, 0, 0⟩ test_floor)
      (vec_normalize ⟨Real.sqrt, Real.sin, Real.cos, Real.tan, fun x y => x ^ y⟩
        (vec_sub (test_light : Sphere ℝ).center ⟨0, 0, 0⟩)) > 0 ∧
    sphere_intersect ⟨Real.sqrt, Real.sin, Real.cos, Real.tan, fun x y => x ^ y⟩
      (test_floor : Sphere ℝ)
      (vec_add ⟨0, 0, 0⟩
        (vec_mul_scalar
          (hit_normal ⟨Real.sqrt, Real.sin, Real.cos, Real.tan, fun x y => x ^ y⟩
            (⟨0, -1, 0⟩ : Vec3f ℝ) ⟨0, 0, 0⟩ test_floor) bias))
      (vec_normalize ⟨Real.sqrt, Real.sin, Real.cos, Real.tan, fun x y => x ^ y⟩
        (vec_sub (test_light : Sphere ℝ).center ⟨0, 0, 0⟩)) = none := by
  have hn : vec_normalize ⟨Real.sqrt, Real.sin, Real.cos, Real.tan, fun x y => x ^ y⟩
      (vec_sub ⟨0, 0, 0⟩ (test_floor : Sphere ℝ).center) = ⟨0, 1, 0⟩ := by
    simp [vec_normalize, vec_length, vec_dot, vec_sub, test_floor]
  have hl : vec_normalize ⟨Real.sqrt, Real.sin, Real.cos, Real.tan, fun x y => x ^ y⟩
      (vec_sub (test_light : Sphere ℝ).center ⟨0, 0, 0⟩) = ⟨0, 1, 0⟩ := by
    simp [vec_normalize, vec_length, vec_dot, vec_sub, test_light]
  have hout : vec_dot (⟨0, -1, 0⟩ : Vec3f ℝ)
      (vec_normalize ⟨Real.sqrt, Real.sin, Real.cos, Real.tan, fun x y => x ^ y⟩
        (vec_sub ⟨0, 0, 0⟩ (test_floor : Sphere ℝ).center)) ≤ 0 := by
    rw [hn]
    simp [vec_dot]
  have hdot : vec_dot
      (hit_normal ⟨Real.sqrt, Real.sin, Real.cos, Real.tan, fun x y => x ^ y⟩
        (⟨0, -1, 0⟩ : Vec3f ℝ) ⟨0, 0, 0⟩ test_floor)
      (vec_normalize ⟨Real.sqrt, Real.sin, Real.cos, Real.tan, fun x y => x ^ y⟩
        (vec_sub (test_light : Sphere ℝ).center ⟨0, 0, 0⟩)) > 0 := by
    simp only [hit_normal]
    rw [hn, hl]
    norm_num [vec_dot]
  exact ⟨hout, hdot, (shadow_ray_misses_hit_sphere _ _ _ _ _ hout hdot).2.2⟩

/-- C21: `trace` depends on the `reflection` coefficients only through the test
`reflection > 0`: for every ray and depth, two scenes whose spheres agree, one
by one, on every field but `reflection`, with each pair of `reflection` values
both positive or both non-positive, give the same colour. -/
theorem trace_reflection_only_through_sign (m : Libm F) (rayorig raydir : Vec3f F)
    (depth : Int) (spheres spheres' : List (Sphere F))
    (h : List.Forall₂ Sphere.same_up_to_reflection spheres spheres') :
    trace m rayorig raydir spheres depth = trace m rayorig raydir spheres' depth :=
  trace_congr_reflection m spheres spheres' h (MAX_RAY_DEPTH - depth).toNat depth le_rfl
    rayorig raydir

/-- C21, at a concrete input: over the reals, doubling every `reflection` value
of `setup_scene` (`0.5`, `0.9`, `0.7`, `0.1` become `1`, `1.8`, `1.4`, `0.2`, the
two lights keep `0`) leaves the colour of the ray from `(0, 0, 5)` along
`(0, 0, -1)` at depth `0` unchanged. -/
theorem trace_reflection_only_through_sign_witness :
    List.Forall₂ Sphere.same_up_to_reflection (setup_scene : List (Sphere ℝ))
      ((setup_scene : List (Sphere ℝ)).map
        (fun s => { s with reflection := s.reflection * 2 })) ∧
    trace ⟨Real.sqrt, Real.sin, Real.cos, Real.tan, fun x y => x ^ y⟩ ⟨0, 0, 5⟩ ⟨0, 0, -1⟩
        (setup_scene : List (Sphere ℝ)) 0 =
      trace ⟨Real.sqrt, Real.sin, Real.cos, Real.tan, fun x y => x ^ y⟩ ⟨0, 0, 5⟩ ⟨0, 0, -1⟩
        ((setup_scene : List (Sphere ℝ)).map
          (fun s => { s with reflection := s.reflection * 2 })) 0 :=
  have h : List.Forall₂ Sphere.same_up_to_reflection (setup_scene : List (Sphere ℝ))
      ((setup_scene : List (Sphere ℝ)).map
        (fun s => { s with reflection := s.reflection * 2 })) := by
    rw [List.forall₂_map_right_iff, List.forall₂_same]
    intro s _
    refine ⟨rfl, rfl, rfl, rfl, rfl, rfl, ?_⟩
    show s.reflection > 0 ↔ s.reflection * 2 > 0
    constructor <;> intro hpos <;> linarith
  ⟨h, trace_reflection_only_through_sign _ _ _ 0 _ _ h⟩

end Claims

end Raytracer
